import Mathlib

/-!
Shallow embedding of the `lightsoffsolver` core (bit-packed GF(2) linear
algebra) and proofs about it.

The Rust sources embedded here are:
  * `src/bitvec.rs` — packed boolean vector (`BitVec`);
  * `src/bitmat.rs` — matrix of equal-length `BitVec` rows (`BitMat`);
  * `src/bitalg.rs` — Gaussian elimination and minimum-weight solve
    (`BitGauss`);
  * `src/ligsol.rs` — reduction of the Lights Off puzzle (`LightsSolver`).

Machine words (`usize`, 64-bit target) are modelled as `Nat` kept below
`2 ^ 64`; buffers are `List Nat`.  Out-of-bounds `Vec` indexing, which
panics in Rust, is modelled by `List.getD`, `List.set` (reads give `0`,
writes are dropped); theorems carry the bounds hypotheses that make every
access in-bounds, so they only speak about non-panicking executions.
-/

namespace LOS

/-- Word size of the 64-bit target (`WORDSIZE` in `bitvec.rs`). -/
def WORDSIZE : Nat := 64

/-- Shift that divides by the word size (`BIT_SHIFT` in `bitvec.rs`). -/
def BIT_SHIFT : Nat := 6

/-- Low-bits mask (`BIT_MASK` in `bitvec.rs`). -/
def BIT_MASK : Nat := WORDSIZE - 1

/-- Value of `usize::max_value()` on the 64-bit target. -/
def USIZE_MAX : Nat := 2 ^ WORDSIZE - 1

/-- Index in the buffer by vector index (`buf_index` in `bitvec.rs`). -/
def buf_index (index : Nat) : Nat := index >>> BIT_SHIFT

/-- Index in the usize chunk by vector index (`bit_index` in `bitvec.rs`). -/
def bit_index (index : Nat) : Nat := index &&& BIT_MASK

/-- Bit mask for bit operations by vector index (`bit_mask` in `bitvec.rs`). -/
def bit_mask (index : Nat) : Nat := 1 <<< bit_index index

/-- Number of usize chunks required to store `capacity` bits
(`buf_capacity` in `bitvec.rs`). -/
def buf_capacity (capacity : Nat) : Nat :=
  buf_index capacity + (if bit_index capacity ≠ 0 then 1 else 0)

/-- Create a zeroed buffer able to hold `len` bits (`create_buf` in
`bitvec.rs`). -/
def create_buf (len : Nat) : List Nat := List.replicate (buf_capacity len) 0

/-- A contiguous growable boolean array, each element one bit, grouped into
64-bit words (`BitVec` in `bitvec.rs`). -/
structure BitVec where
  buf : List Nat
  len : Nat
deriving DecidableEq, Repr

instance : Inhabited BitVec := ⟨⟨[], 0⟩⟩

namespace BitVec

/-- Constructs a new, empty `BitVec` (`BitVec::new`). -/
def new : BitVec := ⟨[], 0⟩

/-- Constructs a new, empty `BitVec` with the specified capacity
(`BitVec::with_capacity`). -/
def with_capacity (capacity : Nat) : BitVec := ⟨create_buf capacity, 0⟩

/-- Constructs a new `BitVec` with the specified length, all elements
`false` (`BitVec::with_length`). -/
def with_length (len : Nat) : BitVec := ⟨create_buf len, len⟩

/-- Number of bits the vector can hold without reallocating
(`BitVec::capacity`). -/
def capacity (v : BitVec) : Nat := v.buf.length <<< BIT_SHIFT

/-- Gets element by index (`BitVec::get`); the caller must ensure
`index < len`. -/
def get (v : BitVec) (index : Nat) : Bool :=
  decide ((v.buf.getD (buf_index index) 0 >>> bit_index index) &&& 1 = 1)

/-- Sets element by index (`BitVec::set`); the caller must ensure
`index < len`. -/
def set (v : BitVec) (index : Nat) (value : Bool) : BitVec :=
  if value then
    { v with
      buf := v.buf.set (buf_index index)
               (v.buf.getD (buf_index index) 0 ||| bit_mask index) }
  else
    { v with
      buf := v.buf.set (buf_index index)
               (v.buf.getD (buf_index index) 0 &&& (USIZE_MAX ^^^ bit_mask index)) }

/-- Sets every word of the backing storage to all-zero or all-one bits
(`BitVec::setall`). -/
def setall (v : BitVec) (value : Bool) : BitVec :=
  { v with buf := v.buf.map (fun _ => if value then USIZE_MAX else 0) }

/-- Xors element by index with `value` (`BitVec::xor`). -/
def xor (v : BitVec) (index : Nat) (value : Bool) : BitVec :=
  if value then
    { v with
      buf := v.buf.set (buf_index index)
               (v.buf.getD (buf_index index) 0 ^^^ bit_mask index) }
  else v

/-- Appends an element to the back (`BitVec::push`). -/
def push (v : BitVec) (value : Bool) : BitVec :=
  let len := v.len
  let v1 : BitVec :=
    if v.buf.length = 0 ∨ len = v.capacity then { v with buf := v.buf ++ [0] }
    else v
  BitVec.set { v1 with len := len + 1 } len value

/-- Removes and returns the last element (`BitVec::pop`). -/
def pop (v : BitVec) : BitVec × Option Bool :=
  if v.len = 0 then (v, none)
  else ({ v with len := v.len - 1 }, some (v.get (v.len - 1)))

/-- Creates a vector from a string of characters: `1` is `true`, any other
symbol `false` (`BitVec::from`; `from` is a Lean keyword, hence the name). -/
def fromString (string : List Char) : BitVec :=
  string.foldl (fun vec c => vec.push (c = '1')) (with_capacity string.length)

/-- Number of ones of a single 64-bit word (Rust `usize::count_ones`),
counted over the word's 64 bit positions. -/
def wordOnes (w : Nat) : Nat := (List.range WORDSIZE).countP (fun i => w.testBit i)

/-- Returns the number of ones of the vector (`BitVec::count_ones`):
whole words below the tie, plus the masked tie word. -/
def count_ones (v : BitVec) : Nat :=
  if v.len = 0 then 0
  else
    let buf_len := buf_index v.len
    let count := ((List.range buf_len).map (fun i => wordOnes (v.buf.getD i 0))).sum
    let tie_len := bit_index v.len
    if tie_len ≠ 0 then
      count + wordOnes (v.buf.getD buf_len 0 &&& ((1 <<< tie_len) - 1))
    else count

/-- Converts the bit vector to a string of `0` and `1` characters
(`BitVec::stringify`). -/
def stringify (v : BitVec) : List Char :=
  (List.range v.len).map (fun i => if v.get i then '1' else '0')

end BitVec

/-- A growable boolean matrix whose rows are `BitVec` values
(`BitMat` in `bitmat.rs`). -/
structure BitMat where
  rows : List BitVec
deriving DecidableEq, Repr

namespace BitMat

/-- Constructs a new empty `BitMat` (`BitMat::new`). -/
def new : BitMat := ⟨[]⟩

/-- Creates a row of `n_cols` false bits (`BitMat::new_row`). -/
def new_row (n_cols : Nat) : BitVec := BitVec.with_length n_cols

/-- Constructs an `n_rows` by `n_cols` all-false matrix
(`BitMat::with_size`). -/
def with_size (n_rows n_cols : Nat) : BitMat :=
  ⟨List.replicate n_rows (new_row n_cols)⟩

/-- Number of rows (`BitMat::n_rows`). -/
def n_rows (m : BitMat) : Nat := m.rows.length

/-- Number of columns: the first row's length, `0` for an empty matrix
(`BitMat::n_cols`). -/
def n_cols (m : BitMat) : Nat :=
  match m.rows with
  | [] => 0
  | r :: _ => r.len

/-- Swaps row `row_i` with row `row_j` in place (`BitMat::swap`). -/
def swap (m : BitMat) (row_i row_j : Nat) : BitMat :=
  ⟨(m.rows.set row_i (m.rows.getD row_j default)).set row_j
      (m.rows.getD row_i default)⟩

/-- Word-wise xor of two word buffers: Rust `BitMat::xor` iterates over the
words of row `row_j`, xoring each into the same word of row `row_i`; words
of `bi` beyond `bj.length` are untouched. -/
def xorBuf (bi bj : List Nat) : List Nat :=
  (List.zipWith (fun a b => a ^^^ b) bi bj) ++ bi.drop bj.length

/-- Xors row `row_i` in place with row `row_j` (`BitMat::xor`).  Both rows
are read from the pre-state; for `row_i = row_j` this matches the Rust
loop, which reads each word before overwriting it. -/
def xor (m : BitMat) (row_i row_j : Nat) : BitMat :=
  let ri := m.rows.getD row_i default
  let rj := m.rows.getD row_j default
  ⟨m.rows.set row_i { ri with buf := xorBuf ri.buf rj.buf }⟩

/-- Sets `value` at row `row`, column `col` (`BitMat::set`). -/
def set (m : BitMat) (row col : Nat) (value : Bool) : BitMat :=
  ⟨m.rows.set row ((m.rows.getD row default).set col value)⟩

/-- Gets the value at row `row`, column `col` (`BitMat::get`). -/
def get (m : BitMat) (row col : Nat) : Bool :=
  (m.rows.getD row default).get col

/-- Text rendering of the matrix, one newline-terminated line per row
(the `fmt::Display` instance in `bitmat.rs`). -/
def stringify (m : BitMat) : List Char :=
  (m.rows.map (fun r => r.stringify ++ ['\n'])).flatten

/-- Row `r` of the matrix, the default row when out of range
(verification-support accessor). -/
def rget (m : BitMat) (r : Nat) : BitVec := m.rows.getD r default

end BitMat

/-- Well-formedness of a matrix with column count `L`: every row has
logical length `L` and the backing buffer sized for `L` bits. -/
def RowsWF (m : BitMat) (L : Nat) : Prop :=
  ∀ r ∈ m.rows, r.len = L ∧ r.buf.length = buf_capacity L

/-- Parity (xor-fold) of a list of booleans. -/
def parity (l : List Bool) : Bool := l.foldr Bool.xor false

/-- Value of the left-hand side of equation row `r` over `nv` variables at
the assignment `x`: the GF(2) sum of the coefficients selected by `x`. -/
def rowVal (m : BitMat) (nv : Nat) (x : Nat → Bool) (r : Nat) : Bool :=
  parity ((List.range nv).map (fun c => m.get r c && x c))

/-- The assignment `x` satisfies equation row `r` of the augmented system
with `nv` variables: the selected coefficients xor to the augmented bit. -/
def satRow (m : BitMat) (nv : Nat) (x : Nat → Bool) (r : Nat) : Prop :=
  rowVal m nv x r = m.get r nv

/-- The assignment `x` satisfies every equation of the augmented system. -/
def satAll (m : BitMat) (nv : Nat) (x : Nat → Bool) : Prop :=
  ∀ r < m.n_rows, satRow m nv x r

/-- Column `p` is a pivot column of the eliminated matrix: a one at the
diagonal and zeroes everywhere else in the column. -/
def PivotCol (m : BitMat) (p : Nat) : Prop :=
  m.get p p = true ∧ ∀ j < m.n_rows, j ≠ p → m.get j p = false

/-- Column `c` was skipped by elimination: every row from `c` down has a
zero in column `c`. -/
def SkipCol (m : BitMat) (c : Nat) : Prop :=
  ∀ j, c ≤ j → j < m.n_rows → m.get j c = false

/-- Destination row index under a swap of rows `i` and `j`
(`swap(i, j)` exchanges the two positions). -/
def swapIdx (i j r : Nat) : Nat := if r = j then i else if r = i then j else r

/-- Number encoded by a list of bits, least significant first. -/
def boolsToNat (l : List Bool) : Nat :=
  l.foldr (fun b acc => 2 * acc + (if b then 1 else 0)) 0

/-- Hamming weight of the assignment `x` over the variables `0..nv`. -/
def hammingWeight (nv : Nat) (x : Nat → Bool) : Nat :=
  (List.range nv).countP (fun c => x c)

/-- Index of the leading (first true) entry of row `r`, scanning the `nc`
columns left to right. -/
def leadingIndex (m : BitMat) (nc : Nat) (r : Nat) : Option Nat :=
  (List.range nc).find? (fun c => m.get r c)

/-- Reduced row-echelon form over `nc` columns, the standard notion: the
leading entries of nonzero rows move strictly right going down, zero rows
lie below all nonzero rows, and a leading column is zero in every other
row. -/
def RREF (m : BitMat) (nc : Nat) : Prop :=
  (∀ r2 < m.n_rows, ∀ r1 < r2, ∀ c1 < nc, ∀ c2 < nc,
    leadingIndex m nc r1 = some c1 → leadingIndex m nc r2 = some c2 → c1 < c2)
  ∧ (∀ r2 < m.n_rows, ∀ r1 < r2,
      leadingIndex m nc r1 = none → leadingIndex m nc r2 = none)
  ∧ (∀ r < m.n_rows, ∀ c < nc, leadingIndex m nc r = some c →
      ∀ j < m.n_rows, j ≠ r → m.get j c = false)

instance (m : BitMat) (L : Nat) : Decidable (RowsWF m L) := by
  unfold RowsWF
  infer_instance

instance (m : BitMat) (p : Nat) : Decidable (PivotCol m p) := by
  unfold PivotCol
  infer_instance

instance (m : BitMat) (c : Nat) : Decidable (SkipCol m c) := by
  unfold SkipCol
  infer_instance

/-- Number of true cells of a grid with `rows` by `cols` cells. -/
def gridOnes (m : BitMat) (rows cols : Nat) : Nat :=
  ((List.range rows).map (fun r => (List.range cols).countP (fun c => m.get r c))).sum

/-- Gauss algorithm state for `n_rows` logical equations over `n_cols - 1`
variables (`BitGauss` in `bitalg.rs`). -/
structure BitGauss where
  sys : BitMat
  rank : Nat
deriving DecidableEq, Repr

namespace BitGauss

/-- Creates the algorithm from a system matrix (`BitGauss::with`;
`with` is a Lean keyword, hence the name). -/
def withSys (sys : BitMat) : BitGauss := ⟨sys, 0⟩

/-- Swap scan of `BitGauss::gauss` for pivot column `i`: every row
`j = i..n_rows` holding a true bit in column `i` is swapped with row `i`. -/
def swapScan (i n_rows : Nat) (m : BitMat) : BitMat :=
  (List.range' i (n_rows - i)).foldl
    (fun m j => if m.get j i then m.swap j i else m) m

/-- Elimination loop of `BitGauss::gauss` for pivot column `i`: every row
`j ≠ i` holding a true bit in column `i` is xored with row `i`. -/
def elimCol (i n_rows : Nat) (m : BitMat) : BitMat :=
  (List.range n_rows).foldl
    (fun m j => if m.get j i ∧ j ≠ i then m.xor j i else m) m

/-- Generalized swap scan starting at row `s` for `len` rows
(verification-support; `swapScan i n m = swapScanFrom i i (n - i) m`). -/
def swapScanFrom (i s len : Nat) (m : BitMat) : BitMat :=
  (List.range' s len).foldl (fun m j => if m.get j i then m.swap j i else m) m

/-- First `t` iterations of the elimination loop for pivot column `i`
(verification-support; `elimCol i n m = elimUpTo i n m`). -/
def elimUpTo (i t : Nat) (m : BitMat) : BitMat :=
  (List.range t).foldl (fun m j => if m.get j i ∧ j ≠ i then m.xor j i else m) m

/-- Body of the outer loop of `BitGauss::gauss` for pivot candidate
column `i`: the swap scan over rows `i..n_rows`, the skip test on the
diagonal, the rank update and the column elimination. -/
def gaussStep (g : BitGauss) (i : Nat) : BitGauss :=
  let n_rows := g.sys.n_rows
  let m1 := swapScan i n_rows g.sys
  if ¬ m1.get i i then { g with sys := m1 }
  else ⟨elimCol i n_rows m1, i + 1⟩

/-- Gausses the system (`BitGauss::gauss`): for each candidate pivot
column `0..n_rows` run `gaussStep`. -/
def gauss (g : BitGauss) : BitGauss :=
  (List.range g.sys.n_rows).foldl gaussStep g

/-- The `rest` vector of the minimum-weight search at subset index `i`:
a vector of `n_rest` bits whose first backing word is set to `i`. -/
def restVec (n_rest i : Nat) : BitVec := ⟨(create_buf n_rest).set 0 i, n_rest⟩

/-- Accumulation loop of `BitGauss::solve`: for each pivot row `j`, xor
into accumulator bit `j` the coefficients at the free columns selected by
`rest`, then the augmented bit. -/
def accumulate (g : BitGauss) (rank n_rest n_vars : Nat) (rest : BitVec)
    (acc0 : BitVec) : BitVec :=
  (List.range rank).foldl
    (fun a j =>
      let a1 := (List.range n_rest).foldl
        (fun a k => if rest.get k then a.xor j (g.sys.get j (rank + k)) else a) a
      a1.xor j (g.sys.get j n_vars)) acc0

/-- One candidate of the minimum-weight search of `BitGauss::solve`: for
free-variable subset index `i`, the `rest` vector, the accumulator of the
pivot-variable values, and the weight. -/
def solveCandidate (g : BitGauss) (rank n_rest n_vars n_rows : Nat) (i : Nat) :
    BitVec × BitVec × Nat :=
  let rest := restVec n_rest i
  let accumulator := accumulate g rank n_rest n_vars rest
    (BitVec.with_length n_rows)
  (rest, accumulator, rest.count_ones + accumulator.count_ones)

/-- Writing of a newly best solution in `BitGauss::solve`: pivot bits from
the accumulator, then free bits from `rest`. -/
def writeSolution (rank n_rest : Nat) (acc rest s : BitVec) : BitVec :=
  let sol1 := (List.range rank).foldl (fun s j => s.set j (acc.get j)) s
  (List.range n_rest).foldl (fun s j => s.set (rank + j) (rest.get j)) sol1

/-- One iteration of the minimum-weight fold of `BitGauss::solve`:
candidate `i` replaces the recorded solution exactly on strict weight
improvement. -/
def solveStep (g : BitGauss) (rank n_rest n_vars n_rows : Nat)
    (st : Nat × BitVec) (i : Nat) : Nat × BitVec :=
  let c := solveCandidate g rank n_rest n_vars n_rows i
  if c.2.2 < st.1 then (c.2.2, writeSolution rank n_rest c.2.1 c.1 st.2) else st

/-- The unique-solution branch of `BitGauss::solve` (`rank = n_vars`):
solution bit `i` is the augmented bit of row `i`. -/
def solveUnique (g : BitGauss) (n_rows n_vars : Nat) : BitVec :=
  (List.range n_rows).foldl (fun s i => s.set i (g.sys.get i n_vars))
    (BitVec.with_length n_vars)

/-- Finds the shortest solution of the system (`BitGauss::solve`).
Returns the post-elimination state together with the optional solution. -/
def solve (g0 : BitGauss) : BitGauss × Option BitVec :=
  let g := gauss g0
  let n_rows := g.sys.n_rows
  let n_cols := g.sys.n_cols
  let n_vars := n_cols - 1
  let rank := g.rank
  if (List.range' rank (n_rows - rank)).any (fun i => g.sys.get i n_vars) then
    (g, none)
  else
    if rank = n_vars then (g, some (solveUnique g n_rows n_vars))
    else
      let n_rest := n_vars - rank
      let n_solutions := 1 <<< n_rest
      let result := (List.range n_solutions).foldl
        (solveStep g rank n_rest n_vars n_rows)
        (n_cols, BitVec.with_length n_vars)
      (g, some result.2)

end BitGauss

/-- First `k` iterations of the outer loop of `BitGauss::gauss`. -/
def gaussUpTo (g : BitGauss) (k : Nat) : BitGauss :=
  (List.range k).foldl BitGauss.gaussStep g

/-- Invariant of the outer loop of `BitGauss::gauss` after the first `k`
candidate pivot columns of the system `g0` have been processed, the
current state being `g`: well-formedness and row count are preserved, the
satisfying assignments are unchanged, and there is a set `P` of pivot
columns found so far, all below `k`, each in pivot shape, every other
processed column is zero from its diagonal down, and the rank is one more
than the last pivot column (the initial rank if none was found). -/
structure GaussInv (g0 : BitGauss) (L k : Nat) (g : BitGauss) : Prop where
  wf : RowsWF g.sys L
  nr : g.sys.n_rows = g0.sys.n_rows
  sat : ∀ nv x, satAll g0.sys nv x ↔ satAll g.sys nv x
  piv : ∃ P : Finset Nat, (∀ p ∈ P, p < k) ∧ (∀ p ∈ P, PivotCol g.sys p)
    ∧ (∀ c, c < k → c ∉ P → SkipCol g.sys c)
    ∧ ((P = ∅ ∧ g.rank = g0.rank)
        ∨ (∃ pm ∈ P, g.rank = pm + 1 ∧ ∀ p ∈ P, p ≤ pm))

/-- Value of pivot variable `j` in the candidate with free-variable subset
index `i`: the xor of the coefficients at the free columns selected by the
bits of `i`, xored with the augmented bit (specification function for the
accumulator of `BitGauss::solve`). -/
def accVal (g : BitGauss) (rank n_vars n_rest : Nat) (i j : Nat) : Bool :=
  Bool.xor
    (parity ((List.range n_rest).map
      (fun k => Nat.testBit i k && g.sys.get j (rank + k))))
    (g.sys.get j n_vars)

/-- The full assignment of the candidate with free-variable subset index
`i`: pivot variables from `accVal`, free variables from the bits of `i`. -/
def candFun (g : BitGauss) (rank n_vars n_rest : Nat) (i : Nat) : Nat → Bool :=
  fun c =>
    if c < rank then accVal g rank n_vars n_rest i c
    else if c < n_vars then Nat.testBit i (c - rank) else false

/-- Weight of the candidate with free-variable subset index `i`. -/
def candWeight (g : BitGauss) (rank n_vars n_rest : Nat) (i : Nat) : Nat :=
  (List.range n_rest).countP (fun k => Nat.testBit i k)
    + (List.range rank).countP (fun j => accVal g rank n_vars n_rest i j)

/-- Free-variable subset index encoding the free part of the assignment
`y`. -/
def encodeFree (rank n_rest : Nat) (y : Nat → Bool) : Nat :=
  boolsToNat ((List.range n_rest).map (fun k => y (rank + k)))

/-- Index in the system matrix of field cell `(row, col)`, `-1` when out of
the field range (`sys_index` in `ligsol.rs`). -/
def sys_index (row col n_rows n_cols : Int) : Int :=
  if 0 ≤ row ∧ row < n_rows ∧ 0 ≤ col ∧ col < n_cols then n_cols * row + col
  else -1

/-- State of the Lights Off solver (`LightsSolver` in `ligsol.rs`). -/
structure LightsSolver where
  alg : BitGauss
  n_rows : Nat
  n_cols : Nat
  n_solutions : Nat
  min_weight : Nat
deriving DecidableEq, Repr

namespace LightsSolver

/-- Writes of one cell of the `LightsSolver::with` double loop: the cell's
own coefficient, its two column neighbors into its own equation, its own
coefficient into the two row neighbors' equations, and the augmented bit. -/
def withCell (field : BitMat) (n_rows n_cols : Int) (n : Int)
    (sys : BitMat) (row col : Int) : BitMat :=
  let himself := sys_index row col n_rows n_cols
  let sys := sys.set himself.toNat himself.toNat true
  let nb1 := sys_index row (col + 1) n_rows n_cols
  let sys := if nb1 ≥ 0 then sys.set himself.toNat nb1.toNat true else sys
  let nb2 := sys_index row (col - 1) n_rows n_cols
  let sys := if nb2 ≥ 0 then sys.set himself.toNat nb2.toNat true else sys
  let nb3 := sys_index (row + 1) col n_rows n_cols
  let sys := if nb3 ≥ 0 then sys.set nb3.toNat himself.toNat true else sys
  let nb4 := sys_index (row - 1) col n_rows n_cols
  let sys := if nb4 ≥ 0 then sys.set nb4.toNat himself.toNat true else sys
  sys.set himself.toNat n.toNat (field.get row.toNat col.toNat)

/-- Creates the Lights Off solver from the field (`LightsSolver::with`;
`with` is a Lean keyword, hence the name). -/
def withField (field : BitMat) : LightsSolver :=
  let n_rows : Int := field.n_rows
  let n_cols : Int := field.n_cols
  let n : Int := n_rows * n_cols
  let sys0 := BitMat.with_size n.toNat (n + 1).toNat
  let sys := (List.range field.n_rows).foldl
    (fun s (row : Nat) => (List.range field.n_cols).foldl
      (fun s (col : Nat) => withCell field n_rows n_cols n s ↑row ↑col) s) sys0
  { alg := BitGauss.withSys sys
    n_rows := field.n_rows
    n_cols := field.n_cols
    n_solutions := 0
    min_weight := 0 }

/-- Copying of the system solution back to grid shape in
`LightsSolver::solve`: cell `(row, col)` is set when system solution bit
`n_cols * row + col` is true. -/
def gridOfSolution (syssol : BitVec) (n_rows n_cols : Nat) : BitMat :=
  (List.range n_rows).foldl
    (fun s row => (List.range n_cols).foldl
      (fun s col =>
        if syssol.get (n_cols * row + col) then s.set row col true else s)
      s)
    (BitMat.with_size n_rows n_cols)

/-- Finds the shortest press-pattern (`LightsSolver::solve`).  Returns the
post-solve state together with the optional solution grid. -/
def solve (ls : LightsSolver) : LightsSolver × Option BitMat :=
  match BitGauss.solve ls.alg with
  | (alg1, some syssol) =>
      let n_solutions := 1 <<< (ls.n_rows * ls.n_cols - alg1.rank)
      let min_weight := syssol.count_ones
      let sol := gridOfSolution syssol ls.n_rows ls.n_cols
      ({ ls with alg := alg1, n_solutions := n_solutions,
                 min_weight := min_weight }, some sol)
  | (alg1, none) => ({ ls with alg := alg1 }, none)

end LightsSolver

end LOS

namespace LOS

/-! ### List access helpers -/

theorem getD_set_self {α : Type} {l : List α} {i : Nat} (a d : α)
    (h : i < l.length) : (l.set i a).getD i d = a := by
  simp [List.getD_eq_getElem?_getD, List.getElem?_set_self, h]

theorem getD_set_ne {α : Type} {l : List α} {i j : Nat} (a d : α) (h : i ≠ j) :
    (l.set i a).getD j d = l.getD j d := by
  simp [List.getD_eq_getElem?_getD, List.getElem?_set_ne h]

theorem getD_replicate {α : Type} {n i : Nat} (a d : α) :
    (List.replicate n a).getD i d = if i < n then a else d := by
  by_cases h : i < n
  · simp [List.getD_eq_getElem?_getD, List.getElem?_replicate, h]
  · simp only [List.getD_eq_getElem?_getD, if_neg h]
    rw [List.getElem?_eq_none (by simpa using Nat.le_of_not_lt h)]
    rfl

theorem getD_append_left {α : Type} {l1 l2 : List α} {i : Nat} (d : α)
    (h : i < l1.length) : (l1 ++ l2).getD i d = l1.getD i d := by
  simp [List.getD_eq_getElem?_getD, List.getElem?_append_left h]

theorem set_getD_self {α : Type} {l : List α} {i : Nat} (d : α) :
    l.set i (l.getD i d) = l := by
  apply List.ext_getElem?
  intro j
  by_cases hij : i = j
  · subst hij
    by_cases h : i < l.length
    · rw [List.getElem?_set_self (by exact h)]
      simp [List.getD_eq_getElem?_getD, List.getElem?_eq_getElem h]
    · rw [List.set_eq_of_length_le (Nat.le_of_not_lt h)]
  · rw [List.getElem?_set_ne hij]

/-! ### Word index arithmetic -/

theorem buf_index_eq (i : Nat) : buf_index i = i / 64 := by
  show i >>> 6 = i / 64
  rw [Nat.shiftRight_eq_div_pow]

theorem bit_index_eq (i : Nat) : bit_index i = i % 64 := by
  show i &&& 63 = i % 64
  have : (63 : Nat) = 2 ^ 6 - 1 := by norm_num
  rw [this, Nat.and_pow_two_sub_one_eq_mod]

theorem bit_mask_eq (i : Nat) : bit_mask i = 2 ^ (i % 64) := by
  show 1 <<< bit_index i = 2 ^ (i % 64)
  rw [bit_index_eq, Nat.shiftLeft_eq, Nat.one_mul]

theorem usize_max_eq : USIZE_MAX = 2 ^ 64 - 1 := rfl

theorem buf_capacity_eq (c : Nat) :
    buf_capacity c = c / 64 + (if c % 64 ≠ 0 then 1 else 0) := by
  unfold buf_capacity
  rw [buf_index_eq, bit_index_eq]

theorem lt_buf_capacity {c L : Nat} (h : c < L) : c / 64 < buf_capacity L := by
  rw [buf_capacity_eq]
  have h1 : c / 64 ≤ L / 64 := Nat.div_le_div_right (Nat.le_of_lt h)
  have h2 := Nat.div_add_mod L 64
  have h3 := Nat.div_add_mod c 64
  have h4 : c % 64 < 64 := Nat.mod_lt _ (by norm_num)
  by_cases h0 : L % 64 = 0 <;> simp only [h0, ne_eq, not_true_eq_false,
    not_false_eq_true, if_true, if_false] <;> omega

theorem le_mul_buf_capacity (L : Nat) : L ≤ 64 * buf_capacity L := by
  rw [buf_capacity_eq]
  have h2 := Nat.div_add_mod L 64
  have h4 : L % 64 < 64 := Nat.mod_lt _ (by norm_num)
  by_cases h0 : L % 64 = 0 <;> simp only [h0, ne_eq, not_true_eq_false,
    not_false_eq_true, if_true, if_false] <;> omega

theorem word_index_inj {i j : Nat} (hd : i / 64 = j / 64) (hm : i % 64 = j % 64) :
    i = j := by
  have hi := Nat.div_add_mod i 64
  have hj := Nat.div_add_mod j 64
  omega

/-! ### BitVec access lemmas -/

namespace BitVec

theorem get_eq_testBit (v : BitVec) (i : Nat) :
    v.get i = (v.buf.getD (i / 64) 0).testBit (i % 64) := by
  unfold get
  rw [buf_index_eq, bit_index_eq, Nat.testBit_to_div_mod]
  rw [← Nat.shiftRight_eq_div_pow, ← Nat.and_one_is_mod]

theorem len_set (v : BitVec) (i : Nat) (b : Bool) : (v.set i b).len = v.len := by
  cases b <;> rfl

theorem buf_length_set (v : BitVec) (i : Nat) (b : Bool) :
    (v.set i b).buf.length = v.buf.length := by
  cases b <;> simp [set]

theorem len_xor (v : BitVec) (i : Nat) (b : Bool) : (v.xor i b).len = v.len := by
  cases b <;> rfl

theorem buf_length_xor (v : BitVec) (i : Nat) (b : Bool) :
    (v.xor i b).buf.length = v.buf.length := by
  cases b <;> simp [xor]

theorem set_true_def (v : BitVec) (i : Nat) :
    v.set i true =
      ⟨v.buf.set (i / 64) (v.buf.getD (i / 64) 0 ||| 2 ^ (i % 64)), v.len⟩ := by
  show (if true then _ else _) = _
  rw [if_pos rfl, buf_index_eq, bit_mask_eq]

theorem set_false_def (v : BitVec) (i : Nat) :
    v.set i false =
      ⟨v.buf.set (i / 64)
          (v.buf.getD (i / 64) 0 &&& (USIZE_MAX ^^^ 2 ^ (i % 64))), v.len⟩ := by
  show (if false then _ else _) = _
  rw [if_neg (by simp), buf_index_eq, bit_mask_eq]

theorem xor_true_def (v : BitVec) (i : Nat) :
    v.xor i true =
      ⟨v.buf.set (i / 64) (v.buf.getD (i / 64) 0 ^^^ 2 ^ (i % 64)), v.len⟩ := by
  show (if true then _ else _) = _
  rw [if_pos rfl, buf_index_eq, bit_mask_eq]

theorem xor_false_def (v : BitVec) (i : Nat) : v.xor i false = v := by
  show (if false then _ else _) = _
  rw [if_neg (by simp)]

theorem get_set (v : BitVec) (i : Nat) (b : Bool) (hi : i / 64 < v.buf.length)
    (j : Nat) : (v.set i b).get j = if j = i then b else v.get j := by
  have hlt : j % 64 < 64 := Nat.mod_lt _ (by norm_num)
  cases b with
  | true =>
    rw [set_true_def, get_eq_testBit, get_eq_testBit]
    by_cases hw : j / 64 = i / 64
    · show ((v.buf.set (i / 64) _).getD (j / 64) 0).testBit (j % 64) = _
      rw [hw, getD_set_self _ _ hi, Nat.testBit_or, Nat.testBit_two_pow]
      by_cases hij : j = i
      · subst hij; simp
      · have hb : ¬ (i % 64 = j % 64) := fun hb => hij (word_index_inj hw.symm hb).symm
        simp [hij, hb]
    · show ((v.buf.set (i / 64) _).getD (j / 64) 0).testBit (j % 64) = _
      rw [getD_set_ne _ _ (fun h => hw h.symm)]
      have hij : j ≠ i := fun h => hw (by rw [h])
      simp [hij]
  | false =>
    rw [set_false_def, get_eq_testBit, get_eq_testBit]
    by_cases hw : j / 64 = i / 64
    · show ((v.buf.set (i / 64) _).getD (j / 64) 0).testBit (j % 64) = _
      rw [hw, getD_set_self _ _ hi, Nat.testBit_and, Nat.testBit_xor,
        Nat.testBit_two_pow, usize_max_eq, Nat.testBit_two_pow_sub_one]
      by_cases hij : j = i
      · subst hij; simp [hlt]
      · have hb : ¬ (i % 64 = j % 64) := fun hb => hij (word_index_inj hw.symm hb).symm
        simp [hij, hb, hlt]
    · show ((v.buf.set (i / 64) _).getD (j / 64) 0).testBit (j % 64) = _
      rw [getD_set_ne _ _ (fun h => hw h.symm)]
      have hij : j ≠ i := fun h => hw (by rw [h])
      simp [hij]

theorem get_xor (v : BitVec) (i : Nat) (c : Bool) (hi : i / 64 < v.buf.length)
    (j : Nat) :
    (v.xor i c).get j = if j = i then Bool.xor (v.get j) c else v.get j := by
  cases c with
  | false =>
    rw [xor_false_def]
    by_cases hij : j = i <;> simp [hij]
  | true =>
    rw [xor_true_def, get_eq_testBit, get_eq_testBit]
    by_cases hw : j / 64 = i / 64
    · show ((v.buf.set (i / 64) _).getD (j / 64) 0).testBit (j % 64) = _
      rw [hw, getD_set_self _ _ hi, Nat.testBit_xor, Nat.testBit_two_pow]
      by_cases hij : j = i
      · subst hij; simp [Bool.xor_comm]
      · have hb : ¬ (i % 64 = j % 64) := fun hb => hij (word_index_inj hw.symm hb).symm
        simp [hij, hb]
    · show ((v.buf.set (i / 64) _).getD (j / 64) 0).testBit (j % 64) = _
      rw [getD_set_ne _ _ (fun h => hw h.symm)]
      have hij : j ≠ i := fun h => hw (by rw [h])
      simp [hij]

theorem get_with_length (len i : Nat) : (with_length len).get i = false := by
  rw [get_eq_testBit]
  show ((List.replicate (buf_capacity len) 0).getD (i / 64) 0).testBit (i % 64) = false
  rw [getD_replicate]
  by_cases h : i / 64 < buf_capacity len <;> simp [h]

end BitVec

/-! ### Counting ones -/

theorem countP_range_add (a b : Nat) (f : Nat → Bool) :
    (List.range (a + b)).countP f
      = (List.range a).countP f + (List.range b).countP (fun s => f (a + s)) := by
  rw [List.range_add, List.countP_append, List.countP_map]
  rfl

theorem getD_tail (l : List Nat) (a d : Nat) : l.tail.getD a d = l.getD (a + 1) d := by
  cases l <;> rfl

theorem countP_range_testBit_blocks (l : List Nat) (q r : Nat) (hr : r ≤ 64) :
    (List.range (64 * q + r)).countP (fun i => (l.getD (i / 64) 0).testBit (i % 64))
      = ((List.range q).map (fun a => BitVec.wordOnes (l.getD a 0))).sum
        + (List.range r).countP (fun s => (l.getD q 0).testBit s) := by
  induction q generalizing l with
  | zero =>
    simp only [Nat.mul_zero, Nat.zero_add, List.range_zero, List.map_nil,
      List.sum_nil]
    apply List.countP_congr
    intro i hi
    have hlt : i < r := List.mem_range.mp hi
    rw [Nat.div_eq_of_lt (lt_of_lt_of_le hlt hr),
      Nat.mod_eq_of_lt (lt_of_lt_of_le hlt hr)]
  | succ q ih =>
    have heq : 64 * (q + 1) + r = 64 + (64 * q + r) := by ring
    rw [heq, countP_range_add]
    have hfirst : (List.range 64).countP
        (fun i => (l.getD (i / 64) 0).testBit (i % 64))
        = BitVec.wordOnes (l.getD 0 0) := by
      show _ = (List.range WORDSIZE).countP (fun i => (l.getD 0 0).testBit i)
      show _ = (List.range 64).countP (fun i => (l.getD 0 0).testBit i)
      apply List.countP_congr
      intro i hi
      have hlt : i < 64 := List.mem_range.mp hi
      rw [Nat.div_eq_of_lt hlt, Nat.mod_eq_of_lt hlt]
    have hsecond : (List.range (64 * q + r)).countP
        (fun s => (l.getD ((64 + s) / 64) 0).testBit ((64 + s) % 64))
        = ((List.range q).map (fun a => BitVec.wordOnes (l.tail.getD a 0))).sum
          + (List.range r).countP (fun s => (l.tail.getD q 0).testBit s) := by
      rw [← ih l.tail]
      apply List.countP_congr
      intro s _
      have h1 : (64 + s) / 64 = s / 64 + 1 := by
        rw [Nat.add_comm, Nat.add_div_right _ (by norm_num)]
      have h2 : (64 + s) % 64 = s % 64 := Nat.add_mod_left 64 s
      rw [h1, h2, getD_tail]
    rw [hfirst, hsecond, List.range_succ_eq_map, List.map_cons, List.map_map,
      List.sum_cons, getD_tail]
    have hmap : ∀ a : Nat, (l.getD (a + 1) 0) = (l.tail.getD a 0) := fun a =>
      (getD_tail l a 0).symm
    have : (List.range q).map ((fun a => BitVec.wordOnes (l.getD a 0)) ∘ Nat.succ)
        = (List.range q).map (fun a => BitVec.wordOnes (l.tail.getD a 0)) := by
      apply List.map_congr_left
      intro a _
      show BitVec.wordOnes (l.getD (a + 1) 0) = _
      rw [getD_tail]
    rw [this]
    ring

theorem wordOnes_and_mask (w r : Nat) (hr : r ≤ 64) :
    BitVec.wordOnes (w &&& (2 ^ r - 1)) = (List.range r).countP (fun i => w.testBit i) := by
  show (List.range WORDSIZE).countP _ = _
  show (List.range 64).countP (fun i => (w &&& (2 ^ r - 1)).testBit i) = _
  have hsplit : (64 : Nat) = r + (64 - r) := by omega
  rw [hsplit, countP_range_add]
  have h2 : (List.range (64 - r)).countP
      (fun s => (w &&& (2 ^ r - 1)).testBit (r + s)) = 0 := by
    rw [List.countP_eq_zero]
    intro s _
    rw [Nat.testBit_and, Nat.testBit_two_pow_sub_one]
    simp
  have h1 : (List.range r).countP (fun i => (w &&& (2 ^ r - 1)).testBit i)
      = (List.range r).countP (fun i => w.testBit i) := by
    apply List.countP_congr
    intro i hi
    have hlt : i < r := List.mem_range.mp hi
    rw [Nat.testBit_and, Nat.testBit_two_pow_sub_one]
    simp [hlt]
  rw [h1, h2]
  omega

namespace BitVec

theorem count_ones_eq (v : BitVec) :
    v.count_ones = (List.range v.len).countP (fun i => v.get i) := by
  by_cases h0 : v.len = 0
  · simp [count_ones, h0]
  · have hdm := Nat.div_add_mod v.len 64
    have hmlt : v.len % 64 < 64 := Nat.mod_lt _ (by norm_num)
    have hget : (List.range v.len).countP (fun i => v.get i)
        = (List.range (64 * (v.len / 64) + v.len % 64)).countP
            (fun i => (v.buf.getD (i / 64) 0).testBit (i % 64)) := by
      rw [show 64 * (v.len / 64) + v.len % 64 = v.len by omega]
      apply List.countP_congr
      intro i _
      rw [get_eq_testBit]
    rw [hget, countP_range_testBit_blocks _ _ _ (Nat.le_of_lt hmlt)]
    show (if v.len = 0 then 0 else _) = _
    rw [if_neg h0]
    rw [buf_index_eq, bit_index_eq]
    by_cases ht : v.len % 64 = 0
    · rw [if_neg (by simp [ht])]
      rw [ht, List.range_zero, List.countP_nil, Nat.add_zero]
    · rw [if_pos (by simp [ht])]
      rw [show (1 <<< (v.len % 64) - 1) = 2 ^ (v.len % 64) - 1 by
            rw [Nat.shiftLeft_eq, Nat.one_mul],
        wordOnes_and_mask _ _ (Nat.le_of_lt hmlt)]

theorem len_setall (v : BitVec) (b : Bool) : (v.setall b).len = v.len := rfl

theorem buf_length_setall (v : BitVec) (b : Bool) :
    (v.setall b).buf.length = v.buf.length := by
  simp [setall]

theorem getD_map_const (l : List Nat) (c i d : Nat) :
    (l.map (fun _ => c)).getD i d = if i < l.length then c else d := by
  by_cases h : i < l.length
  · rw [if_pos h]
    rw [List.getD_eq_getElem?_getD, List.getElem?_map]
    rw [List.getElem?_eq_getElem h]
    rfl
  · rw [if_neg h]
    rw [List.getD_eq_getElem?_getD, List.getElem?_eq_none (by simpa using Nat.le_of_not_lt h)]
    rfl

theorem get_setall_true (v : BitVec) (i : Nat) :
    (v.setall true).get i = decide (i / 64 < v.buf.length) := by
  rw [get_eq_testBit]
  show ((v.buf.map (fun _ => USIZE_MAX)).getD (i / 64) 0).testBit (i % 64) = _
  rw [getD_map_const]
  by_cases h : i / 64 < v.buf.length
  · rw [if_pos h, usize_max_eq, Nat.testBit_two_pow_sub_one]
    have : i % 64 < 64 := Nat.mod_lt _ (by norm_num)
    simp [h, this]
  · rw [if_neg h]
    simp [h]

theorem get_setall_false (v : BitVec) (i : Nat) : (v.setall false).get i = false := by
  rw [get_eq_testBit]
  show ((v.buf.map (fun _ => 0)).getD (i / 64) 0).testBit (i % 64) = _
  rw [getD_map_const]
  by_cases h : i / 64 < v.buf.length <;> simp [h]

theorem count_ones_setall_true (v : BitVec) (hlen : v.len ≤ 64 * v.buf.length) :
    (v.setall true).count_ones = v.len := by
  rw [count_ones_eq, len_setall]
  have hall : ∀ i ∈ List.range v.len, (v.setall true).get i = true := by
    intro i hi
    have hlt : i < v.len := List.mem_range.mp hi
    rw [get_setall_true]
    have : i / 64 < v.buf.length := by
      apply Nat.div_lt_of_lt_mul
      omega
    simp [this]
  calc (List.range v.len).countP (fun i => (v.setall true).get i)
      = (List.range v.len).countP (fun _ => true) := List.countP_congr
          (fun i hi => by rw [hall i hi])
    _ = v.len := by rw [List.countP_true, List.length_range]

theorem count_ones_setall_false (v : BitVec) : (v.setall false).count_ones = 0 := by
  rw [count_ones_eq, len_setall, List.countP_eq_zero]
  intro i _
  simp [get_setall_false]

theorem capacity_eq (v : BitVec) : v.capacity = 64 * v.buf.length := by
  show v.buf.length <<< 6 = _
  rw [Nat.shiftLeft_eq]
  norm_num
  ring

theorem push_spec (v : BitVec) (b : Bool) (hbuf : v.buf.length ≠ 0)
    (hlen : v.len < 64 * v.buf.length) :
    (v.push b).len = v.len + 1 ∧ (v.push b).buf.length = v.buf.length ∧
      ∀ j, (v.push b).get j = if j = v.len then b else v.get j := by
  have hv1 : (if v.buf.length = 0 ∨ v.len = v.capacity
      then { v with buf := v.buf ++ [0] } else v) = v := by
    rw [if_neg]
    rintro (h | h)
    · exact hbuf h
    · rw [capacity_eq] at h
      omega
  have hdiv : v.len / 64 < v.buf.length := Nat.div_lt_of_lt_mul (by omega)
  constructor
  · show (BitVec.set _ v.len b).len = v.len + 1
    rw [hv1, len_set]
  constructor
  · show (BitVec.set _ v.len b).buf.length = v.buf.length
    rw [hv1, buf_length_set]
  · intro j
    show (BitVec.set _ v.len b).get j = _
    rw [hv1]
    exact get_set ⟨v.buf, v.len + 1⟩ v.len b hdiv j

theorem pushList_spec (s2 : List Char) (v : BitVec) (N : Nat)
    (hN : v.buf.length = N) (hN0 : N ≠ 0) (hcap : v.len + s2.length ≤ 64 * N) :
    (s2.foldl (fun vec c => vec.push (decide (c = '1'))) v).len = v.len + s2.length
    ∧ (s2.foldl (fun vec c => vec.push (decide (c = '1'))) v).buf.length = N
    ∧ (∀ j < v.len,
        (s2.foldl (fun vec c => vec.push (decide (c = '1'))) v).get j = v.get j)
    ∧ ∀ k (h : k < s2.length),
        (s2.foldl (fun vec c => vec.push (decide (c = '1'))) v).get (v.len + k)
          = decide (s2[k] = '1') := by
  induction s2 generalizing v with
  | nil =>
    refine ⟨by simp, by simp [hN], fun j _ => rfl, fun k h => absurd h (by simp)⟩
  | cons c s2 ih =>
    have hpush := push_spec v (decide (c = '1')) (hN ▸ hN0) (by simp at hcap; omega)
    obtain ⟨hl, hb, hg⟩ := hpush
    have ihv := ih (v.push (decide (c = '1'))) (hb.trans hN)
      (by rw [hl]; simp at hcap ⊢; omega)
    obtain ⟨il, ib, ig, ik⟩ := ihv
    have hfold : (c :: s2).foldl (fun vec c => vec.push (decide (c = '1'))) v
        = s2.foldl (fun vec c => vec.push (decide (c = '1'))) (v.push (decide (c = '1'))) := rfl
    refine ⟨?_, ?_, ?_, ?_⟩
    · rw [hfold, il, hl]
      simp
      omega
    · rw [hfold, ib]
    · intro j hj
      rw [hfold, ig j (by omega), hg j, if_neg (by omega)]
    · intro k hk
      rw [hfold]
      match k with
      | 0 =>
        have := ig v.len (by omega)
        rw [Nat.add_zero, this, hg v.len, if_pos rfl]
        rfl
      | Nat.succ k0 =>
        have hk0 : k0 < s2.length := by simp at hk; omega
        have := ik k0 hk0
        rw [hl] at this
        rw [show v.len + (k0 + 1) = v.len + 1 + k0 by omega, this]
        rfl

theorem fromString_spec (s : List Char) :
    (fromString s).len = s.length ∧
      ∀ k (h : k < s.length), (fromString s).get k = decide (s[k] = '1') := by
  rcases s with _ | ⟨c, s2⟩
  · exact ⟨rfl, fun k h => absurd h (by simp)⟩
  · have hN0 : buf_capacity (c :: s2).length ≠ 0 := by
      have := le_mul_buf_capacity (c :: s2).length
      simp at this ⊢
      omega
    have hbl : (with_capacity (c :: s2).length).buf.length
        = buf_capacity (c :: s2).length := by
      simp [with_capacity, create_buf]
    have h0 : (with_capacity (c :: s2).length).len = 0 := rfl
    have h := pushList_spec (c :: s2) (with_capacity (c :: s2).length)
      (buf_capacity (c :: s2).length) hbl hN0
      (by
        have h2 := le_mul_buf_capacity (c :: s2).length
        rw [h0]
        omega)
    obtain ⟨hl, _, _, hk⟩ := h
    have hfs : fromString (c :: s2)
        = (c :: s2).foldl (fun vec c => vec.push (decide (c = '1')))
            (with_capacity (c :: s2).length) := rfl
    constructor
    · rw [hfs, hl, h0, Nat.zero_add]
    · intro k hkl
      have hgk := hk k hkl
      rw [h0, Nat.zero_add] at hgk
      rw [hfs, hgk]

end BitVec

/-- Claim C7: for every `BitVec` of logical length `L` (with the `Rust`
invariant `L ≤ capacity`), `count_ones` counts exactly the true bits at
indices in `[0, L)`; after `setall true` it returns `L`, after
`setall false` it returns `0`, even though `setall` writes every word of
the backing storage (all-ones words after `setall true`). -/
theorem claim_C7 (v : BitVec) (hlen : v.len ≤ 64 * v.buf.length) :
    v.count_ones = (List.range v.len).countP (fun i => v.get i)
    ∧ (v.setall true).count_ones = v.len
    ∧ (v.setall false).count_ones = 0
    ∧ ∀ w ∈ (v.setall true).buf, w = USIZE_MAX := by
  refine ⟨BitVec.count_ones_eq v, BitVec.count_ones_setall_true v hlen,
    BitVec.count_ones_setall_false v, ?_⟩
  intro w hw
  simp only [BitVec.setall, List.mem_map] at hw
  obtain ⟨_, _, hww⟩ := hw
  exact hww.symm

/-- Witness for C7 at the concrete vector built from the string `1011000`. -/
theorem claim_C7_witness :
    (BitVec.fromString ['1','0','1','1','0','0','0']).len
        ≤ 64 * (BitVec.fromString ['1','0','1','1','0','0','0']).buf.length
    ∧ ((BitVec.fromString ['1','0','1','1','0','0','0']).count_ones
        = (List.range (BitVec.fromString ['1','0','1','1','0','0','0']).len).countP
            (fun i => (BitVec.fromString ['1','0','1','1','0','0','0']).get i)
      ∧ ((BitVec.fromString ['1','0','1','1','0','0','0']).setall true).count_ones
          = (BitVec.fromString ['1','0','1','1','0','0','0']).len
      ∧ ((BitVec.fromString ['1','0','1','1','0','0','0']).setall false).count_ones = 0
      ∧ ∀ w ∈ ((BitVec.fromString ['1','0','1','1','0','0','0']).setall true).buf,
          w = USIZE_MAX) :=
  ⟨by decide, claim_C7 _ (by decide)⟩

/-- Claim C8: for every string of `0` and `1` characters, building a
`BitVec` from it and rendering it back returns the same string. -/
theorem claim_C8 (s : List Char) (h : ∀ c ∈ s, c = '0' ∨ c = '1') :
    (BitVec.fromString s).stringify = s := by
  obtain ⟨hl, hk⟩ := BitVec.fromString_spec s
  apply List.ext_getElem
  · simp [BitVec.stringify, hl]
  · intro j h1 h2
    have hj : j < s.length := h2
    simp only [BitVec.stringify, List.getElem_map, List.getElem_range]
    have := hk j hj
    rcases h s[j] (List.getElem_mem hj) with h0 | h0 <;> rw [h0] at this ⊢
    · rw [this]
      simp
    · rw [this]
      simp

/-- Witness for C8 at the concrete string `01101`. -/
theorem claim_C8_witness :
    (∀ c ∈ ['0','1','1','0','1'], c = '0' ∨ c = '1')
    ∧ (BitVec.fromString ['0','1','1','0','1']).stringify = ['0','1','1','0','1'] :=
  ⟨by decide, claim_C8 _ (by decide)⟩

/-! ### BitMat lemmas -/

theorem bne_eq_xor (a b : Bool) : (a != b) = Bool.xor a b := by
  cases a <;> cases b <;> rfl

theorem getD_mem {α : Type} {l : List α} {i : Nat} (d : α) (h : i < l.length) :
    l.getD i d ∈ l := by
  rw [List.getD_eq_getElem?_getD, List.getElem?_eq_getElem h]
  exact List.getElem_mem h

namespace BitMat

theorem get_eq_rget (m : BitMat) (r c : Nat) : m.get r c = (m.rget r).get c := rfl

theorem n_cols_eq_rget_len (m : BitMat) (h : m.rows ≠ []) :
    m.n_cols = (m.rget 0).len := by
  rcases m with ⟨rows⟩
  cases rows with
  | nil => exact absurd rfl h
  | cons r rs => rfl

theorem n_rows_swap (m : BitMat) (i j : Nat) : (m.swap i j).n_rows = m.n_rows := by
  simp [swap, n_rows]

theorem n_rows_xor (m : BitMat) (i j : Nat) : (m.xor i j).n_rows = m.n_rows := by
  simp [xor, n_rows]

theorem n_rows_set (m : BitMat) (r c : Nat) (b : Bool) :
    (m.set r c b).n_rows = m.n_rows := by
  simp [set, n_rows]

theorem rget_swap (m : BitMat) (i j : Nat) (hi : i < m.n_rows) (hj : j < m.n_rows)
    (r : Nat) :
    (m.swap i j).rget r = m.rget (if r = j then i else if r = i then j else r) := by
  unfold rget swap
  by_cases hrj : r = j
  · rw [if_pos hrj, hrj, getD_set_self _ _ (by simpa using hj)]
  · rw [if_neg hrj, getD_set_ne _ _ (fun h => hrj h.symm)]
    by_cases hri : r = i
    · rw [if_pos hri, hri, getD_set_self _ _ hi]
    · rw [if_neg hri, getD_set_ne _ _ (fun h => hri h.symm)]

theorem get_swap (m : BitMat) (i j : Nat) (hi : i < m.n_rows) (hj : j < m.n_rows)
    (r c : Nat) :
    (m.swap i j).get r c = m.get (if r = j then i else if r = i then j else r) c := by
  rw [get_eq_rget, rget_swap m i j hi hj, get_eq_rget]

theorem xorBuf_length (bi bj : List Nat) : (xorBuf bi bj).length = bi.length := by
  unfold xorBuf
  rw [List.length_append, List.length_zipWith, List.length_drop]
  omega

theorem xorBuf_cancel (bi bj : List Nat) : xorBuf (xorBuf bi bj) bj = bi := by
  induction bi generalizing bj with
  | nil => cases bj <;> rfl
  | cons x xs ih =>
    cases bj with
    | nil =>
      show xorBuf (x :: xs) [] = x :: xs
      unfold xorBuf
      simp
    | cons y ys =>
      show ((x ^^^ y) ^^^ y) :: xorBuf (xorBuf xs ys) ys = x :: xs
      rw [Nat.xor_assoc, Nat.xor_self, Nat.xor_zero, ih ys]

theorem getD_xorBuf (bi bj : List Nat) (hlen : bj.length = bi.length) (a : Nat) :
    (xorBuf bi bj).getD a 0 = (bi.getD a 0) ^^^ (bj.getD a 0) := by
  induction bi generalizing bj a with
  | nil =>
    rw [List.length_nil, List.length_eq_zero] at hlen
    subst hlen
    simp [xorBuf]
  | cons x xs ih =>
    cases bj with
    | nil => exact absurd hlen.symm (by simp)
    | cons y ys =>
      cases a with
      | zero => rfl
      | succ a0 =>
        show (xorBuf xs ys).getD a0 0 = _
        simp only [List.length_cons] at hlen
        exact ih ys (by omega) a0

theorem rget_xor (m : BitMat) (i j : Nat) (hi : i < m.n_rows) (r : Nat) :
    (m.xor i j).rget r
      = if r = i then
          { m.rget i with buf := xorBuf (m.rget i).buf (m.rget j).buf }
        else m.rget r := by
  unfold rget xor
  by_cases hri : r = i
  · rw [if_pos hri, hri, getD_set_self _ _ hi]
  · rw [if_neg hri, getD_set_ne _ _ (fun h => hri h.symm)]

theorem get_xor_mat (m : BitMat) (i j : Nat) (hi : i < m.n_rows)
    (hbuf : (m.rget j).buf.length = (m.rget i).buf.length) (r c : Nat) :
    (m.xor i j).get r c
      = if r = i then Bool.xor (m.get i c) (m.get j c) else m.get r c := by
  rw [get_eq_rget, rget_xor m i j hi]
  by_cases hri : r = i
  · rw [if_pos hri, if_pos hri, BitVec.get_eq_testBit]
    show ((xorBuf (m.rget i).buf (m.rget j).buf).getD (c / 64) 0).testBit (c % 64) = _
    rw [getD_xorBuf _ _ hbuf, Nat.testBit_xor,
      get_eq_rget m i c, get_eq_rget m j c, BitVec.get_eq_testBit,
      BitVec.get_eq_testBit]
  · rw [if_neg hri, if_neg hri, get_eq_rget]

theorem rget_set (m : BitMat) (r0 c0 : Nat) (b : Bool) (hr : r0 < m.n_rows)
    (r : Nat) :
    (m.set r0 c0 b).rget r
      = if r = r0 then (m.rget r0).set c0 b else m.rget r := by
  unfold rget set
  by_cases hrr : r = r0
  · rw [if_pos hrr, hrr, getD_set_self _ _ hr]
  · rw [if_neg hrr, getD_set_ne _ _ (fun h => hrr h.symm)]

theorem get_set_mat (m : BitMat) (r0 c0 : Nat) (b : Bool) (hr : r0 < m.n_rows)
    (hc : c0 / 64 < (m.rget r0).buf.length) (r c : Nat) :
    (m.set r0 c0 b).get r c
      = if r = r0 ∧ c = c0 then b else m.get r c := by
  rw [get_eq_rget, rget_set m r0 c0 b hr]
  by_cases hrr : r = r0
  · rw [if_pos hrr, BitVec.get_set _ _ _ hc]
    by_cases hcc : c = c0
    · rw [if_pos hcc, if_pos ⟨hrr, hcc⟩]
    · rw [if_neg hcc, if_neg (fun h => hcc h.2), hrr, get_eq_rget]
  · rw [if_neg hrr, if_neg (fun h => hrr h.1), get_eq_rget]

end BitMat

/-- Claim C9 counterexample: on the 1-by-1 matrix holding a single `true`
bit, `xor 0 0` applied twice zeroes the row instead of restoring it, so the
claim fails for in-bounds indices `i = j = 0`. -/
theorem claim_C9_counterexample :
    0 < (BitMat.mk [⟨[1], 1⟩]).n_rows ∧
      ((BitMat.mk [⟨[1], 1⟩]).xor 0 0).xor 0 0 ≠ BitMat.mk [⟨[1], 1⟩] := by
  decide

theorem list_ext_getD {α : Type} (d : α) {l1 l2 : List α}
    (h : l1.length = l2.length)
    (hp : ∀ r < l1.length, l1.getD r d = l2.getD r d) : l1 = l2 := by
  apply List.ext_getElem h
  intro i h1 h2
  have hgd := hp i h1
  rwa [List.getD_eq_getElem?_getD, List.getElem?_eq_getElem h1,
    List.getD_eq_getElem?_getD, List.getElem?_eq_getElem h2] at hgd

theorem rows_length_xor (m : BitMat) (i j : Nat) :
    (m.xor i j).rows.length = m.rows.length := BitMat.n_rows_xor m i j

/-- Claim C9 (amended): for distinct in-bounds row indices `i` and `j` of
equal buffer length (the matrix invariant), applying `xor i j` twice
restores the matrix exactly. -/
theorem claim_C9 (m : BitMat) (i j : Nat) (hij : i ≠ j) (hi : i < m.n_rows)
    (hj : j < m.n_rows)
    (hbuf : (m.rget j).buf.length = (m.rget i).buf.length) :
    (m.xor i j).xor i j = m := by
  have hn : (m.xor i j).n_rows = m.n_rows := BitMat.n_rows_xor m i j
  have h1 : (m.xor i j).rget i
      = { m.rget i with buf := BitMat.xorBuf (m.rget i).buf (m.rget j).buf } := by
    rw [BitMat.rget_xor m i j hi, if_pos rfl]
  have h2 : (m.xor i j).rget j = m.rget j := by
    rw [BitMat.rget_xor m i j hi, if_neg (fun h => hij h.symm)]
  have hrows : ((m.xor i j).xor i j).rows = m.rows := by
    apply list_ext_getD default
    · rw [rows_length_xor, rows_length_xor]
    · intro r _
      show ((m.xor i j).xor i j).rget r = m.rget r
      rw [BitMat.rget_xor _ i j (by rw [hn]; exact hi)]
      by_cases hri : r = i
      · rw [if_pos hri, hri, h1, h2]
        show BitVec.mk (BitMat.xorBuf
            (BitMat.xorBuf (m.rget i).buf (m.rget j).buf) (m.rget j).buf)
            (m.rget i).len = m.rget i
        rw [BitMat.xorBuf_cancel]
      · rw [if_neg hri, BitMat.rget_xor m i j hi, if_neg hri]
  calc (m.xor i j).xor i j = BitMat.mk (((m.xor i j).xor i j).rows) := rfl
    _ = BitMat.mk m.rows := by rw [hrows]
    _ = m := rfl

/-- Witness for the amended C9 at a concrete 2-by-3 matrix. -/
theorem claim_C9_witness :
    ((0 : Nat) ≠ 1 ∧ 0 < (BitMat.mk [⟨[5], 3⟩, ⟨[3], 3⟩]).n_rows
      ∧ 1 < (BitMat.mk [⟨[5], 3⟩, ⟨[3], 3⟩]).n_rows
      ∧ ((BitMat.mk [⟨[5], 3⟩, ⟨[3], 3⟩]).rget 1).buf.length
          = ((BitMat.mk [⟨[5], 3⟩, ⟨[3], 3⟩]).rget 0).buf.length)
    ∧ ((BitMat.mk [⟨[5], 3⟩, ⟨[3], 3⟩]).xor 0 1).xor 0 1
        = BitMat.mk [⟨[5], 3⟩, ⟨[3], 3⟩] :=
  ⟨by decide, claim_C9 _ 0 1 (by decide) (by decide) (by decide) (by decide)⟩

/-! ### Well-formedness preservation -/

theorem foldl_inv {α β : Type} (f : β → α → β) (l : List α) (b : β)
    (P : β → Prop) (hb : P b) (hf : ∀ x a, a ∈ l → P x → P (f x a)) :
    P (l.foldl f b) := by
  induction l generalizing b with
  | nil => exact hb
  | cons a l ih =>
    exact ih (f b a) (hf b a (List.mem_cons_self a l) hb)
      (fun x a2 ha2 hx => hf x a2 (List.mem_cons_of_mem a ha2) hx)

namespace BitMat

theorem rowsWF_rget {m : BitMat} {L : Nat} (h : RowsWF m L) {r : Nat}
    (hr : r < m.n_rows) :
    (m.rget r).len = L ∧ (m.rget r).buf.length = buf_capacity L :=
  h _ (getD_mem _ hr)

theorem rowsWF_swap {m : BitMat} {L i j : Nat} (h : RowsWF m L)
    (hi : i < m.n_rows) (hj : j < m.n_rows) : RowsWF (m.swap i j) L := by
  intro r hr
  rcases List.mem_or_eq_of_mem_set hr with hr1 | hreq
  · rcases List.mem_or_eq_of_mem_set hr1 with hr2 | hreq2
    · exact h _ hr2
    · rw [hreq2]
      exact h _ (getD_mem _ hj)
  · rw [hreq]
    exact h _ (getD_mem _ hi)

theorem rowsWF_xor {m : BitMat} {L i j : Nat} (h : RowsWF m L)
    (hi : i < m.n_rows) : RowsWF (m.xor i j) L := by
  intro r hr
  rcases List.mem_or_eq_of_mem_set hr with hr1 | hreq
  · exact h _ hr1
  · rw [hreq]
    constructor
    · show (m.rget i).len = L
      exact (h _ (getD_mem _ hi)).1
    · show (xorBuf (m.rget i).buf (m.rget j).buf).length = _
      rw [xorBuf_length]
      exact (h _ (getD_mem _ hi)).2

theorem rowsWF_set {m : BitMat} {L r0 c0 : Nat} {b : Bool} (h : RowsWF m L)
    (hr0 : r0 < m.n_rows) : RowsWF (m.set r0 c0 b) L := by
  intro r hr
  rcases List.mem_or_eq_of_mem_set hr with hr1 | hreq
  · exact h _ hr1
  · rw [hreq, BitVec.len_set, BitVec.buf_length_set]
    exact h _ (getD_mem _ hr0)

theorem lensWF_swap {m : BitMat} {L i j : Nat}
    (h : ∀ r ∈ m.rows, r.len = L) (hi : i < m.n_rows) (hj : j < m.n_rows) :
    ∀ r ∈ (m.swap i j).rows, r.len = L := by
  intro r hr
  rcases List.mem_or_eq_of_mem_set hr with hr1 | hreq
  · rcases List.mem_or_eq_of_mem_set hr1 with hr2 | hreq2
    · exact h _ hr2
    · rw [hreq2]
      exact h _ (getD_mem _ hj)
  · rw [hreq]
    exact h _ (getD_mem _ hi)

theorem lensWF_xor {m : BitMat} {L i j : Nat}
    (h : ∀ r ∈ m.rows, r.len = L) (hi : i < m.n_rows) :
    ∀ r ∈ (m.xor i j).rows, r.len = L := by
  intro r hr
  rcases List.mem_or_eq_of_mem_set hr with hr1 | hreq
  · exact h _ hr1
  · rw [hreq]
    show (m.rget i).len = L
    exact h _ (getD_mem _ hi)

end BitMat

namespace BitGauss

theorem n_rows_swapScan (i n : Nat) (m : BitMat) :
    (swapScan i n m).n_rows = m.n_rows := by
  unfold swapScan
  refine foldl_inv (fun m2 j => if m2.get j i then m2.swap j i else m2)
    (List.range' i (n - i)) m (fun m2 => m2.n_rows = m.n_rows) rfl ?_
  intro x j _ hx
  dsimp only
  by_cases hg : x.get j i
  · rw [if_pos hg, BitMat.n_rows_swap, hx]
  · rwa [if_neg hg]

theorem n_rows_elimCol (i n : Nat) (m : BitMat) :
    (elimCol i n m).n_rows = m.n_rows := by
  unfold elimCol
  refine foldl_inv (fun m2 j => if m2.get j i ∧ j ≠ i then m2.xor j i else m2)
    (List.range n) m (fun m2 => m2.n_rows = m.n_rows) rfl ?_
  intro x j _ hx
  dsimp only
  by_cases hg : x.get j i ∧ j ≠ i
  · rw [if_pos hg, BitMat.n_rows_xor, hx]
  · rwa [if_neg hg]

theorem lensWF_swapScan {L : Nat} (i : Nat) (m : BitMat)
    (h : ∀ r ∈ m.rows, r.len = L) :
    ∀ r ∈ (swapScan i m.n_rows m).rows, r.len = L := by
  unfold swapScan
  refine (foldl_inv (fun m2 j => if m2.get j i then m2.swap j i else m2)
    (List.range' i (m.n_rows - i)) m
    (fun m2 => m2.n_rows = m.n_rows ∧ ∀ r ∈ m2.rows, r.len = L)
    ⟨rfl, h⟩ ?_).2
  intro x j hj hx
  dsimp only
  have hjn : i ≤ j ∧ j < m.n_rows := by
    have := List.mem_range'_1.mp hj
    omega
  by_cases hg : x.get j i
  · rw [if_pos hg]
    refine ⟨by rw [BitMat.n_rows_swap, hx.1], ?_⟩
    exact BitMat.lensWF_swap hx.2 (by rw [hx.1]; omega) (by rw [hx.1]; omega)
  · rwa [if_neg hg]

theorem lensWF_elimCol {L : Nat} (i n : Nat) (m : BitMat)
    (h : ∀ r ∈ m.rows, r.len = L) (hn : m.n_rows = n) :
    ∀ r ∈ (elimCol i n m).rows, r.len = L := by
  unfold elimCol
  refine (foldl_inv (fun m2 j => if m2.get j i ∧ j ≠ i then m2.xor j i else m2)
    (List.range n) m
    (fun m2 => m2.n_rows = m.n_rows ∧ ∀ r ∈ m2.rows, r.len = L)
    ⟨rfl, h⟩ ?_).2
  intro x j hj hx
  dsimp only
  by_cases hg : x.get j i ∧ j ≠ i
  · rw [if_pos hg]
    refine ⟨by rw [BitMat.n_rows_xor, hx.1], ?_⟩
    refine BitMat.lensWF_xor hx.2 ?_
    rw [hx.1, hn]
    exact List.mem_range.mp hj
  · rwa [if_neg hg]

theorem gaussStep_lens {L : Nat} (g : BitGauss) (i : Nat)
    (h : ∀ r ∈ g.sys.rows, r.len = L) :
    (∀ r ∈ (gaussStep g i).sys.rows, r.len = L)
    ∧ (gaussStep g i).sys.n_rows = g.sys.n_rows := by
  unfold gaussStep
  have h1 := lensWF_swapScan i g.sys h
  have hn1 := n_rows_swapScan i g.sys.n_rows g.sys
  by_cases hp : ¬ (swapScan i g.sys.n_rows g.sys).get i i
  · rw [if_pos hp]
    exact ⟨h1, hn1⟩
  · rw [if_neg hp]
    constructor
    · exact lensWF_elimCol i g.sys.n_rows _ h1 hn1
    · show (elimCol i g.sys.n_rows (swapScan i g.sys.n_rows g.sys)).n_rows = _
      rw [n_rows_elimCol, hn1]

theorem gauss_lens {L : Nat} (g : BitGauss) (h : ∀ r ∈ g.sys.rows, r.len = L) :
    (∀ r ∈ (gauss g).sys.rows, r.len = L)
    ∧ (gauss g).sys.n_rows = g.sys.n_rows := by
  unfold gauss
  refine foldl_inv gaussStep (List.range g.sys.n_rows) g
    (fun g2 => (∀ r ∈ g2.sys.rows, r.len = L) ∧ g2.sys.n_rows = g.sys.n_rows)
    ⟨h, rfl⟩ ?_
  intro x i _ hx
  have := gaussStep_lens x i hx.1
  exact ⟨this.1, this.2.trans hx.2⟩

theorem solve_sys_eq (g : BitGauss) : (solve g).1 = gauss g := by
  unfold solve
  dsimp only
  split
  · rfl
  · split <;> rfl

end BitGauss

theorem n_cols_of_nil {m : BitMat} (h : m.rows = []) : m.n_cols = 0 := by
  unfold BitMat.n_cols
  rw [h]

theorem n_cols_of_lens {m : BitMat} {L : Nat} (h : ∀ r ∈ m.rows, r.len = L)
    (hne : m.rows ≠ []) : m.n_cols = L := by
  rcases m with ⟨rows⟩
  cases rows with
  | nil => exact absurd rfl hne
  | cons r rs => exact h r (List.mem_cons_self r rs)

/-- Claim C10: `gauss` and `solve` preserve the matrix dimensions: the row
count, the column count, and the invariant that all rows share one length
`L` are unchanged, and `solve` leaves the matrix exactly as `gauss` left
it. -/
theorem claim_C10 (g : BitGauss) (L : Nat) (hwf : ∀ r ∈ g.sys.rows, r.len = L) :
    (BitGauss.gauss g).sys.n_rows = g.sys.n_rows
    ∧ (∀ r ∈ (BitGauss.gauss g).sys.rows, r.len = L)
    ∧ (BitGauss.gauss g).sys.n_cols = g.sys.n_cols
    ∧ (BitGauss.solve g).1.sys = (BitGauss.gauss g).sys := by
  obtain ⟨h1, h2⟩ := BitGauss.gauss_lens g hwf
  refine ⟨h2, h1, ?_, by rw [BitGauss.solve_sys_eq]⟩
  rcases hne : g.sys.rows with _ | ⟨r, rs⟩
  · have hnil : (BitGauss.gauss g).sys.rows = [] := by
      have hlen : (BitGauss.gauss g).sys.n_rows = 0 := by
        rw [h2]
        show g.sys.rows.length = 0
        rw [hne]
        rfl
      exact List.length_eq_zero.mp hlen
    rw [n_cols_of_nil hnil, n_cols_of_nil hne]
  · have hne1 : g.sys.rows ≠ [] := by rw [hne]; simp
    have hne2 : (BitGauss.gauss g).sys.rows ≠ [] := by
      intro hc
      have : (BitGauss.gauss g).sys.n_rows = 0 := by
        show (BitGauss.gauss g).sys.rows.length = 0
        rw [hc]
        rfl
      rw [h2] at this
      have : g.sys.rows.length = 0 := this
      rw [hne] at this
      simp at this
    rw [n_cols_of_lens h1 hne2, n_cols_of_lens hwf hne1]

/-- Witness for C10 at the concrete two-equation system `011`, `010`. -/
theorem claim_C10_witness :
    (∀ r ∈ (BitGauss.withSys (BitMat.mk [⟨[6], 3⟩, ⟨[2], 3⟩])).sys.rows, r.len = 3)
    ∧ ((BitGauss.gauss (BitGauss.withSys (BitMat.mk [⟨[6], 3⟩, ⟨[2], 3⟩]))).sys.n_rows
        = (BitGauss.withSys (BitMat.mk [⟨[6], 3⟩, ⟨[2], 3⟩])).sys.n_rows
      ∧ (∀ r ∈ (BitGauss.gauss (BitGauss.withSys (BitMat.mk [⟨[6], 3⟩, ⟨[2], 3⟩]))).sys.rows,
          r.len = 3)
      ∧ (BitGauss.gauss (BitGauss.withSys (BitMat.mk [⟨[6], 3⟩, ⟨[2], 3⟩]))).sys.n_cols
          = (BitGauss.withSys (BitMat.mk [⟨[6], 3⟩, ⟨[2], 3⟩])).sys.n_cols
      ∧ (BitGauss.solve (BitGauss.withSys (BitMat.mk [⟨[6], 3⟩, ⟨[2], 3⟩]))).1.sys
          = (BitGauss.gauss (BitGauss.withSys (BitMat.mk [⟨[6], 3⟩, ⟨[2], 3⟩]))).sys) :=
  ⟨by decide, claim_C10 _ 3 (by decide)⟩

/-! ### Satisfaction of equations and its preservation by row operations -/

theorem parity_cons (b : Bool) (l : List Bool) :
    parity (b :: l) = Bool.xor b (parity l) := rfl

theorem parity_map_xor (l : List Nat) (f g : Nat → Bool) :
    parity (l.map (fun c => Bool.xor (f c) (g c)))
      = Bool.xor (parity (l.map f)) (parity (l.map g)) := by
  induction l with
  | nil => rfl
  | cons a l ih =>
    rw [List.map_cons, List.map_cons, List.map_cons, parity_cons, parity_cons,
      parity_cons, ih]
    cases f a <;> cases g a <;> simp [Bool.xor_assoc, Bool.xor_comm,
      Bool.xor_left_comm]

theorem bool_and_xor (a b x : Bool) :
    (Bool.xor a b && x) = Bool.xor (a && x) (b && x) := by
  cases a <;> cases b <;> cases x <;> rfl

theorem bool_xor_cancel (a b c d : Bool) (h1 : Bool.xor a b = Bool.xor c d)
    (h2 : b = d) : a = c := by
  subst h2
  cases a <;> cases b <;> cases c <;> simp_all

theorem swapIdx_invol (i j r : Nat) : swapIdx i j (swapIdx i j r) = r := by
  unfold swapIdx
  split_ifs <;> omega

theorem swapIdx_lt {i j r n : Nat} (hi : i < n) (hj : j < n) (hr : r < n) :
    swapIdx i j r < n := by
  unfold swapIdx
  split_ifs <;> omega

theorem rowVal_swap (m : BitMat) (i j : Nat) (hi : i < m.n_rows)
    (hj : j < m.n_rows) (nv : Nat) (x : Nat → Bool) (r : Nat) :
    rowVal (m.swap i j) nv x r = rowVal m nv x (swapIdx i j r) := by
  unfold rowVal
  congr 1
  apply List.map_congr_left
  intro c _
  rw [BitMat.get_swap m i j hi hj]
  rfl

theorem satRow_swap (m : BitMat) (i j : Nat) (hi : i < m.n_rows)
    (hj : j < m.n_rows) (nv : Nat) (x : Nat → Bool) (r : Nat) :
    satRow (m.swap i j) nv x r ↔ satRow m nv x (swapIdx i j r) := by
  unfold satRow
  rw [rowVal_swap m i j hi hj, BitMat.get_swap m i j hi hj]
  exact Iff.rfl

theorem satAll_swap (m : BitMat) (i j : Nat) (hi : i < m.n_rows)
    (hj : j < m.n_rows) (nv : Nat) (x : Nat → Bool) :
    satAll (m.swap i j) nv x ↔ satAll m nv x := by
  constructor
  · intro h r hr
    have hr2 : swapIdx i j r < m.n_rows := swapIdx_lt hi hj hr
    have := h (swapIdx i j r) (by rw [BitMat.n_rows_swap]; exact hr2)
    rw [satRow_swap m i j hi hj, swapIdx_invol] at this
    exact this
  · intro h r hr
    rw [BitMat.n_rows_swap] at hr
    rw [satRow_swap m i j hi hj]
    exact h _ (swapIdx_lt hi hj hr)

theorem rowVal_xor (m : BitMat) (i j : Nat) (hi : i < m.n_rows)
    (hbuf : (m.rget j).buf.length = (m.rget i).buf.length)
    (nv : Nat) (x : Nat → Bool) (r : Nat) :
    rowVal (m.xor i j) nv x r
      = if r = i then Bool.xor (rowVal m nv x i) (rowVal m nv x j)
        else rowVal m nv x r := by
  by_cases hri : r = i
  · rw [hri, if_pos rfl]
    unfold rowVal
    rw [← parity_map_xor]
    congr 1
    apply List.map_congr_left
    intro c _
    rw [BitMat.get_xor_mat m i j hi hbuf, if_pos rfl, bool_and_xor]
  · rw [if_neg hri]
    unfold rowVal
    congr 1
    apply List.map_congr_left
    intro c _
    rw [BitMat.get_xor_mat m i j hi hbuf, if_neg hri]

theorem satAll_xor (m : BitMat) (i j : Nat) (hij : i ≠ j) (hi : i < m.n_rows)
    (hj : j < m.n_rows)
    (hbuf : (m.rget j).buf.length = (m.rget i).buf.length)
    (nv : Nat) (x : Nat → Bool) :
    satAll (m.xor i j) nv x ↔ satAll m nv x := by
  have haug : ∀ r c, (m.xor i j).get r c
      = if r = i then Bool.xor (m.get i c) (m.get j c) else m.get r c :=
    fun r c => BitMat.get_xor_mat m i j hi hbuf r c
  constructor
  · intro h r hr
    by_cases hri : r = i
    · rw [hri]
      have hsi := h i (by rw [BitMat.n_rows_xor]; exact hi)
      have hsj := h j (by rw [BitMat.n_rows_xor]; exact hj)
      unfold satRow at hsi hsj ⊢
      rw [rowVal_xor m i j hi hbuf, if_pos rfl, haug, if_pos rfl] at hsi
      rw [rowVal_xor m i j hi hbuf, if_neg (Ne.symm hij), haug,
        if_neg (Ne.symm hij)] at hsj
      exact bool_xor_cancel _ _ _ _ hsi hsj
    · have := h r (by rw [BitMat.n_rows_xor]; exact hr)
      unfold satRow at this ⊢
      rw [rowVal_xor m i j hi hbuf, if_neg hri, haug, if_neg hri] at this
      exact this
  · intro h r hr
    rw [BitMat.n_rows_xor] at hr
    by_cases hri : r = i
    · rw [hri]
      have hsi := h i hi
      have hsj := h j hj
      unfold satRow at hsi hsj ⊢
      rw [rowVal_xor m i j hi hbuf, if_pos rfl, haug, if_pos rfl]
      rw [hsi, hsj]
    · have := h r hr
      unfold satRow at this ⊢
      rw [rowVal_xor m i j hi hbuf, if_neg hri, haug, if_neg hri]
      exact this

/-! ### The swap scan of one gauss step -/

theorem swap_self (m : BitMat) (i : Nat) : m.swap i i = m := by
  show BitMat.mk ((m.rows.set i (m.rows.getD i default)).set i
    (m.rows.getD i default)) = m
  rw [List.set_set, set_getD_self]

theorem foldl_fixed {α β : Type} (f : β → α → β) (l : List α) (b : β)
    (h : ∀ a ∈ l, f b a = b) : l.foldl f b = b := by
  induction l with
  | nil => rfl
  | cons a l ih =>
    show l.foldl f (f b a) = b
    rw [h a (List.mem_cons_self a l)]
    exact ih (fun a2 ha2 => h a2 (List.mem_cons_of_mem a ha2))

theorem swapIdx_fix {a b p : Nat} (hap : p ≠ a) (hbp : p ≠ b) :
    swapIdx a b p = p := by
  unfold swapIdx
  rw [if_neg hbp, if_neg hap]

theorem swapIdx_mem (a b r : Nat) :
    swapIdx a b r = r ∨ swapIdx a b r = a ∨ swapIdx a b r = b := by
  unfold swapIdx
  split_ifs <;> simp

theorem pivotCol_swap {m : BitMat} {p a b : Nat} (hp : PivotCol m p)
    (ha : a < m.n_rows) (hb : b < m.n_rows) (hap : a ≠ p) (hbp : b ≠ p) :
    PivotCol (m.swap a b) p := by
  obtain ⟨h1, h2⟩ := hp
  constructor
  · rw [BitMat.get_swap m a b ha hb]
    show m.get (swapIdx a b p) p = true
    rw [swapIdx_fix (Ne.symm hap) (Ne.symm hbp)]
    exact h1
  · intro j hj hjp
    rw [BitMat.n_rows_swap] at hj
    rw [BitMat.get_swap m a b ha hb]
    show m.get (swapIdx a b j) p = false
    apply h2 _ (swapIdx_lt ha hb hj)
    rcases swapIdx_mem a b j with h | h | h <;> rw [h]
    exacts [hjp, hap, hbp]

theorem skipCol_swap {m : BitMat} {c a b : Nat} (hs : SkipCol m c)
    (ha : a < m.n_rows) (hb : b < m.n_rows) (hac : c ≤ a) (hbc : c ≤ b) :
    SkipCol (m.swap a b) c := by
  intro j hcj hj
  rw [BitMat.n_rows_swap] at hj
  rw [BitMat.get_swap m a b ha hb]
  show m.get (swapIdx a b j) c = false
  refine hs _ ?_ (swapIdx_lt ha hb hj)
  rcases swapIdx_mem a b j with h | h | h <;> rw [h]
  exacts [hcj, hac, hbc]

theorem swapScanFrom_succ (i s len : Nat) (m : BitMat) :
    BitGauss.swapScanFrom i s (len + 1) m
      = BitGauss.swapScanFrom i (s + 1) len (if m.get s i then m.swap s i else m) := by
  unfold BitGauss.swapScanFrom
  rw [List.range'_succ]
  rfl

theorem swapScanFrom_spec {L : Nat} (i N : Nat) (len : Nat) :
    ∀ (s : Nat) (m : BitMat), i ≤ s → s + len ≤ N → m.n_rows = N → i < N →
      RowsWF m L →
      RowsWF (BitGauss.swapScanFrom i s len m) L
      ∧ (BitGauss.swapScanFrom i s len m).n_rows = N
      ∧ (∀ nv x, satAll m nv x ↔ satAll (BitGauss.swapScanFrom i s len m) nv x)
      ∧ (∀ r, r < i → (BitGauss.swapScanFrom i s len m).rget r = m.rget r)
      ∧ (∀ p, p < i → PivotCol m p → PivotCol (BitGauss.swapScanFrom i s len m) p)
      ∧ (∀ c, c ≤ i → SkipCol m c → SkipCol (BitGauss.swapScanFrom i s len m) c)
      ∧ ((BitGauss.swapScanFrom i s len m).get i i = true
          ∨ (BitGauss.swapScanFrom i s len m = m
              ∧ ∀ j, s ≤ j → j < s + len → m.get j i = false)) := by
  induction len with
  | zero =>
    intro s m his hsl hN hiN hwf
    exact ⟨hwf, hN, fun nv x => Iff.rfl, fun r _ => rfl, fun p _ hp => hp,
      fun c _ hs => hs,
      Or.inr ⟨rfl, fun j h1 h2 => absurd (h1.trans_lt h2) (by omega)⟩⟩
  | succ len ih =>
    intro s m his hsl hN hiN hwf
    rw [swapScanFrom_succ]
    have hsN : s < N := by omega
    by_cases hg : m.get s i
    · rw [if_pos hg]
      have hsn : s < m.n_rows := by omega
      have hin : i < m.n_rows := by omega
      have hswap_n : (m.swap s i).n_rows = N := by
        rw [BitMat.n_rows_swap]; exact hN
      have H := ih (s + 1) (m.swap s i) (by omega) (by omega) hswap_n hiN
        (BitMat.rowsWF_swap hwf hsn hin)
      obtain ⟨h1, h2, h3, h4, h5, h6, h7⟩ := H
      refine ⟨h1, h2, ?_, ?_, ?_, ?_, ?_⟩
      · intro nv x
        exact ((satAll_swap m s i hsn hin nv x).symm).trans (h3 nv x)
      · intro r hr
        rw [h4 r hr, BitMat.rget_swap m s i hsn hin,
          if_neg (by omega : ¬ r = i), if_neg (by omega : ¬ r = s)]
      · intro p hp hpiv
        exact h5 p hp (pivotCol_swap hpiv hsn hin (by omega) (by omega))
      · intro c hc hskip
        exact h6 c hc (skipCol_swap hskip hsn hin (by omega) (by omega))
      · left
        rcases h7 with h7 | ⟨h7, _⟩
        · exact h7
        · rw [h7, BitMat.get_swap m s i hsn hin]
          show m.get (swapIdx s i i) i = true
          unfold swapIdx
          rw [if_pos rfl]
          exact hg
    · rw [if_neg hg]
      have H := ih (s + 1) m (by omega) (by omega) hN hiN hwf
      obtain ⟨h1, h2, h3, h4, h5, h6, h7⟩ := H
      refine ⟨h1, h2, h3, h4, h5, h6, ?_⟩
      rcases h7 with h7 | ⟨h7, h8⟩
      · exact Or.inl h7
      · refine Or.inr ⟨h7, fun j hj1 hj2 => ?_⟩
        by_cases hjs : j = s
        · rw [hjs]
          exact Bool.not_eq_true _ ▸ (by simpa using hg)
        · exact h8 j (by omega) (by omega)

theorem swapScan_spec {L : Nat} (i N : Nat) (m : BitMat) (hN : m.n_rows = N)
    (hiN : i < N) (hwf : RowsWF m L) :
    RowsWF (BitGauss.swapScan i N m) L
    ∧ (BitGauss.swapScan i N m).n_rows = N
    ∧ (∀ nv x, satAll m nv x ↔ satAll (BitGauss.swapScan i N m) nv x)
    ∧ (∀ r, r < i → (BitGauss.swapScan i N m).rget r = m.rget r)
    ∧ (∀ p, p < i → PivotCol m p → PivotCol (BitGauss.swapScan i N m) p)
    ∧ (∀ c, c ≤ i → SkipCol m c → SkipCol (BitGauss.swapScan i N m) c)
    ∧ ((BitGauss.swapScan i N m).get i i = true
        ∨ (BitGauss.swapScan i N m = m
            ∧ ∀ j, i ≤ j → j < N → m.get j i = false)) := by
  have heq : BitGauss.swapScan i N m = BitGauss.swapScanFrom i i (N - i) m := rfl
  have H := swapScanFrom_spec (L := L) i N (N - i) i m (Nat.le_refl i)
    (by omega) hN hiN hwf
  rw [← heq] at H
  obtain ⟨h1, h2, h3, h4, h5, h6, h7⟩ := H
  refine ⟨h1, h2, h3, h4, h5, h6, ?_⟩
  rcases h7 with h7 | ⟨h7, h8⟩
  · exact Or.inl h7
  · exact Or.inr ⟨h7, fun j hj1 hj2 => h8 j hj1 (by omega)⟩

/-! ### The elimination loop of one gauss step -/

theorem elimUpTo_succ (i t : Nat) (m : BitMat) :
    BitGauss.elimUpTo i (t + 1) m
      = (if (BitGauss.elimUpTo i t m).get t i ∧ t ≠ i
          then (BitGauss.elimUpTo i t m).xor t i else BitGauss.elimUpTo i t m) := by
  unfold BitGauss.elimUpTo
  rw [List.range_succ, List.foldl_append]
  rfl

theorem elimUpTo_spec {L : Nat} (i N : Nat) (m1 : BitMat) (hN : m1.n_rows = N)
    (hiN : i < N) (hwf : RowsWF m1 L) (hpiv : m1.get i i = true) :
    ∀ t, t ≤ N →
      RowsWF (BitGauss.elimUpTo i t m1) L
      ∧ (BitGauss.elimUpTo i t m1).n_rows = N
      ∧ (∀ nv x, satAll m1 nv x ↔ satAll (BitGauss.elimUpTo i t m1) nv x)
      ∧ (BitGauss.elimUpTo i t m1).rget i = m1.rget i
      ∧ (∀ j, j < t → j ≠ i → (BitGauss.elimUpTo i t m1).get j i = false)
      ∧ (∀ j, t ≤ j → (BitGauss.elimUpTo i t m1).rget j = m1.rget j)
      ∧ (∀ c, m1.get i c = false →
          ∀ r, (BitGauss.elimUpTo i t m1).get r c = m1.get r c) := by
  intro t
  induction t with
  | zero =>
    intro _
    exact ⟨hwf, hN, fun nv x => Iff.rfl, rfl, fun j hj _ => absurd hj (by omega),
      fun j _ => rfl, fun c _ r => rfl⟩
  | succ t ih =>
    intro htN
    have prev := ih (by omega)
    obtain ⟨h1, h2, h3, h4, h5, h6, h7⟩ := prev
    have htn : t < (BitGauss.elimUpTo i t m1).n_rows := by omega
    have hin : i < (BitGauss.elimUpTo i t m1).n_rows := by omega
    have hgii : (BitGauss.elimUpTo i t m1).get i i = true := by
      rw [BitMat.get_eq_rget, h4, ← BitMat.get_eq_rget]
      exact hpiv
    rw [elimUpTo_succ]
    by_cases hc : (BitGauss.elimUpTo i t m1).get t i ∧ t ≠ i
    · rw [if_pos hc]
      have hbuf : ((BitGauss.elimUpTo i t m1).rget i).buf.length
          = ((BitGauss.elimUpTo i t m1).rget t).buf.length := by
        rw [(BitMat.rowsWF_rget h1 hin).2, (BitMat.rowsWF_rget h1 htn).2]
      refine ⟨BitMat.rowsWF_xor h1 htn, by rw [BitMat.n_rows_xor]; exact h2,
        ?_, ?_, ?_, ?_, ?_⟩
      · intro nv x
        exact (h3 nv x).trans
          ((satAll_xor _ t i hc.2 htn hin hbuf nv x).symm)
      · rw [BitMat.rget_xor _ t i htn, if_neg (Ne.symm hc.2)]
        exact h4
      · intro j hj hji
        by_cases hjt : j = t
        · rw [hjt, BitMat.get_xor_mat _ t i htn hbuf, if_pos rfl, hc.1, hgii]
          rfl
        · rw [BitMat.get_eq_rget, BitMat.rget_xor _ t i htn, if_neg hjt,
            ← BitMat.get_eq_rget]
          exact h5 j (by omega) hji
      · intro j hj
        rw [BitMat.rget_xor _ t i htn, if_neg (by omega : ¬ j = t)]
        exact h6 j (by omega)
      · intro c hcf r
        have hic : (BitGauss.elimUpTo i t m1).get i c = false := by
          rw [BitMat.get_eq_rget, h4, ← BitMat.get_eq_rget]
          exact hcf
        rw [BitMat.get_xor_mat _ t i htn hbuf]
        by_cases hrt : r = t
        · rw [if_pos hrt, hic, hrt]
          rw [h7 c hcf t]
          cases h : m1.get t c <;> rfl
        · rw [if_neg hrt]
          exact h7 c hcf r
    · rw [if_neg hc]
      refine ⟨h1, h2, h3, h4, ?_, fun j hj => h6 j (by omega), h7⟩
      intro j hj hji
      by_cases hjt : j = t
      · rw [hjt]
        rcases Decidable.not_and_iff_or_not.mp hc with hf | hf
        · exact Bool.not_eq_true _ ▸ (by simpa using hf)
        · exact absurd (hjt ▸ hji) hf
      · exact h5 j (by omega) hji

theorem elimCol_spec {L : Nat} (i N : Nat) (m1 : BitMat) (hN : m1.n_rows = N)
    (hiN : i < N) (hwf : RowsWF m1 L) (hpiv : m1.get i i = true) :
    RowsWF (BitGauss.elimCol i N m1) L
    ∧ (BitGauss.elimCol i N m1).n_rows = N
    ∧ (∀ nv x, satAll m1 nv x ↔ satAll (BitGauss.elimCol i N m1) nv x)
    ∧ PivotCol (BitGauss.elimCol i N m1) i
    ∧ (∀ p, p ≠ i → PivotCol m1 p → PivotCol (BitGauss.elimCol i N m1) p)
    ∧ (∀ c, c < i → SkipCol m1 c → SkipCol (BitGauss.elimCol i N m1) c) := by
  have heq : BitGauss.elimCol i N m1 = BitGauss.elimUpTo i N m1 := rfl
  have H := elimUpTo_spec (L := L) i N m1 hN hiN hwf hpiv N (Nat.le_refl N)
  rw [← heq] at H
  obtain ⟨h1, h2, h3, h4, h5, h6, h7⟩ := H
  refine ⟨h1, h2, h3, ?_, ?_, ?_⟩
  · constructor
    · rw [BitMat.get_eq_rget, h4, ← BitMat.get_eq_rget]
      exact hpiv
    · intro j hj hji
      exact h5 j (by omega) hji
  · intro p hpi hp
    obtain ⟨hp1, hp2⟩ := hp
    have hcol : m1.get i p = false := hp2 i (by omega) (Ne.symm hpi)
    constructor
    · rw [h7 p hcol p]
      exact hp1
    · intro j hj hjp
      rw [h7 p hcol j]
      exact hp2 j (by omega) hjp
  · intro c hci hs
    intro j hcj hj
    have hcol : m1.get i c = false := hs i (by omega) (by omega)
    rw [h7 c hcol j]
    exact hs j hcj (by omega)

/-! ### The gauss loop invariant -/

theorem gaussStep_inv {L : Nat} (g0 : BitGauss) (k : Nat) (g : BitGauss)
    (hk : k < g0.sys.n_rows) (hinv : GaussInv g0 L k g) :
    GaussInv g0 L (k + 1) (BitGauss.gaussStep g k) := by
  obtain ⟨hwf, hnr, hsat, P, hPk, hPpiv, hPskip, hPrank⟩ := hinv
  have hkn : k < g.sys.n_rows := by omega
  have Hscan := swapScan_spec (L := L) k g.sys.n_rows g.sys rfl hkn hwf
  obtain ⟨s1, s2, s3, s4, s5, s6, s7⟩ := Hscan
  have hstep : BitGauss.gaussStep g k =
      (if ¬ (BitGauss.swapScan k g.sys.n_rows g.sys).get k k
       then { g with sys := BitGauss.swapScan k g.sys.n_rows g.sys }
       else ⟨BitGauss.elimCol k g.sys.n_rows
              (BitGauss.swapScan k g.sys.n_rows g.sys), k + 1⟩) := rfl
  by_cases hp : (BitGauss.swapScan k g.sys.n_rows g.sys).get k k
  · rw [hstep, if_neg (by simpa using hp)]
    have Helim := elimCol_spec (L := L) k g.sys.n_rows
      (BitGauss.swapScan k g.sys.n_rows g.sys) s2 hkn s1 hp
    obtain ⟨e1, e2, e3, e4, e5, e6⟩ := Helim
    refine ⟨e1, by rw [e2]; exact hnr, ?_, ?_⟩
    · intro nv x
      exact (hsat nv x).trans ((s3 nv x).trans (e3 nv x))
    · refine ⟨insert k P, ?_, ?_, ?_, ?_⟩
      · intro p hpP
        rcases Finset.mem_insert.mp hpP with h | h
        · omega
        · have := hPk p h
          omega
      · intro p hpP
        rcases Finset.mem_insert.mp hpP with h | h
        · rw [h]
          exact e4
        · have hplt := hPk p h
          exact e5 p (by omega) (s5 p hplt (hPpiv p h))
      · intro c hck hcP
        have hcnk : c ≠ k := fun h => hcP (h ▸ Finset.mem_insert_self k P)
        have hcltk : c < k := by omega
        have hcPn : c ∉ P := fun h => hcP (Finset.mem_insert_of_mem h)
        exact e6 c hcltk (s6 c (by omega) (hPskip c hcltk hcPn))
      · refine Or.inr ⟨k, Finset.mem_insert_self k P, rfl, ?_⟩
        intro p hpP
        rcases Finset.mem_insert.mp hpP with h | h
        · omega
        · have := hPk p h
          omega
  · rw [hstep, if_pos (by simpa using hp)]
    rcases s7 with h7 | ⟨h7, h8⟩
    · exact absurd h7 hp
    · refine ⟨by rw [h7]; exact hwf, by rw [h7]; exact hnr, ?_, ?_⟩
      · intro nv x
        rw [h7]
        exact hsat nv x
      · refine ⟨P, fun p hpP => by have := hPk p hpP; omega, ?_, ?_, ?_⟩
        · intro p hpP
          rw [h7]
          exact hPpiv p hpP
        · intro c hck hcP
          rw [h7]
          by_cases hcek : c = k
          · rw [hcek]
            intro j hkj hjn
            exact h8 j hkj hjn
          · exact hPskip c (by omega) hcP
        · exact hPrank

theorem gaussUpTo_succ (g0 : BitGauss) (k : Nat) :
    gaussUpTo g0 (k + 1) = BitGauss.gaussStep (gaussUpTo g0 k) k := by
  unfold gaussUpTo
  rw [List.range_succ, List.foldl_append]
  rfl

theorem gaussUpTo_inv {L : Nat} (g0 : BitGauss) (hwf : RowsWF g0.sys L) :
    ∀ k, k ≤ g0.sys.n_rows → GaussInv g0 L k (gaussUpTo g0 k) := by
  intro k
  induction k with
  | zero =>
    intro _
    exact ⟨hwf, rfl, fun nv x => Iff.rfl,
      ∅, fun p hp => absurd hp (Finset.not_mem_empty p),
      fun p hp => absurd hp (Finset.not_mem_empty p),
      fun c hc => absurd hc (by omega), Or.inl ⟨rfl, rfl⟩⟩
  | succ k ih =>
    intro hk
    rw [gaussUpTo_succ]
    exact gaussStep_inv g0 k _ (by omega) (ih (by omega))

theorem gauss_inv {L : Nat} (g0 : BitGauss) (hwf : RowsWF g0.sys L) :
    GaussInv g0 L g0.sys.n_rows (BitGauss.gauss g0) := by
  have heq : BitGauss.gauss g0 = gaussUpTo g0 g0.sys.n_rows := rfl
  rw [heq]
  exact gaussUpTo_inv g0 hwf g0.sys.n_rows (Nat.le_refl _)

/-- Claim C2 counterexample: on the two-equation system with rows `011`
and `010`, elimination produces the matrix with rows `001` and `010`
(the leading entry of row 1 lies left of that of row 0), which is not in
reduced row-echelon form; the claim fails on this system. -/
theorem claim_C2_counterexample :
    ¬ RREF (BitGauss.gauss (BitGauss.withSys (BitMat.mk [⟨[6], 3⟩, ⟨[2], 3⟩]))).sys
        (BitGauss.gauss (BitGauss.withSys
          (BitMat.mk [⟨[6], 3⟩, ⟨[2], 3⟩]))).sys.n_cols := by
  intro h
  have h1 := h.1 1 (by decide) 0 (by decide) 2 (by decide) 1 (by decide)
    (by decide) (by decide)
  omega

/-- Claim C2 (amended): after `gauss` there is a set `P` of pivot columns,
all below `n_rows`, each holding its lone one at the diagonal; every other
column below `n_rows` is zero from its diagonal row down (full reduced
row-echelon form need not hold, since rows above a skipped column keep
their entries); and the stored rank is one more than the LAST pivot column
found — zero when none — rather than the number of pivot columns, and is
at most `n_rows`. -/
theorem claim_C2 (m : BitMat) (L : Nat) (hwf : RowsWF m L) :
    ∃ P : Finset Nat,
      (∀ p ∈ P, p < m.n_rows)
      ∧ (∀ p ∈ P, PivotCol (BitGauss.gauss (BitGauss.withSys m)).sys p)
      ∧ (∀ c, c < m.n_rows → c ∉ P →
          SkipCol (BitGauss.gauss (BitGauss.withSys m)).sys c)
      ∧ ((P = ∅ ∧ (BitGauss.gauss (BitGauss.withSys m)).rank = 0)
          ∨ (∃ pm ∈ P, (BitGauss.gauss (BitGauss.withSys m)).rank = pm + 1
              ∧ ∀ p ∈ P, p ≤ pm))
      ∧ (BitGauss.gauss (BitGauss.withSys m)).rank ≤ m.n_rows := by
  obtain ⟨_, _, _, P, h1, h2, h3, h4⟩ := gauss_inv (L := L) (BitGauss.withSys m) hwf
  refine ⟨P, h1, h2, h3, ?_, ?_⟩
  · rcases h4 with h | h
    · exact Or.inl h
    · exact Or.inr h
  · rcases h4 with ⟨_, h⟩ | ⟨pm, hpm, h, _⟩
    · rw [h]
      exact Nat.zero_le _
    · rw [h]
      exact h1 pm hpm

/-- Witness for the amended C2 at the 3-by-4 system of the `gauss`
docstring example (rows `0011`, `0101`, `1001`). -/
theorem claim_C2_witness :
    RowsWF (BitMat.mk [⟨[12], 4⟩, ⟨[10], 4⟩, ⟨[9], 4⟩]) 4
    ∧ ∃ P : Finset Nat,
      (∀ p ∈ P, p < (BitMat.mk [⟨[12], 4⟩, ⟨[10], 4⟩, ⟨[9], 4⟩]).n_rows)
      ∧ (∀ p ∈ P, PivotCol
          (BitGauss.gauss (BitGauss.withSys
            (BitMat.mk [⟨[12], 4⟩, ⟨[10], 4⟩, ⟨[9], 4⟩]))).sys p)
      ∧ (∀ c, c < (BitMat.mk [⟨[12], 4⟩, ⟨[10], 4⟩, ⟨[9], 4⟩]).n_rows → c ∉ P →
          SkipCol (BitGauss.gauss (BitGauss.withSys
            (BitMat.mk [⟨[12], 4⟩, ⟨[10], 4⟩, ⟨[9], 4⟩]))).sys c)
      ∧ ((P = ∅ ∧ (BitGauss.gauss (BitGauss.withSys
            (BitMat.mk [⟨[12], 4⟩, ⟨[10], 4⟩, ⟨[9], 4⟩]))).rank = 0)
          ∨ (∃ pm ∈ P, (BitGauss.gauss (BitGauss.withSys
              (BitMat.mk [⟨[12], 4⟩, ⟨[10], 4⟩, ⟨[9], 4⟩]))).rank = pm + 1
              ∧ ∀ p ∈ P, p ≤ pm))
      ∧ (BitGauss.gauss (BitGauss.withSys
          (BitMat.mk [⟨[12], 4⟩, ⟨[10], 4⟩, ⟨[9], 4⟩]))).rank
          ≤ (BitMat.mk [⟨[12], 4⟩, ⟨[10], 4⟩, ⟨[9], 4⟩]).n_rows :=
  ⟨by decide, claim_C2 _ 4 (by decide)⟩

/-! ### Idempotence of gauss on its own output -/

theorem swapScan_id (i N : Nat) (m : BitMat)
    (h : ∀ j, i ≤ j → j < N → m.get j i = false ∨ j = i) :
    BitGauss.swapScan i N m = m := by
  unfold BitGauss.swapScan
  apply foldl_fixed
  intro j hj
  have hjb : i ≤ j ∧ j < N := by
    have := List.mem_range'_1.mp hj
    omega
  rcases h j hjb.1 hjb.2 with hf | hji
  · rw [if_neg (by simp [hf])]
  · rw [hji]
    by_cases hg : m.get i i
    · rw [if_pos hg, swap_self]
    · rw [if_neg hg]

theorem elimCol_id (i N : Nat) (m : BitMat)
    (h : ∀ j, j < N → j ≠ i → m.get j i = false) :
    BitGauss.elimCol i N m = m := by
  unfold BitGauss.elimCol
  apply foldl_fixed
  intro j hj
  rw [if_neg]
  intro hc
  exact absurd (h j (List.mem_range.mp hj) hc.2) (by simp [hc.1])

theorem gaussStep_reduced_pivot (g : BitGauss) (i : Nat)
    (hpiv : PivotCol g.sys i) (hiN : i < g.sys.n_rows) :
    BitGauss.gaussStep g i = ⟨g.sys, i + 1⟩ := by
  have hscan : BitGauss.swapScan i g.sys.n_rows g.sys = g.sys := by
    apply swapScan_id i g.sys.n_rows g.sys
    intro j hij hjn
    by_cases hji : j = i
    · exact Or.inr hji
    · exact Or.inl (hpiv.2 j hjn hji)
  have helim : BitGauss.elimCol i g.sys.n_rows g.sys = g.sys :=
    elimCol_id i g.sys.n_rows g.sys (fun j hj hji => hpiv.2 j hj hji)
  unfold BitGauss.gaussStep
  dsimp only
  rw [hscan, if_neg (by simp [hpiv.1]), helim]

theorem gaussStep_reduced_skip (g : BitGauss) (i : Nat)
    (hskip : SkipCol g.sys i) (hiN : i < g.sys.n_rows) :
    BitGauss.gaussStep g i = g := by
  have hscan : BitGauss.swapScan i g.sys.n_rows g.sys = g.sys := by
    apply swapScan_id i g.sys.n_rows g.sys
    intro j hij hjn
    exact Or.inl (hskip j hij hjn)
  unfold BitGauss.gaussStep
  dsimp only
  rw [hscan, if_pos (by simp [hskip i (Nat.le_refl i) hiN])]

theorem bitGauss_ext {a b : BitGauss} (h1 : a.sys = b.sys)
    (h2 : a.rank = b.rank) : a = b := by
  cases a
  cases b
  simp_all

/-- Claim C5: running `gauss` a second time leaves both the matrix and the
rank exactly as after the first run. -/
theorem claim_C5 (g : BitGauss) (L : Nat) (hwf : RowsWF g.sys L) :
    BitGauss.gauss (BitGauss.gauss g) = BitGauss.gauss g := by
  obtain ⟨hwf1, hnr1, _, P, hPk, hPpiv, hPskip, hPrank⟩ := gauss_inv (L := L) g hwf
  have main : ∀ k, k ≤ (BitGauss.gauss g).sys.n_rows →
      (gaussUpTo (BitGauss.gauss g) k).sys = (BitGauss.gauss g).sys
      ∧ (((∀ p ∈ P, k ≤ p)
            ∧ (gaussUpTo (BitGauss.gauss g) k).rank = (BitGauss.gauss g).rank)
          ∨ (∃ pm ∈ P, pm < k ∧ (gaussUpTo (BitGauss.gauss g) k).rank = pm + 1
              ∧ ∀ p ∈ P, p < k → p ≤ pm)) := by
    intro k
    induction k with
    | zero =>
      intro _
      exact ⟨rfl, Or.inl ⟨fun p _ => Nat.zero_le p, rfl⟩⟩
    | succ k ih =>
      intro hk
      obtain ⟨hsys, hrank⟩ := ih (by omega)
      rw [gaussUpTo_succ]
      have hkN : k < (gaussUpTo (BitGauss.gauss g) k).sys.n_rows := by
        rw [hsys]
        omega
      by_cases hkP : k ∈ P
      · have hpiv : PivotCol (gaussUpTo (BitGauss.gauss g) k).sys k := by
          rw [hsys]
          exact hPpiv k hkP
        rw [gaussStep_reduced_pivot _ k hpiv hkN]
        constructor
        · show (gaussUpTo (BitGauss.gauss g) k).sys = (BitGauss.gauss g).sys
          exact hsys
        · refine Or.inr ⟨k, hkP, by omega, rfl, fun p _ hp => by omega⟩
      · have hskip : SkipCol (gaussUpTo (BitGauss.gauss g) k).sys k := by
          rw [hsys]
          refine hPskip k ?_ hkP
          rw [← hnr1]
          omega
        rw [gaussStep_reduced_skip _ k hskip hkN]
        refine ⟨hsys, ?_⟩
        rcases hrank with ⟨ha, hb⟩ | ⟨pm, h1, h2, h3, h4⟩
        · refine Or.inl ⟨fun p hp => ?_, hb⟩
          have h1 := ha p hp
          have h2 : p ≠ k := fun hc => hkP (hc ▸ hp)
          omega
        · refine Or.inr ⟨pm, h1, by omega, h3, fun p hp hpk1 => ?_⟩
          have h5 : p ≠ k := fun hc => hkP (hc ▸ hp)
          exact h4 p hp (by omega)
  obtain ⟨hsys, hrank⟩ := main (BitGauss.gauss g).sys.n_rows (Nat.le_refl _)
  have heq : BitGauss.gauss (BitGauss.gauss g)
      = gaussUpTo (BitGauss.gauss g) (BitGauss.gauss g).sys.n_rows := rfl
  rw [heq]
  refine bitGauss_ext hsys ?_
  rcases hrank with ⟨_, hb⟩ | ⟨pm, hpmP, _, h3, h4⟩
  · exact hb
  · rcases hPrank with ⟨hP, _⟩ | ⟨pm1, hpm1, hr1, h5⟩
    · rw [hP] at hpmP
      exact absurd hpmP (Finset.not_mem_empty pm)
    · have hpm1N : pm1 < (BitGauss.gauss g).sys.n_rows := by
        rw [hnr1]
        exact hPk pm1 hpm1
      have heqpm : pm = pm1 := le_antisymm (h5 pm hpmP) (h4 pm1 hpm1 hpm1N)
      rw [h3, hr1, heqpm]

/-- Witness for C5 at the 3-by-4 system of the `gauss` docstring example. -/
theorem claim_C5_witness :
    RowsWF (BitMat.mk [⟨[12], 4⟩, ⟨[10], 4⟩, ⟨[9], 4⟩]) 4
    ∧ BitGauss.gauss (BitGauss.gauss
        (BitGauss.withSys (BitMat.mk [⟨[12], 4⟩, ⟨[10], 4⟩, ⟨[9], 4⟩])))
      = BitGauss.gauss (BitGauss.withSys (BitMat.mk [⟨[12], 4⟩, ⟨[10], 4⟩, ⟨[9], 4⟩])) :=
  ⟨by decide, claim_C5 _ 4 (by decide)⟩

/-- Claim C3: `solve` returns no solution exactly when, after elimination,
some row with index at least `rank` has a true augmented bit; in every
other case it returns an assignment. -/
theorem claim_C3 (g : BitGauss) :
    ((BitGauss.solve g).2 = none
      ↔ ∃ i, (BitGauss.gauss g).rank ≤ i ∧ i < (BitGauss.gauss g).sys.n_rows
          ∧ (BitGauss.gauss g).sys.get i ((BitGauss.gauss g).sys.n_cols - 1) = true)
    ∧ ((¬ ∃ i, (BitGauss.gauss g).rank ≤ i ∧ i < (BitGauss.gauss g).sys.n_rows
          ∧ (BitGauss.gauss g).sys.get i ((BitGauss.gauss g).sys.n_cols - 1) = true)
        → ∃ sol, (BitGauss.solve g).2 = some sol) := by
  have hany : ((List.range' (BitGauss.gauss g).rank
      ((BitGauss.gauss g).sys.n_rows - (BitGauss.gauss g).rank)).any
        (fun i => (BitGauss.gauss g).sys.get i ((BitGauss.gauss g).sys.n_cols - 1)))
      = true
      ↔ ∃ i, (BitGauss.gauss g).rank ≤ i ∧ i < (BitGauss.gauss g).sys.n_rows
          ∧ (BitGauss.gauss g).sys.get i ((BitGauss.gauss g).sys.n_cols - 1) = true := by
    rw [List.any_eq_true]
    constructor
    · rintro ⟨i, hi, hg⟩
      have hb := List.mem_range'_1.mp hi
      by_cases hr : (BitGauss.gauss g).rank ≤ (BitGauss.gauss g).sys.n_rows
      · exact ⟨i, by omega, by omega, hg⟩
      · exact ⟨i, by omega, by omega, hg⟩
    · rintro ⟨i, h1, h2, hg⟩
      exact ⟨i, List.mem_range'_1.mpr (by omega), hg⟩
  unfold BitGauss.solve
  dsimp only
  constructor
  · split
    · next hc =>
      simp only [true_iff]
      exact hany.mp hc
    · next hc =>
      have hno := (not_iff_not.mpr hany).mp (by simpa using hc)
      split
      · exact iff_of_false (by simp) hno
      · exact iff_of_false (by simp) hno
  · intro hno
    split
    · next hc => exact absurd (hany.mp hc) hno
    · split
      · exact ⟨_, rfl⟩
      · exact ⟨_, rfl⟩

/-! ### General write and xor fold lemmas on bit vectors -/

theorem parity_append (l1 l2 : List Bool) :
    parity (l1 ++ l2) = Bool.xor (parity l1) (parity l2) := by
  induction l1 with
  | nil =>
    show parity l2 = Bool.xor false (parity l2)
    cases parity l2 <;> rfl
  | cons b l1 ih =>
    show parity (b :: (l1 ++ l2)) = _
    rw [parity_cons, ih, parity_cons]
    cases b <;> cases parity l1 <;> cases parity l2 <;> rfl

theorem parity_false (l : List Bool) (h : ∀ b ∈ l, b = false) :
    parity l = false := by
  induction l with
  | nil => rfl
  | cons b l ih =>
    rw [parity_cons, h b (List.mem_cons_self b l),
      ih (fun b2 hb2 => h b2 (List.mem_cons_of_mem b hb2))]
    rfl

theorem parity_single (nv r : Nat) (f : Nat → Bool) (hr : r < nv)
    (h : ∀ c, c < nv → c ≠ r → f c = false) :
    parity ((List.range nv).map f) = f r := by
  induction nv with
  | zero => omega
  | succ t ih =>
    rw [List.range_succ, List.map_append, parity_append]
    by_cases hrt : r = t
    · rw [parity_false ((List.range t).map f) ?all]
      · show Bool.xor false (parity [f t]) = f r
        rw [hrt]
        show Bool.xor false (Bool.xor (f t) false) = f t
        cases f t <;> rfl
      · case all =>
          intro b hb
          obtain ⟨c, hc, hcb⟩ := List.mem_map.mp hb
          rw [← hcb]
          exact h c (by have := List.mem_range.mp hc; omega) (by
            have := List.mem_range.mp hc
            omega)
    · rw [ih (by omega) (fun c hc hcr => h c (by omega) hcr)]
      have hft : f t = false := h t (by omega) (fun hc => hrt hc.symm)
      show Bool.xor (f r) (Bool.xor (f t) false) = f r
      rw [hft]
      cases f r <;> rfl

theorem foldl_set_off_spec (base : BitVec) (f : Nat → Bool) (t off : Nat)
    (hcap : ∀ j, j < t → (off + j) / 64 < base.buf.length) :
    ((List.range t).foldl (fun s j => s.set (off + j) (f j)) base).len = base.len
    ∧ ((List.range t).foldl (fun s j => s.set (off + j) (f j)) base).buf.length
        = base.buf.length
    ∧ ∀ c, ((List.range t).foldl (fun s j => s.set (off + j) (f j)) base).get c
        = if off ≤ c ∧ c < off + t then f (c - off) else base.get c := by
  induction t with
  | zero =>
    exact ⟨rfl, rfl, fun c => by
      rw [if_neg (by omega)]
      rfl⟩
  | succ t ih =>
    obtain ⟨ih1, ih2, ih3⟩ := ih (fun j hj => hcap j (by omega))
    have hfold : (List.range (t + 1)).foldl (fun s j => s.set (off + j) (f j)) base
        = ((List.range t).foldl (fun s j => s.set (off + j) (f j)) base).set
            (off + t) (f t) := by
      rw [List.range_succ, List.foldl_append]
      rfl
    have hcapt : (off + t) / 64
        < ((List.range t).foldl (fun s j => s.set (off + j) (f j)) base).buf.length := by
      rw [ih2]
      exact hcap t (by omega)
    refine ⟨?_, ?_, ?_⟩
    · rw [hfold, BitVec.len_set, ih1]
    · rw [hfold, BitVec.buf_length_set, ih2]
    · intro c
      rw [hfold, BitVec.get_set _ _ _ hcapt]
      by_cases hco : c = off + t
      · rw [if_pos hco, if_pos (by omega), hco]
        congr 1
        omega
      · rw [if_neg hco, ih3]
        by_cases hin : off ≤ c ∧ c < off + t
        · rw [if_pos hin, if_pos (by omega)]
        · rw [if_neg hin, if_neg (by omega)]

theorem foldl_xor_list (a : BitVec) (j : Nat) (hj : j / 64 < a.buf.length)
    (l : List Nat) (f : Nat → Bool) :
    ((l.foldl (fun acc k => acc.xor j (f k)) a).len = a.len)
    ∧ ((l.foldl (fun acc k => acc.xor j (f k)) a).buf.length = a.buf.length)
    ∧ ∀ r, (l.foldl (fun acc k => acc.xor j (f k)) a).get r
        = if r = j then Bool.xor (a.get r) (parity (l.map f)) else a.get r := by
  induction l generalizing a with
  | nil =>
    refine ⟨rfl, rfl, fun r => ?_⟩
    by_cases hrj : r = j
    · rw [if_pos hrj]
      show a.get r = Bool.xor (a.get r) false
      cases a.get r <;> rfl
    · rw [if_neg hrj]
      rfl
  | cons k l ih =>
    have h1 := BitVec.len_xor a j (f k)
    have h2 := BitVec.buf_length_xor a j (f k)
    obtain ⟨ih1, ih2, ih3⟩ := ih (a.xor j (f k)) (by rw [h2]; exact hj)
    refine ⟨ih1.trans h1, ih2.trans h2, fun r => ?_⟩
    have hstep : (k :: l).foldl (fun acc k => acc.xor j (f k)) a
        = l.foldl (fun acc k => acc.xor j (f k)) (a.xor j (f k)) := rfl
    by_cases hrj : r = j
    · rw [hstep, ih3 r, if_pos hrj, if_pos hrj, BitVec.get_xor a j (f k) hj,
        if_pos hrj, List.map_cons, parity_cons]
      cases a.get r <;> cases f k <;> cases parity (l.map f) <;> rfl
    · rw [hstep, ih3 r, if_neg hrj, if_neg hrj, BitVec.get_xor a j (f k) hj,
        if_neg hrj]

theorem boolsToNat_testBit (l : List Bool) (k : Nat) :
    (boolsToNat l).testBit k = l.getD k false := by
  induction l generalizing k with
  | nil =>
    show (0 : Nat).testBit k = false
    simp
  | cons b l ih =>
    have hb : boolsToNat (b :: l) = 2 * boolsToNat l + (if b then 1 else 0) := rfl
    cases k with
    | zero =>
      rw [hb, Nat.testBit_zero]
      cases b <;> simp [Nat.mul_add_mod]
    | succ k0 =>
      rw [hb, Nat.testBit_succ]
      have : (2 * boolsToNat l + (if b then 1 else 0)) / 2 = boolsToNat l := by
        cases b <;> simp <;> omega
      rw [this, ih]
      rfl

theorem boolsToNat_lt (l : List Bool) : boolsToNat l < 2 ^ l.length := by
  induction l with
  | nil => exact Nat.zero_lt_one
  | cons b l ih =>
    have hb : boolsToNat (b :: l) = 2 * boolsToNat l + (if b then 1 else 0) := rfl
    rw [hb]
    show _ < 2 ^ (l.length + 1)
    rw [Nat.pow_succ]
    cases b <;> simp <;> omega

theorem getD_map_range {α : Type} (f : Nat → α) (n k : Nat) (d : α) :
    ((List.range n).map f).getD k d = if k < n then f k else d := by
  by_cases hk : k < n
  · rw [if_pos hk, List.getD_eq_getElem?_getD, List.getElem?_map,
      List.getElem?_range hk]
    rfl
  · rw [if_neg hk, List.getD_eq_getElem?_getD, List.getElem?_eq_none]
    · rfl
    · simpa using Nat.le_of_not_lt hk

/-! ### The rest vector and the accumulator of the minimum weight search -/

theorem restVec_len (n_rest i : Nat) : (BitGauss.restVec n_rest i).len = n_rest := rfl

theorem restVec_get (n_rest i k : Nat) (hr : 1 ≤ n_rest) (hk : k < 64) :
    (BitGauss.restVec n_rest i).get k = i.testBit k := by
  rw [BitVec.get_eq_testBit]
  have hk0 : k / 64 = 0 := Nat.div_eq_of_lt hk
  have hlen : 0 < (create_buf n_rest).length := by
    show 0 < (List.replicate (buf_capacity n_rest) 0).length
    rw [List.length_replicate]
    have := le_mul_buf_capacity n_rest
    omega
  show (((create_buf n_rest).set 0 i).getD (k / 64) 0).testBit (k % 64) = _
  rw [hk0, getD_set_self _ _ hlen, Nat.mod_eq_of_lt hk]

theorem restVec_count (n_rest i : Nat) (hr : 1 ≤ n_rest) (h64 : n_rest ≤ 64) :
    (BitGauss.restVec n_rest i).count_ones
      = (List.range n_rest).countP (fun k => i.testBit k) := by
  rw [BitVec.count_ones_eq, restVec_len]
  apply List.countP_congr
  intro k hk
  have hklt : k < n_rest := List.mem_range.mp hk
  rw [restVec_get n_rest i k hr (by omega)]

theorem accumulateAux_spec (g : BitGauss) (rank n_rest n_vars : Nat)
    (rest acc0 : BitVec) (hzero : ∀ j, acc0.get j = false) :
    ∀ t, (∀ j, j < t → j / 64 < acc0.buf.length) →
      ((List.range t).foldl
        (fun a j =>
          let a1 := (List.range n_rest).foldl
            (fun a k => if rest.get k then a.xor j (g.sys.get j (rank + k)) else a) a
          a1.xor j (g.sys.get j n_vars)) acc0).len = acc0.len
      ∧ ((List.range t).foldl
          (fun a j =>
            let a1 := (List.range n_rest).foldl
              (fun a k => if rest.get k then a.xor j (g.sys.get j (rank + k)) else a) a
            a1.xor j (g.sys.get j n_vars)) acc0).buf.length = acc0.buf.length
      ∧ ∀ r, ((List.range t).foldl
          (fun a j =>
            let a1 := (List.range n_rest).foldl
              (fun a k => if rest.get k then a.xor j (g.sys.get j (rank + k)) else a) a
            a1.xor j (g.sys.get j n_vars)) acc0).get r
          = if r < t then
              Bool.xor
                (parity ((List.range n_rest).map
                  (fun k => rest.get k && g.sys.get r (rank + k))))
                (g.sys.get r n_vars)
            else false := by
  intro t
  induction t with
  | zero =>
    intro _
    exact ⟨rfl, rfl, fun r => by
      rw [if_neg (by omega)]
      exact hzero r⟩
  | succ t ih =>
    intro hcap
    obtain ⟨ih1, ih2, ih3⟩ := ih (fun j hj => hcap j (by omega))
    have hstep : (List.range (t + 1)).foldl
        (fun a j =>
          let a1 := (List.range n_rest).foldl
            (fun a k => if rest.get k then a.xor j (g.sys.get j (rank + k)) else a) a
          a1.xor j (g.sys.get j n_vars)) acc0
        = ((List.range n_rest).foldl
            (fun a k => if rest.get k then a.xor t (g.sys.get t (rank + k)) else a)
            ((List.range t).foldl
              (fun a j =>
                let a1 := (List.range n_rest).foldl
                  (fun a k => if rest.get k then a.xor j (g.sys.get j (rank + k)) else a) a
                a1.xor j (g.sys.get j n_vars)) acc0)).xor t (g.sys.get t n_vars) := by
      rw [List.range_succ, List.foldl_append]
      rfl
    have hfun : (fun (a : BitVec) (k : Nat) =>
        if rest.get k then a.xor t (g.sys.get t (rank + k)) else a)
        = (fun a k => a.xor t (rest.get k && g.sys.get t (rank + k))) := by
      funext a k
      by_cases hg : rest.get k
      · rw [if_pos hg, hg]
        rfl
      · rw [if_neg hg]
        have hgf : rest.get k = false := by
          cases hgc : rest.get k
          · rfl
          · exact absurd hgc hg
        rw [hgf]
        rfl
    set aprev := (List.range t).foldl
      (fun a j =>
        let a1 := (List.range n_rest).foldl
          (fun a k => if rest.get k then a.xor j (g.sys.get j (rank + k)) else a) a
        a1.xor j (g.sys.get j n_vars)) acc0 with haprev
    have hcapt : t / 64 < aprev.buf.length := by
      rw [ih2]
      exact hcap t (by omega)
    have hinner := foldl_xor_list aprev t hcapt (List.range n_rest)
      (fun k => rest.get k && g.sys.get t (rank + k))
    obtain ⟨in1, in2, in3⟩ := hinner
    set ainner := (List.range n_rest).foldl
      (fun a k => a.xor t (rest.get k && g.sys.get t (rank + k))) aprev with hainner
    have hcapt2 : t / 64 < ainner.buf.length := by
      rw [in2]
      exact hcapt
    refine ⟨?_, ?_, ?_⟩
    · rw [hstep, hfun, BitVec.len_xor, ← hainner, in1, ih1]
    · rw [hstep, hfun, BitVec.buf_length_xor, ← hainner, in2, ih2]
    · intro r
      rw [hstep, hfun, ← hainner]
      rw [BitVec.get_xor ainner t (g.sys.get t n_vars) hcapt2 r]
      by_cases hrt : r = t
      · rw [if_pos hrt, if_pos (by omega), in3, if_pos hrt, ih3,
          if_neg (by omega), hrt]
        cases parity ((List.range n_rest).map
          (fun k => rest.get k && g.sys.get t (rank + k))) <;>
          cases g.sys.get t n_vars <;> rfl
      · rw [if_neg hrt, in3, if_neg hrt, ih3]
        by_cases hrlt : r < t
        · rw [if_pos hrlt, if_pos (by omega)]
        · rw [if_neg hrlt, if_neg (by omega)]

theorem with_length_len (n : Nat) : (BitVec.with_length n).len = n := rfl

theorem with_length_buf_length (n : Nat) :
    (BitVec.with_length n).buf.length = buf_capacity n := by
  show (List.replicate (buf_capacity n) 0).length = _
  rw [List.length_replicate]

theorem accumulate_spec (g : BitGauss) (rank n_rest n_vars : Nat)
    (rest acc0 : BitVec) (hzero : ∀ j, acc0.get j = false)
    (hcap : ∀ j, j < rank → j / 64 < acc0.buf.length) :
    (BitGauss.accumulate g rank n_rest n_vars rest acc0).len = acc0.len
    ∧ (BitGauss.accumulate g rank n_rest n_vars rest acc0).buf.length
        = acc0.buf.length
    ∧ ∀ r, (BitGauss.accumulate g rank n_rest n_vars rest acc0).get r
        = if r < rank then
            Bool.xor
              (parity ((List.range n_rest).map
                (fun k => rest.get k && g.sys.get r (rank + k))))
              (g.sys.get r n_vars)
          else false :=
  accumulateAux_spec g rank n_rest n_vars rest acc0 hzero rank hcap

theorem countP_split_at (t n : Nat) (ht : t ≤ n) (f : Nat → Bool)
    (h : ∀ s, t ≤ s → s < n → f s = false) :
    (List.range n).countP f = (List.range t).countP f := by
  have hn : n = t + (n - t) := by omega
  rw [hn, countP_range_add]
  have : (List.range (n - t)).countP (fun s => f (t + s)) = 0 := by
    rw [List.countP_eq_zero]
    intro s hs
    have := List.mem_range.mp hs
    simp [h (t + s) (by omega) (by omega)]
  omega

theorem solveCandidate_spec (g : BitGauss) (rank n_vars n_rest N : Nat)
    (hr1 : 1 ≤ n_rest) (h64 : n_rest < 64) (hrN : rank ≤ N) (i : Nat) :
    (BitGauss.solveCandidate g rank n_rest n_vars N i).1 = BitGauss.restVec n_rest i
    ∧ (∀ j, (BitGauss.solveCandidate g rank n_rest n_vars N i).2.1.get j
        = if j < rank then accVal g rank n_vars n_rest i j else false)
    ∧ (BitGauss.solveCandidate g rank n_rest n_vars N i).2.2
        = candWeight g rank n_vars n_rest i := by
  have hzero : ∀ j, (BitVec.with_length N).get j = false :=
    BitVec.get_with_length N
  have hcap : ∀ j, j < rank → j / 64 < (BitVec.with_length N).buf.length := by
    intro j hj
    rw [with_length_buf_length]
    exact lt_buf_capacity (by omega)
  obtain ⟨a1, a2, a3⟩ := accumulate_spec g rank n_rest n_vars
    (BitGauss.restVec n_rest i) (BitVec.with_length N) hzero hcap
  have hget : ∀ j, (BitGauss.accumulate g rank n_rest n_vars
      (BitGauss.restVec n_rest i) (BitVec.with_length N)).get j
      = if j < rank then accVal g rank n_vars n_rest i j else false := by
    intro j
    rw [a3 j]
    by_cases hj : j < rank
    · rw [if_pos hj, if_pos hj]
      unfold accVal
      congr 1
      congr 1
      apply List.map_congr_left
      intro k hk
      have hklt : k < n_rest := List.mem_range.mp hk
      rw [restVec_get n_rest i k hr1 (by omega)]
    · rw [if_neg hj, if_neg hj]
  refine ⟨rfl, hget, ?_⟩
  show (BitGauss.restVec n_rest i).count_ones
      + (BitGauss.accumulate g rank n_rest n_vars
          (BitGauss.restVec n_rest i) (BitVec.with_length N)).count_ones
      = candWeight g rank n_vars n_rest i
  rw [restVec_count n_rest i hr1 (by omega), BitVec.count_ones_eq, a1,
    with_length_len]
  unfold candWeight
  congr 1
  rw [countP_split_at rank N hrN _ (fun s hs1 hs2 => by
    rw [hget s, if_neg (by omega)])]
  apply List.countP_congr
  intro j hj
  have hjlt : j < rank := List.mem_range.mp hj
  rw [hget j, if_pos hjlt]

theorem writeSolution_spec (rank n_rest : Nat) (acc rest s : BitVec)
    (hcap : ∀ c, c < rank + n_rest → c / 64 < s.buf.length) :
    (BitGauss.writeSolution rank n_rest acc rest s).len = s.len
    ∧ (BitGauss.writeSolution rank n_rest acc rest s).buf.length = s.buf.length
    ∧ ∀ c, (BitGauss.writeSolution rank n_rest acc rest s).get c
        = if c < rank then acc.get c
          else if c < rank + n_rest then rest.get (c - rank)
          else s.get c := by
  have hfun1 : (fun (s : BitVec) (j : Nat) => s.set j (acc.get j))
      = (fun s j => s.set (0 + j) (acc.get j)) := by
    funext s j
    rw [Nat.zero_add]
  obtain ⟨f1, f2, f3⟩ := foldl_set_off_spec s (fun j => acc.get j) rank 0
    (fun j hj => hcap (0 + j) (by omega))
  set sol1 := (List.range rank).foldl (fun s j => s.set (0 + j) (acc.get j)) s
    with hsol1
  obtain ⟨g1, g2, g3⟩ := foldl_set_off_spec sol1 (fun j => rest.get j) n_rest rank
    (fun j hj => by
      rw [f2]
      exact hcap (rank + j) (by omega))
  have heq : BitGauss.writeSolution rank n_rest acc rest s
      = (List.range n_rest).foldl (fun s j => s.set (rank + j) (rest.get j)) sol1 := by
    unfold BitGauss.writeSolution
    rw [hfun1]
  refine ⟨?_, ?_, ?_⟩
  · rw [heq, g1, f1]
  · rw [heq, g2, f2]
  · intro c
    rw [heq, g3 c]
    by_cases hc1 : c < rank
    · rw [if_neg (by omega), f3, if_pos (by omega), if_pos hc1,
        Nat.sub_zero]
    · by_cases hc2 : c < rank + n_rest
      · rw [if_pos (by omega), if_neg hc1, if_pos hc2]
      · rw [if_neg (by omega), f3, if_neg (by omega), if_neg hc1, if_neg hc2]

theorem candWeight_le (g : BitGauss) (rank n_vars n_rest i : Nat) :
    candWeight g rank n_vars n_rest i ≤ n_rest + rank := by
  unfold candWeight
  have h1 := List.countP_le_length (l := List.range n_rest)
    (p := fun k => Nat.testBit i k)
  have h2 := List.countP_le_length (l := List.range rank)
    (p := fun j => accVal g rank n_vars n_rest i j)
  rw [List.length_range] at h1 h2
  omega

theorem solveStep_eq (g : BitGauss) (rank n_vars n_rest N : Nat)
    (hr1 : 1 ≤ n_rest) (h64 : n_rest < 64) (hrN : rank ≤ N)
    (st : Nat × BitVec) (i : Nat) :
    BitGauss.solveStep g rank n_rest n_vars N st i
      = if candWeight g rank n_vars n_rest i < st.1
        then (candWeight g rank n_vars n_rest i,
          BitGauss.writeSolution rank n_rest
            (BitGauss.solveCandidate g rank n_rest n_vars N i).2.1
            (BitGauss.solveCandidate g rank n_rest n_vars N i).1 st.2)
        else st := by
  obtain ⟨_, _, hw⟩ := solveCandidate_spec g rank n_vars n_rest N hr1 h64 hrN i
  unfold BitGauss.solveStep
  dsimp only
  rw [hw]

theorem solveWritten_spec (g : BitGauss) (rank n_vars n_rest N : Nat)
    (hr1 : 1 ≤ n_rest) (h64 : n_rest < 64) (hrN : rank ≤ N)
    (hnv : rank + n_rest = n_vars) (i : Nat) (s : BitVec)
    (hslen : s.len = n_vars) (hsbuf : s.buf.length = buf_capacity n_vars) :
    (BitGauss.writeSolution rank n_rest
        (BitGauss.solveCandidate g rank n_rest n_vars N i).2.1
        (BitGauss.solveCandidate g rank n_rest n_vars N i).1 s).len = n_vars
    ∧ (BitGauss.writeSolution rank n_rest
        (BitGauss.solveCandidate g rank n_rest n_vars N i).2.1
        (BitGauss.solveCandidate g rank n_rest n_vars N i).1 s).buf.length
        = buf_capacity n_vars
    ∧ ∀ c, c < n_vars →
        (BitGauss.writeSolution rank n_rest
          (BitGauss.solveCandidate g rank n_rest n_vars N i).2.1
          (BitGauss.solveCandidate g rank n_rest n_vars N i).1 s).get c
          = candFun g rank n_vars n_rest i c := by
  obtain ⟨hc1, hc2, _⟩ := solveCandidate_spec g rank n_vars n_rest N hr1 h64 hrN i
  obtain ⟨w1, w2, w3⟩ := writeSolution_spec rank n_rest
    (BitGauss.solveCandidate g rank n_rest n_vars N i).2.1
    (BitGauss.solveCandidate g rank n_rest n_vars N i).1 s
    (fun c hclt => by
      rw [hsbuf]
      exact lt_buf_capacity (by omega))
  refine ⟨w1.trans hslen, w2.trans hsbuf, fun c hc => ?_⟩
  rw [w3 c]
  unfold candFun
  by_cases hcr : c < rank
  · rw [if_pos hcr, if_pos hcr, hc2, if_pos hcr]
  · rw [if_neg hcr, if_neg hcr, if_pos hc, hc1,
      restVec_get n_rest i (c - rank) hr1 (by omega),
      if_pos (show c < rank + n_rest by omega)]

theorem solveFold_spec (g : BitGauss) (rank n_vars n_rest N L : Nat)
    (hL : n_vars < L) (hr1 : 1 ≤ n_rest) (h64 : n_rest < 64) (hrN : rank ≤ N)
    (hnv : rank + n_rest = n_vars) :
    ∀ t, ∃ i0, i0 < t + 1
      ∧ ((List.range (t + 1)).foldl (BitGauss.solveStep g rank n_rest n_vars N)
          (L, BitVec.with_length n_vars)).1 = candWeight g rank n_vars n_rest i0
      ∧ (∀ i, i < t + 1 →
          candWeight g rank n_vars n_rest i0 ≤ candWeight g rank n_vars n_rest i)
      ∧ ((List.range (t + 1)).foldl (BitGauss.solveStep g rank n_rest n_vars N)
          (L, BitVec.with_length n_vars)).2.len = n_vars
      ∧ ((List.range (t + 1)).foldl (BitGauss.solveStep g rank n_rest n_vars N)
          (L, BitVec.with_length n_vars)).2.buf.length = buf_capacity n_vars
      ∧ ∀ c, c < n_vars →
          ((List.range (t + 1)).foldl (BitGauss.solveStep g rank n_rest n_vars N)
            (L, BitVec.with_length n_vars)).2.get c
            = candFun g rank n_vars n_rest i0 c := by
  intro t
  induction t with
  | zero =>
    have hbase : (List.range 1).foldl (BitGauss.solveStep g rank n_rest n_vars N)
        (L, BitVec.with_length n_vars)
        = BitGauss.solveStep g rank n_rest n_vars N
            (L, BitVec.with_length n_vars) 0 := rfl
    have hlt : candWeight g rank n_vars n_rest 0 < L := by
      have := candWeight_le g rank n_vars n_rest 0
      omega
    obtain ⟨u1, u2, u3⟩ := solveWritten_spec g rank n_vars n_rest N hr1 h64 hrN
      hnv 0 (BitVec.with_length n_vars) (with_length_len n_vars)
      (with_length_buf_length n_vars)
    refine ⟨0, by omega, ?_, ?_, ?_, ?_, ?_⟩
    · rw [hbase, solveStep_eq g rank n_vars n_rest N hr1 h64 hrN,
        if_pos (by exact hlt)]
    · intro i hi
      have : i = 0 := by omega
      rw [this]
    · rw [hbase, solveStep_eq g rank n_vars n_rest N hr1 h64 hrN,
        if_pos (by exact hlt)]
      exact u1
    · rw [hbase, solveStep_eq g rank n_vars n_rest N hr1 h64 hrN,
        if_pos (by exact hlt)]
      exact u2
    · intro c hc
      rw [hbase, solveStep_eq g rank n_vars n_rest N hr1 h64 hrN,
        if_pos (by exact hlt)]
      exact u3 c hc
  | succ t ih =>
    obtain ⟨i0, hi0, hw, hmin, hlen, hbuf, hget⟩ := ih
    have hstep : (List.range (t + 1 + 1)).foldl
        (BitGauss.solveStep g rank n_rest n_vars N) (L, BitVec.with_length n_vars)
        = BitGauss.solveStep g rank n_rest n_vars N
            ((List.range (t + 1)).foldl (BitGauss.solveStep g rank n_rest n_vars N)
              (L, BitVec.with_length n_vars)) (t + 1) := by
      rw [List.range_succ, List.foldl_append]
      rfl
    by_cases himp : candWeight g rank n_vars n_rest (t + 1)
        < candWeight g rank n_vars n_rest i0
    · obtain ⟨u1, u2, u3⟩ := solveWritten_spec g rank n_vars n_rest N hr1 h64 hrN
        hnv (t + 1)
        ((List.range (t + 1)).foldl (BitGauss.solveStep g rank n_rest n_vars N)
          (L, BitVec.with_length n_vars)).2 hlen hbuf
      refine ⟨t + 1, by omega, ?_, ?_, ?_, ?_, ?_⟩
      · rw [hstep, solveStep_eq g rank n_vars n_rest N hr1 h64 hrN,
          if_pos (by rw [hw]; exact himp)]
      · intro i hi
        by_cases hit : i < t + 1
        · have := hmin i hit
          omega
        · have : i = t + 1 := by omega
          rw [this]
      · rw [hstep, solveStep_eq g rank n_vars n_rest N hr1 h64 hrN,
          if_pos (by rw [hw]; exact himp)]
        exact u1
      · rw [hstep, solveStep_eq g rank n_vars n_rest N hr1 h64 hrN,
          if_pos (by rw [hw]; exact himp)]
        exact u2
      · intro c hc
        rw [hstep, solveStep_eq g rank n_vars n_rest N hr1 h64 hrN,
          if_pos (by rw [hw]; exact himp)]
        exact u3 c hc
    · refine ⟨i0, by omega, ?_, ?_, ?_, ?_, ?_⟩
      · rw [hstep, solveStep_eq g rank n_vars n_rest N hr1 h64 hrN,
          if_neg (by rw [hw]; omega)]
        exact hw
      · intro i hi
        by_cases hit : i < t + 1
        · exact hmin i hit
        · have : i = t + 1 := by omega
          rw [this]
          omega
      · rw [hstep, solveStep_eq g rank n_vars n_rest N hr1 h64 hrN,
          if_neg (by rw [hw]; omega)]
        exact hlen
      · rw [hstep, solveStep_eq g rank n_vars n_rest N hr1 h64 hrN,
          if_neg (by rw [hw]; omega)]
        exact hbuf
      · intro c hc
        rw [hstep, solveStep_eq g rank n_vars n_rest N hr1 h64 hrN,
          if_neg (by rw [hw]; omega)]
        exact hget c hc

/-! ### Branch characterization of solve, and candidate satisfaction -/

theorem solve_eq_none_of_any (g : BitGauss)
    (h : ((List.range' (BitGauss.gauss g).rank
        ((BitGauss.gauss g).sys.n_rows - (BitGauss.gauss g).rank)).any
          (fun i => (BitGauss.gauss g).sys.get i
            ((BitGauss.gauss g).sys.n_cols - 1))) = true) :
    (BitGauss.solve g).2 = none := by
  unfold BitGauss.solve
  dsimp only
  rw [if_pos h]

theorem solve_eq_unique (g : BitGauss)
    (hno : ¬ ((List.range' (BitGauss.gauss g).rank
        ((BitGauss.gauss g).sys.n_rows - (BitGauss.gauss g).rank)).any
          (fun i => (BitGauss.gauss g).sys.get i
            ((BitGauss.gauss g).sys.n_cols - 1))) = true)
    (heq : (BitGauss.gauss g).rank = (BitGauss.gauss g).sys.n_cols - 1) :
    (BitGauss.solve g).2 = some (BitGauss.solveUnique (BitGauss.gauss g)
      (BitGauss.gauss g).sys.n_rows ((BitGauss.gauss g).sys.n_cols - 1)) := by
  unfold BitGauss.solve
  dsimp only
  rw [if_neg hno, if_pos heq]

theorem solve_eq_search (g : BitGauss)
    (hno : ¬ ((List.range' (BitGauss.gauss g).rank
        ((BitGauss.gauss g).sys.n_rows - (BitGauss.gauss g).rank)).any
          (fun i => (BitGauss.gauss g).sys.get i
            ((BitGauss.gauss g).sys.n_cols - 1))) = true)
    (hne : ¬ (BitGauss.gauss g).rank = (BitGauss.gauss g).sys.n_cols - 1) :
    (BitGauss.solve g).2
      = some ((List.range
          (1 <<< ((BitGauss.gauss g).sys.n_cols - 1 - (BitGauss.gauss g).rank))).foldl
        (BitGauss.solveStep (BitGauss.gauss g) (BitGauss.gauss g).rank
          ((BitGauss.gauss g).sys.n_cols - 1 - (BitGauss.gauss g).rank)
          ((BitGauss.gauss g).sys.n_cols - 1) (BitGauss.gauss g).sys.n_rows)
        ((BitGauss.gauss g).sys.n_cols,
          BitVec.with_length ((BitGauss.gauss g).sys.n_cols - 1))).2 := by
  unfold BitGauss.solve
  dsimp only
  rw [if_neg hno, if_neg hne]

theorem bool_xor_xor (a b : Bool) : Bool.xor (Bool.xor a b) a = b := by
  cases a <;> cases b <;> rfl

theorem bool_eq_xor_of_xor_eq (a b c : Bool) (h : Bool.xor a b = c) :
    a = Bool.xor b c := by
  cases a <;> cases b <;> cases c <;> simp_all

theorem pivot_of_contig (m : BitMat) (N rank : Nat) (P : Finset Nat)
    (hNr : m.n_rows = N)
    (h2 : ∀ p ∈ P, PivotCol m p) (h3 : ∀ c, c < N → c ∉ P → SkipCol m c)
    (hrN : rank ≤ N) (hpiv : ∀ i, i < rank → m.get i i = true) :
    ∀ p, p < rank → PivotCol m p := by
  intro p hp
  by_cases hP : p ∈ P
  · exact h2 p hP
  · have hs := h3 p (by omega) hP p (Nat.le_refl p) (by omega)
    rw [hpiv p hp] at hs
    exact absurd hs (by decide)

theorem cand_sat (G : BitGauss) (rank n_vars n_rest N : Nat)
    (hNr : G.sys.n_rows = N)
    (hnv : rank + n_rest = n_vars)
    (hcol : ∀ p, p < rank → PivotCol G.sys p)
    (hzero : ∀ j, rank ≤ j → j < N → ∀ c, c < n_vars → G.sys.get j c = false)
    (haug : ∀ j, rank ≤ j → j < N → G.sys.get j n_vars = false)
    (i : Nat) :
    ∀ r, r < N → satRow G.sys n_vars (candFun G rank n_vars n_rest i) r := by
  intro r hr
  unfold satRow rowVal
  have hsplit : List.range n_vars
      = List.range rank ++ (List.range n_rest).map (fun s => rank + s) := by
    rw [← hnv, List.range_add]
  rw [hsplit, List.map_append, parity_append, List.map_map]
  by_cases hrk : r < rank
  · have h1 := parity_single rank r
      (fun c => G.sys.get r c && candFun G rank n_vars n_rest i c) hrk
      (fun c hc hcr => by
        show (G.sys.get r c && candFun G rank n_vars n_rest i c) = false
        rw [(hcol c hc).2 r (by omega) (fun h => hcr h.symm), Bool.false_and])
    have h2 : (List.range n_rest).map
        ((fun c => G.sys.get r c && candFun G rank n_vars n_rest i c)
          ∘ (fun s => rank + s))
        = (List.range n_rest).map
          (fun k => Nat.testBit i k && G.sys.get r (rank + k)) := by
      apply List.map_congr_left
      intro k hk
      have hklt : k < n_rest := List.mem_range.mp hk
      show (G.sys.get r (rank + k) && candFun G rank n_vars n_rest i (rank + k))
        = (Nat.testBit i k && G.sys.get r (rank + k))
      unfold candFun
      rw [if_neg (by omega), if_pos (by omega), Nat.add_sub_cancel_left,
        Bool.and_comm]
    rw [h1, h2]
    dsimp only
    rw [(hcol r hrk).1, Bool.true_and]
    unfold candFun
    rw [if_pos hrk]
    unfold accVal
    exact bool_xor_xor _ _
  · have h1 := parity_false ((List.range rank).map
        (fun c => G.sys.get r c && candFun G rank n_vars n_rest i c))
      (fun b hb => by
        obtain ⟨c, hc, hcb⟩ := List.mem_map.mp hb
        have hclt : c < rank := List.mem_range.mp hc
        rw [← hcb]
        show (G.sys.get r c && candFun G rank n_vars n_rest i c) = false
        rw [hzero r (by omega) (by omega) c (by omega), Bool.false_and])
    have h2 := parity_false ((List.range n_rest).map
        ((fun c => G.sys.get r c && candFun G rank n_vars n_rest i c)
          ∘ (fun s => rank + s)))
      (fun b hb => by
        obtain ⟨k, hk, hkb⟩ := List.mem_map.mp hb
        have hklt : k < n_rest := List.mem_range.mp hk
        rw [← hkb]
        show (G.sys.get r (rank + k) && candFun G rank n_vars n_rest i (rank + k))
          = false
        rw [hzero r (by omega) (by omega) (rank + k) (by omega), Bool.false_and])
    rw [h1, h2, haug r (by omega) (by omega)]
    rfl

theorem sat_determined (G : BitGauss) (rank n_vars n_rest N : Nat)
    (hNr : G.sys.n_rows = N)
    (hnv : rank + n_rest = n_vars)
    (hrN : rank ≤ N)
    (hcol : ∀ p, p < rank → PivotCol G.sys p)
    (y : Nat → Bool) (hy : ∀ r, r < N → satRow G.sys n_vars y r) :
    ∀ c, c < n_vars →
      y c = candFun G rank n_vars n_rest (encodeFree rank n_rest y) c := by
  have htb : ∀ k, k < n_rest →
      Nat.testBit (encodeFree rank n_rest y) k = y (rank + k) := by
    intro k hk
    unfold encodeFree
    rw [boolsToNat_testBit, getD_map_range, if_pos hk]
  intro c hc
  by_cases hck : c < rank
  · have hyr := hy c (by omega)
    unfold satRow rowVal at hyr
    have hsplit : List.range n_vars
        = List.range rank ++ (List.range n_rest).map (fun s => rank + s) := by
      rw [← hnv, List.range_add]
    rw [hsplit, List.map_append, parity_append, List.map_map] at hyr
    have h1 := parity_single rank c (fun cc => G.sys.get c cc && y cc) hck
      (fun cc hcc hne => by
        show (G.sys.get c cc && y cc) = false
        rw [(hcol cc hcc).2 c (by omega) (fun h => hne h.symm), Bool.false_and])
    have h2 : (List.range n_rest).map
        ((fun cc => G.sys.get c cc && y cc) ∘ (fun s => rank + s))
        = (List.range n_rest).map
          (fun k => Nat.testBit (encodeFree rank n_rest y) k
            && G.sys.get c (rank + k)) := by
      apply List.map_congr_left
      intro k hk
      have hklt : k < n_rest := List.mem_range.mp hk
      show (G.sys.get c (rank + k) && y (rank + k))
        = (Nat.testBit (encodeFree rank n_rest y) k && G.sys.get c (rank + k))
      rw [htb k hklt, Bool.and_comm]
    rw [h1, h2] at hyr
    dsimp only at hyr
    rw [(hcol c hck).1, Bool.true_and] at hyr
    rw [bool_eq_xor_of_xor_eq _ _ _ hyr]
    unfold candFun
    rw [if_pos hck]
    unfold accVal
    rfl
  · unfold candFun
    rw [if_neg hck, if_pos hc, htb (c - rank) (by omega)]
    congr 1
    omega

theorem satRow_congr (m : BitMat) (nv : Nat) (x y : Nat → Bool) (r : Nat)
    (h : ∀ c, c < nv → x c = y c) :
    satRow m nv x r ↔ satRow m nv y r := by
  unfold satRow rowVal
  have heq : (List.range nv).map (fun c => m.get r c && x c)
      = (List.range nv).map (fun c => m.get r c && y c) := by
    apply List.map_congr_left
    intro c hc
    rw [h c (List.mem_range.mp hc)]
  rw [heq]

theorem weight_eq_candWeight (G : BitGauss) (rank n_vars n_rest i : Nat)
    (hnv : rank + n_rest = n_vars) (y : Nat → Bool)
    (heq : ∀ c, c < n_vars → y c = candFun G rank n_vars n_rest i c) :
    hammingWeight n_vars y = candWeight G rank n_vars n_rest i := by
  unfold hammingWeight
  have h1 : (List.range n_vars).countP (fun c => y c)
      = (List.range n_vars).countP (fun c => candFun G rank n_vars n_rest i c) := by
    apply List.countP_congr
    intro c hcm
    have hclt : c < n_vars := List.mem_range.mp hcm
    show y c = true ↔ candFun G rank n_vars n_rest i c = true
    rw [heq c hclt]
  have hsplit : List.range n_vars
      = List.range rank ++ (List.range n_rest).map (fun s => rank + s) := by
    rw [← hnv, List.range_add]
  rw [h1, hsplit, List.countP_append, List.countP_map]
  have h2 : (List.range rank).countP (fun c => candFun G rank n_vars n_rest i c)
      = (List.range rank).countP (fun j => accVal G rank n_vars n_rest i j) := by
    apply List.countP_congr
    intro c hcm
    have hclt : c < rank := List.mem_range.mp hcm
    show candFun G rank n_vars n_rest i c = true
      ↔ accVal G rank n_vars n_rest i c = true
    unfold candFun
    rw [if_pos hclt]
  have h3 : (List.range n_rest).countP
      ((fun c => candFun G rank n_vars n_rest i c) ∘ (fun s => rank + s))
      = (List.range n_rest).countP (fun k => Nat.testBit i k) := by
    apply List.countP_congr
    intro k hkm
    have hklt : k < n_rest := List.mem_range.mp hkm
    show candFun G rank n_vars n_rest i (rank + k) = true
      ↔ Nat.testBit i k = true
    unfold candFun
    rw [if_neg (by omega), if_pos (by omega), Nat.add_sub_cancel_left]
  rw [h2, h3]
  unfold candWeight
  omega

theorem solveUnique_spec (G : BitGauss) (N n_vars : Nat) (hN : N ≤ n_vars) :
    (BitGauss.solveUnique G N n_vars).len = n_vars
    ∧ ∀ c, (BitGauss.solveUnique G N n_vars).get c
        = if c < N then G.sys.get c n_vars else false := by
  have hfun : (fun (s : BitVec) (i : Nat) => s.set i (G.sys.get i n_vars))
      = (fun s i => s.set (0 + i) (G.sys.get i n_vars)) := by
    funext s i
    rw [Nat.zero_add]
  obtain ⟨f1, f2, f3⟩ := foldl_set_off_spec (BitVec.with_length n_vars)
    (fun j => G.sys.get j n_vars) N 0 (fun j hj => by
      rw [with_length_buf_length]
      exact lt_buf_capacity (by omega))
  have heq : BitGauss.solveUnique G N n_vars
      = (List.range N).foldl (fun s i => s.set (0 + i) (G.sys.get i n_vars))
          (BitVec.with_length n_vars) := by
    unfold BitGauss.solveUnique
    rw [hfun]
  refine ⟨by rw [heq, f1, with_length_len], fun c => ?_⟩
  rw [heq, f3 c]
  by_cases hc : c < N
  · rw [if_pos (by omega), if_pos hc, Nat.sub_zero]
  · rw [if_neg (by omega), if_neg hc, BitVec.get_with_length]

theorem candFun_zero_rest (G : BitGauss) (rank n_vars i c : Nat)
    (h : n_vars ≤ rank) :
    candFun G rank n_vars 0 i c = candFun G rank n_vars 0 0 c := by
  unfold candFun
  by_cases hck : c < rank
  · rw [if_pos hck, if_pos hck]
    rfl
  · rw [if_neg hck, if_neg hck, if_neg (by omega), if_neg (by omega)]

/-! ### The Lights Off system construction -/

theorem grid_index_inj (C ra ca rb cb : Nat) (hca : ca < C) (hcb : cb < C)
    (h : C * ra + ca = C * rb + cb) : ra = rb ∧ ca = cb := by
  rcases Nat.lt_trichotomy ra rb with hlt | heq | hgt
  · exfalso
    have h2 : C * (ra + 1) ≤ C * rb := Nat.mul_le_mul_left C hlt
    have h3 : C * (ra + 1) = C * ra + C := by ring
    omega
  · refine ⟨heq, ?_⟩
    rw [heq] at h
    omega
  · exfalso
    have h2 : C * (rb + 1) ≤ C * ra := Nat.mul_le_mul_left C hgt
    have h3 : C * (rb + 1) = C * rb + C := by ring
    omega

theorem grid_index_lt (R C ra ca : Nat) (hra : ra < R) (hca : ca < C) :
    C * ra + ca < R * C := by
  have h2 : C * (ra + 1) ≤ C * R := Nat.mul_le_mul_left C hra
  have h3 : C * (ra + 1) = C * ra + C := by ring
  have h4 : C * R = R * C := Nat.mul_comm C R
  omega

theorem with_size_n_rows (n c : Nat) : (BitMat.with_size n c).n_rows = n := by
  show (List.replicate n (BitMat.new_row c)).length = n
  exact List.length_replicate _ _

theorem with_size_wf (n c : Nat) : RowsWF (BitMat.with_size n c) c := by
  intro r hr
  have hre := List.eq_of_mem_replicate hr
  rw [hre]
  exact ⟨with_length_len c, with_length_buf_length c⟩

theorem with_size_get (n c r col : Nat) :
    (BitMat.with_size n c).get r col = false := by
  show ((List.replicate n (BitMat.new_row c)).getD r default).get col = false
  rw [getD_replicate]
  by_cases h : r < n
  · rw [if_pos h]
    exact BitVec.get_with_length c col
  · rw [if_neg h]
    show decide ((List.getD [] (buf_index col) 0 >>> bit_index col) &&& 1 = 1)
      = false
    rw [List.getD_nil]
    simp

theorem set_spec (m : BitMat) (R C : Nat) (hnr : m.n_rows = R * C)
    (hwf : RowsWF m (R * C + 1)) (r0 c0 : Nat) (b : Bool)
    (hr0 : r0 < R * C) (hc0 : c0 ≤ R * C) :
    (m.set r0 c0 b).n_rows = R * C
    ∧ RowsWF (m.set r0 c0 b) (R * C + 1)
    ∧ ∀ a bb, (m.set r0 c0 b).get a bb
        = if a = r0 ∧ bb = c0 then b else m.get a bb := by
  refine ⟨by rw [BitMat.n_rows_set, hnr], BitMat.rowsWF_set hwf (by omega), ?_⟩
  intro a bb
  apply BitMat.get_set_mat m r0 c0 b (by omega)
  have hb := (BitMat.rowsWF_rget hwf (r := r0) (by omega)).2
  rw [hb]
  exact lt_buf_capacity (by omega)

theorem condSet_get (m : BitMat) (R C : Nat) (hnr : m.n_rows = R * C)
    (hwf : RowsWF m (R * C + 1)) (p : Prop) [Decidable p] (r0 c0 : Nat)
    (hr0 : p → r0 < R * C) (hc0 : p → c0 ≤ R * C) :
    (if p then m.set r0 c0 true else m).n_rows = R * C
    ∧ RowsWF (if p then m.set r0 c0 true else m) (R * C + 1)
    ∧ ∀ a b, (if p then m.set r0 c0 true else m).get a b
        = if p ∧ a = r0 ∧ b = c0 then true else m.get a b := by
  by_cases hp : p
  · rw [if_pos hp]
    obtain ⟨n1, w1, g1⟩ := set_spec m R C hnr hwf r0 c0 true (hr0 hp) (hc0 hp)
    refine ⟨n1, w1, fun a b => ?_⟩
    rw [g1 a b]
    by_cases hab : a = r0 ∧ b = c0
    · rw [if_pos hab, if_pos ⟨hp, hab.1, hab.2⟩]
    · rw [if_neg hab, if_neg (fun h => hab ⟨h.2.1, h.2.2⟩)]
  · rw [if_neg hp]
    exact ⟨hnr, hwf, fun a b => by rw [if_neg (fun h => hp h.1)]⟩

theorem withCell_raw (field sys : BitMat) (R C row col : Nat)
    (hrow : row < R) (hcol : col < C)
    (hnr : sys.n_rows = R * C) (hwf : RowsWF sys (R * C + 1)) :
    (LightsSolver.withCell field ↑R ↑C (↑R * ↑C) sys ↑row ↑col).n_rows = R * C
    ∧ RowsWF (LightsSolver.withCell field ↑R ↑C (↑R * ↑C) sys ↑row ↑col)
        (R * C + 1)
    ∧ ∀ a b, (LightsSolver.withCell field ↑R ↑C (↑R * ↑C) sys ↑row ↑col).get a b
        = (if a = C * row + col ∧ b = R * C then field.get row col
          else if (sys_index (↑row - 1) ↑col ↑R ↑C ≥ 0)
              ∧ a = (sys_index (↑row - 1) ↑col ↑R ↑C).toNat
              ∧ b = C * row + col then true
          else if (sys_index (↑row + 1) ↑col ↑R ↑C ≥ 0)
              ∧ a = (sys_index (↑row + 1) ↑col ↑R ↑C).toNat
              ∧ b = C * row + col then true
          else if (sys_index ↑row (↑col - 1) ↑R ↑C ≥ 0)
              ∧ a = C * row + col
              ∧ b = (sys_index ↑row (↑col - 1) ↑R ↑C).toNat then true
          else if (sys_index ↑row (↑col + 1) ↑R ↑C ≥ 0)
              ∧ a = C * row + col
              ∧ b = (sys_index ↑row (↑col + 1) ↑R ↑C).toNat then true
          else if a = C * row + col ∧ b = C * row + col then true
          else sys.get a b) := by
  have hh : (sys_index ↑row ↑col ↑R ↑C).toNat = C * row + col := by
    unfold sys_index
    rw [if_pos (by omega)]
    rw [show ((C : Int) * ↑row + ↑col) = ((C * row + col : Nat) : Int) from by
      push_cast
      ring]
    exact Int.toNat_natCast _
  have hrn : ((row : Nat) : Int).toNat = row := Int.toNat_natCast row
  have hcn : ((col : Nat) : Int).toNat = col := Int.toNat_natCast col
  have haugn : ((↑R * ↑C : Int)).toNat = R * C := by
    rw [← Nat.cast_mul]
    exact Int.toNat_natCast _
  have hlt : C * row + col < R * C := grid_index_lt R C row col hrow hcol
  have hb1 : (sys_index ↑row (↑col + 1) ↑R ↑C ≥ 0) →
      (sys_index ↑row (↑col + 1) ↑R ↑C).toNat ≤ R * C := by
    intro hge
    by_cases hc1 : col + 1 < C
    · have hv : sys_index ↑row (↑col + 1) ↑R ↑C
          = ((C * row + (col + 1) : Nat) : Int) := by
        unfold sys_index
        rw [if_pos (by omega)]
        push_cast
        ring
      rw [hv, Int.toNat_natCast]
      have := grid_index_lt R C row (col + 1) hrow hc1
      omega
    · have hv : sys_index ↑row (↑col + 1) ↑R ↑C = -1 := by
        unfold sys_index
        rw [if_neg (by omega)]
      rw [hv] at hge
      omega
  have hb2 : (sys_index ↑row (↑col - 1) ↑R ↑C ≥ 0) →
      (sys_index ↑row (↑col - 1) ↑R ↑C).toNat ≤ R * C := by
    intro hge
    by_cases hc2 : 1 ≤ col
    · have hv : sys_index ↑row (↑col - 1) ↑R ↑C
          = ((C * row + (col - 1) : Nat) : Int) := by
        unfold sys_index
        rw [if_pos (by omega)]
        rw [show ((C * row + (col - 1) : Nat) : Int)
            = ↑(C * row) + (↑col - 1) from by
          rw [Nat.cast_add, Nat.cast_sub hc2]
          push_cast
          ring]
        push_cast
        ring
      rw [hv, Int.toNat_natCast]
      have := grid_index_lt R C row (col - 1) hrow (by omega)
      omega
    · have hv : sys_index ↑row (↑col - 1) ↑R ↑C = -1 := by
        unfold sys_index
        rw [if_neg (by omega)]
      rw [hv] at hge
      omega
  have hb3 : (sys_index (↑row + 1) ↑col ↑R ↑C ≥ 0) →
      (sys_index (↑row + 1) ↑col ↑R ↑C).toNat ≤ R * C := by
    intro hge
    by_cases hc3 : row + 1 < R
    · have hv : sys_index (↑row + 1) ↑col ↑R ↑C
          = ((C * (row + 1) + col : Nat) : Int) := by
        unfold sys_index
        rw [if_pos (by omega)]
        push_cast
        ring
      rw [hv, Int.toNat_natCast]
      have := grid_index_lt R C (row + 1) col hc3 hcol
      omega
    · have hv : sys_index (↑row + 1) ↑col ↑R ↑C = -1 := by
        unfold sys_index
        rw [if_neg (by omega)]
      rw [hv] at hge
      omega
  have hb4 : (sys_index (↑row - 1) ↑col ↑R ↑C ≥ 0) →
      (sys_index (↑row - 1) ↑col ↑R ↑C).toNat ≤ R * C := by
    intro hge
    by_cases hc4 : 1 ≤ row
    · have hv : sys_index (↑row - 1) ↑col ↑R ↑C
          = ((C * (row - 1) + col : Nat) : Int) := by
        unfold sys_index
        rw [if_pos (by omega)]
        rw [show ((C * (row - 1) + col : Nat) : Int)
            = ↑C * (↑row - 1) + ↑col from by
          rw [Nat.cast_add, Nat.cast_mul, Nat.cast_sub hc4]
          push_cast
          ring]
      rw [hv, Int.toNat_natCast]
      have := grid_index_lt R C (row - 1) col (by omega) hcol
      omega
    · have hv : sys_index (↑row - 1) ↑col ↑R ↑C = -1 := by
        unfold sys_index
        rw [if_neg (by omega)]
      rw [hv] at hge
      omega
  unfold LightsSolver.withCell
  dsimp only
  rw [hh, hrn, hcn, haugn]
  obtain ⟨n1, w1, g1⟩ := set_spec sys R C hnr hwf (C * row + col)
    (C * row + col) true hlt (by omega)
  set S1 := sys.set (C * row + col) (C * row + col) true with hS1
  obtain ⟨n2, w2, g2⟩ := condSet_get S1 R C n1 w1
    (sys_index ↑row (↑col + 1) ↑R ↑C ≥ 0) (C * row + col)
    ((sys_index ↑row (↑col + 1) ↑R ↑C).toNat) (fun _ => by omega) hb1
  set S2 := if sys_index ↑row (↑col + 1) ↑R ↑C ≥ 0 then
      S1.set (C * row + col) (sys_index ↑row (↑col + 1) ↑R ↑C).toNat true
    else S1 with hS2
  obtain ⟨n3, w3, g3⟩ := condSet_get S2 R C n2 w2
    (sys_index ↑row (↑col - 1) ↑R ↑C ≥ 0) (C * row + col)
    ((sys_index ↑row (↑col - 1) ↑R ↑C).toNat) (fun _ => by omega) hb2
  set S3 := if sys_index ↑row (↑col - 1) ↑R ↑C ≥ 0 then
      S2.set (C * row + col) (sys_index ↑row (↑col - 1) ↑R ↑C).toNat true
    else S2 with hS3
  obtain ⟨n4, w4, g4⟩ := condSet_get S3 R C n3 w3
    (sys_index (↑row + 1) ↑col ↑R ↑C ≥ 0)
    ((sys_index (↑row + 1) ↑col ↑R ↑C).toNat) (C * row + col)
    (fun hge => by
      have := hb3 hge
      by_cases hc3 : row + 1 < R
      · have hv : sys_index (↑row + 1) ↑col ↑R ↑C
            = ((C * (row + 1) + col : Nat) : Int) := by
          unfold sys_index
          rw [if_pos (by omega)]
          push_cast
          ring
        rw [hv, Int.toNat_natCast]
        exact grid_index_lt R C (row + 1) col hc3 hcol
      · have hv : sys_index (↑row + 1) ↑col ↑R ↑C = -1 := by
          unfold sys_index
          rw [if_neg (by omega)]
        rw [hv] at hge
        omega)
    (fun _ => by omega)
  set S4 := if sys_index (↑row + 1) ↑col ↑R ↑C ≥ 0 then
      S3.set (sys_index (↑row + 1) ↑col ↑R ↑C).toNat (C * row + col) true
    else S3 with hS4
  obtain ⟨n5, w5, g5⟩ := condSet_get S4 R C n4 w4
    (sys_index (↑row - 1) ↑col ↑R ↑C ≥ 0)
    ((sys_index (↑row - 1) ↑col ↑R ↑C).toNat) (C * row + col)
    (fun hge => by
      by_cases hc4 : 1 ≤ row
      · have hv : sys_index (↑row - 1) ↑col ↑R ↑C
            = ((C * (row - 1) + col : Nat) : Int) := by
          unfold sys_index
          rw [if_pos (by omega)]
          rw [show ((C * (row - 1) + col : Nat) : Int)
              = ↑C * (↑row - 1) + ↑col from by
            rw [Nat.cast_add, Nat.cast_mul, Nat.cast_sub hc4]
            push_cast
            ring]
        rw [hv, Int.toNat_natCast]
        exact grid_index_lt R C (row - 1) col (by omega) hcol
      · have hv : sys_index (↑row - 1) ↑col ↑R ↑C = -1 := by
          unfold sys_index
          rw [if_neg (by omega)]
        rw [hv] at hge
        omega)
    (fun _ => by omega)
  set S5 := if sys_index (↑row - 1) ↑col ↑R ↑C ≥ 0 then
      S4.set (sys_index (↑row - 1) ↑col ↑R ↑C).toNat (C * row + col) true
    else S4 with hS5
  obtain ⟨n6, w6, g6⟩ := set_spec S5 R C n5 w5 (C * row + col) (R * C)
    (field.get row col) hlt (by omega)
  exact ⟨n6, w6, fun a b => by
    rw [g6 a b, g5 a b, g4 a b, g3 a b, g2 a b, g1 a b]⟩

theorem sys_index_right_iff (R C row col : Nat) (hrow : row < R) (a b : Nat) :
    ((sys_index ↑row (↑col + 1) ↑R ↑C ≥ 0)
      ∧ a = C * row + col ∧ b = (sys_index ↑row (↑col + 1) ↑R ↑C).toNat)
    ↔ (col + 1 < C ∧ a = C * row + col ∧ b = C * row + col + 1) := by
  by_cases hc1 : col + 1 < C
  · have hv : sys_index ↑row (↑col + 1) ↑R ↑C
        = ((C * row + (col + 1) : Nat) : Int) := by
      unfold sys_index
      rw [if_pos (by omega)]
      push_cast
      ring
    rw [hv, Int.toNat_natCast]
    constructor
    · rintro ⟨_, h2, h3⟩
      exact ⟨hc1, h2, by omega⟩
    · rintro ⟨_, h2, h3⟩
      exact ⟨by omega, h2, by omega⟩
  · have hv : sys_index ↑row (↑col + 1) ↑R ↑C = -1 := by
      unfold sys_index
      rw [if_neg (by omega)]
    rw [hv]
    constructor
    · rintro ⟨hge, _, _⟩
      exact absurd hge (by omega)
    · rintro ⟨hcc, _, _⟩
      exact absurd hcc hc1

theorem sys_index_left_iff (R C row col : Nat) (hrow : row < R) (hcol : col < C)
    (a b : Nat) :
    ((sys_index ↑row (↑col - 1) ↑R ↑C ≥ 0)
      ∧ a = C * row + col ∧ b = (sys_index ↑row (↑col - 1) ↑R ↑C).toNat)
    ↔ (1 ≤ col ∧ a = C * row + col ∧ b = C * row + col - 1) := by
  by_cases hc2 : 1 ≤ col
  · have hv : sys_index ↑row (↑col - 1) ↑R ↑C
        = ((C * row + (col - 1) : Nat) : Int) := by
      unfold sys_index
      rw [if_pos (by omega)]
      rw [show ((C * row + (col - 1) : Nat) : Int)
          = ↑(C * row) + (↑col - 1) from by
        rw [Nat.cast_add, Nat.cast_sub hc2]
        push_cast
        ring]
      push_cast
      ring
    rw [hv, Int.toNat_natCast]
    constructor
    · rintro ⟨_, h2, h3⟩
      exact ⟨hc2, h2, by omega⟩
    · rintro ⟨_, h2, h3⟩
      exact ⟨by omega, h2, by omega⟩
  · have hv : sys_index ↑row (↑col - 1) ↑R ↑C = -1 := by
      unfold sys_index
      rw [if_neg (by omega)]
    rw [hv]
    constructor
    · rintro ⟨hge, _, _⟩
      exact absurd hge (by omega)
    · rintro ⟨hcc, _, _⟩
      exact absurd hcc hc2

theorem sys_index_down_iff (R C row col : Nat) (hcol : col < C) (a b : Nat) :
    ((sys_index (↑row + 1) ↑col ↑R ↑C ≥ 0)
      ∧ a = (sys_index (↑row + 1) ↑col ↑R ↑C).toNat ∧ b = C * row + col)
    ↔ (row + 1 < R ∧ a = C * (row + 1) + col ∧ b = C * row + col) := by
  by_cases hc3 : row + 1 < R
  · have hv : sys_index (↑row + 1) ↑col ↑R ↑C
        = ((C * (row + 1) + col : Nat) : Int) := by
      unfold sys_index
      rw [if_pos (by omega)]
      push_cast
      ring
    rw [hv, Int.toNat_natCast]
    constructor
    · rintro ⟨_, h2, h3⟩
      exact ⟨hc3, h2, h3⟩
    · rintro ⟨_, h2, h3⟩
      exact ⟨by omega, h2, h3⟩
  · have hv : sys_index (↑row + 1) ↑col ↑R ↑C = -1 := by
      unfold sys_index
      rw [if_neg (by omega)]
    rw [hv]
    constructor
    · rintro ⟨hge, _, _⟩
      exact absurd hge (by omega)
    · rintro ⟨hcc, _, _⟩
      exact absurd hcc hc3

theorem sys_index_up_iff (R C row col : Nat) (hrow : row < R) (hcol : col < C)
    (a b : Nat) :
    ((sys_index (↑row - 1) ↑col ↑R ↑C ≥ 0)
      ∧ a = (sys_index (↑row - 1) ↑col ↑R ↑C).toNat ∧ b = C * row + col)
    ↔ (1 ≤ row ∧ a = C * (row - 1) + col ∧ b = C * row + col) := by
  by_cases hc4 : 1 ≤ row
  · have hv : sys_index (↑row - 1) ↑col ↑R ↑C
        = ((C * (row - 1) + col : Nat) : Int) := by
      unfold sys_index
      rw [if_pos (by omega)]
      rw [show ((C * (row - 1) + col : Nat) : Int)
          = ↑C * (↑row - 1) + ↑col from by
        rw [Nat.cast_add, Nat.cast_mul, Nat.cast_sub hc4]
        push_cast
        ring]
    rw [hv, Int.toNat_natCast]
    constructor
    · rintro ⟨_, h2, h3⟩
      exact ⟨hc4, h2, h3⟩
    · rintro ⟨_, h2, h3⟩
      exact ⟨by omega, h2, h3⟩
  · have hv : sys_index (↑row - 1) ↑col ↑R ↑C = -1 := by
      unfold sys_index
      rw [if_neg (by omega)]
    rw [hv]
    constructor
    · rintro ⟨hge, _, _⟩
      exact absurd hge (by omega)
    · rintro ⟨hcc, _, _⟩
      exact absurd hcc hc4

theorem withCell_nat (field sys : BitMat) (R C row col : Nat)
    (hrow : row < R) (hcol : col < C)
    (hnr : sys.n_rows = R * C) (hwf : RowsWF sys (R * C + 1)) :
    (LightsSolver.withCell field ↑R ↑C (↑R * ↑C) sys ↑row ↑col).n_rows = R * C
    ∧ RowsWF (LightsSolver.withCell field ↑R ↑C (↑R * ↑C) sys ↑row ↑col)
        (R * C + 1)
    ∧ ∀ a b, (LightsSolver.withCell field ↑R ↑C (↑R * ↑C) sys ↑row ↑col).get a b
        = (if a = C * row + col ∧ b = R * C then field.get row col
          else if 1 ≤ row ∧ a = C * (row - 1) + col ∧ b = C * row + col then true
          else if row + 1 < R ∧ a = C * (row + 1) + col ∧ b = C * row + col then
            true
          else if 1 ≤ col ∧ a = C * row + col ∧ b = C * row + col - 1 then true
          else if col + 1 < C ∧ a = C * row + col ∧ b = C * row + col + 1 then
            true
          else if a = C * row + col ∧ b = C * row + col then true
          else sys.get a b) := by
  obtain ⟨n1, w1, g⟩ := withCell_raw field sys R C row col hrow hcol hnr hwf
  refine ⟨n1, w1, fun a b => ?_⟩
  rw [g a b]
  simp only [sys_index_up_iff R C row col hrow hcol a b,
    sys_index_down_iff R C row col hcol a b,
    sys_index_left_iff R C row col hrow hcol a b,
    sys_index_right_iff R C row col hrow a b]

theorem withCell_grid (field sys : BitMat) (R C row col : Nat)
    (hrow : row < R) (hcol : col < C)
    (hnr : sys.n_rows = R * C) (hwf : RowsWF sys (R * C + 1)) :
    (LightsSolver.withCell field ↑R ↑C (↑R * ↑C) sys ↑row ↑col).n_rows = R * C
    ∧ RowsWF (LightsSolver.withCell field ↑R ↑C (↑R * ↑C) sys ↑row ↑col)
        (R * C + 1)
    ∧ (∀ ra ca rb cb, ra < R → ca < C → rb < R → cb < C →
        (LightsSolver.withCell field ↑R ↑C (↑R * ↑C) sys ↑row ↑col).get
            (C * ra + ca) (C * rb + cb)
          = ((decide (ra = row ∧ ca = col ∧ rb = row
                ∧ (cb = ca ∨ cb = ca + 1 ∨ cb + 1 = ca))
              || decide (rb = row ∧ cb = col ∧ ca = cb
                ∧ (ra = row + 1 ∨ ra + 1 = row)))
            || sys.get (C * ra + ca) (C * rb + cb)))
    ∧ (∀ ra ca, ra < R → ca < C →
        (LightsSolver.withCell field ↑R ↑C (↑R * ↑C) sys ↑row ↑col).get
            (C * ra + ca) (R * C)
          = if ra = row ∧ ca = col then field.get row col
            else sys.get (C * ra + ca) (R * C)) := by
  obtain ⟨n1, w1, g⟩ := withCell_nat field sys R C row col hrow hcol hnr hwf
  have hlt : C * row + col < R * C := grid_index_lt R C row col hrow hcol
  refine ⟨n1, w1, ?_, ?_⟩
  · intro ra ca rb cb hra hca hrb hcb
    rw [g (C * ra + ca) (C * rb + cb)]
    have hltb := grid_index_lt R C rb cb hrb hcb
    have hlta := grid_index_lt R C ra ca hra hca
    rw [if_neg (fun h => by omega)]
    by_cases hd : (ra = row ∧ ca = col ∧ rb = row
        ∧ (cb = ca ∨ cb = ca + 1 ∨ cb + 1 = ca))
      ∨ (rb = row ∧ cb = col ∧ ca = cb ∧ (ra = row + 1 ∨ ra + 1 = row))
    · have hR : (decide (ra = row ∧ ca = col ∧ rb = row
            ∧ (cb = ca ∨ cb = ca + 1 ∨ cb + 1 = ca))
          || decide (rb = row ∧ cb = col ∧ ca = cb
            ∧ (ra = row + 1 ∨ ra + 1 = row))) = true := by
        rcases hd with h | h
        · rw [decide_eq_true h, Bool.true_or]
        · rw [decide_eq_true h, Bool.or_true]
      rw [hR, Bool.true_or]
      rcases hd with ⟨h1, h2, h3, hsub⟩ | ⟨h1, h2, h3, hsub⟩
      · rcases hsub with hcb1 | hcb1 | hcb1
        · rw [if_neg (fun h => by
              obtain ⟨hra2, _⟩ := grid_index_inj C ra ca (row - 1) col hca hcol
                h.2.1
              omega),
            if_neg (fun h => by
              obtain ⟨hra2, _⟩ := grid_index_inj C ra ca (row + 1) col hca hcol
                h.2.1
              omega),
            if_neg (fun h => by
              obtain ⟨_, hcb2⟩ := grid_index_inj C rb cb row (col - 1) hcb
                (by omega) (by omega)
              omega),
            if_neg (fun h => by
              obtain ⟨_, hcb2⟩ := grid_index_inj C rb cb row (col + 1) hcb h.1
                (by omega)
              omega),
            if_pos ⟨by rw [h1]; omega, by rw [h3]; omega⟩]
        · rw [if_neg (fun h => by
              obtain ⟨hra2, _⟩ := grid_index_inj C ra ca (row - 1) col hca hcol
                h.2.1
              omega),
            if_neg (fun h => by
              obtain ⟨hra2, _⟩ := grid_index_inj C ra ca (row + 1) col hca hcol
                h.2.1
              omega),
            if_neg (fun h => by
              obtain ⟨_, hcb2⟩ := grid_index_inj C rb cb row (col - 1) hcb
                (by omega) (by omega)
              omega),
            if_pos ⟨by omega, by rw [h1]; omega, by rw [h3]; omega⟩]
        · rw [if_neg (fun h => by
              obtain ⟨hra2, _⟩ := grid_index_inj C ra ca (row - 1) col hca hcol
                h.2.1
              omega),
            if_neg (fun h => by
              obtain ⟨hra2, _⟩ := grid_index_inj C ra ca (row + 1) col hca hcol
                h.2.1
              omega),
            if_pos ⟨by omega, by rw [h1]; omega, by rw [h3]; omega⟩]
      · rcases hsub with hra1 | hra1
        · rw [if_neg (fun h => by
              obtain ⟨hra2, _⟩ := grid_index_inj C ra ca (row - 1) col hca hcol
                h.2.1
              omega),
            if_pos ⟨by omega, by rw [hra1]; omega, by rw [h1]; omega⟩]
        · rw [if_pos ⟨by omega, by
              have hh2 : ra = row - 1 := by omega
              rw [hh2]
              omega, by rw [h1]; omega⟩]
    · have hd1 : ¬ (ra = row ∧ ca = col ∧ rb = row
          ∧ (cb = ca ∨ cb = ca + 1 ∨ cb + 1 = ca)) := fun h => hd (Or.inl h)
      have hd2 : ¬ (rb = row ∧ cb = col ∧ ca = cb
          ∧ (ra = row + 1 ∨ ra + 1 = row)) := fun h => hd (Or.inr h)
      rw [if_neg (fun h => by
          obtain ⟨hra2, hca2⟩ := grid_index_inj C ra ca (row - 1) col hca hcol
            h.2.1
          obtain ⟨hrb2, hcb2⟩ := grid_index_inj C rb cb row col hcb hcol h.2.2
          exact hd2 (by omega)),
        if_neg (fun h => by
          obtain ⟨hra2, hca2⟩ := grid_index_inj C ra ca (row + 1) col hca hcol
            h.2.1
          obtain ⟨hrb2, hcb2⟩ := grid_index_inj C rb cb row col hcb hcol h.2.2
          exact hd2 (by omega)),
        if_neg (fun h => by
          obtain ⟨hra2, hca2⟩ := grid_index_inj C ra ca row col hca hcol h.2.1
          obtain ⟨hrb2, hcb2⟩ := grid_index_inj C rb cb row (col - 1) hcb
            (by omega) (by omega)
          exact hd1 (by omega)),
        if_neg (fun h => by
          obtain ⟨hra2, hca2⟩ := grid_index_inj C ra ca row col hca hcol h.2.1
          obtain ⟨hrb2, hcb2⟩ := grid_index_inj C rb cb row (col + 1) hcb h.1
            (by omega)
          exact hd1 (by omega)),
        if_neg (fun h => by
          obtain ⟨hra2, hca2⟩ := grid_index_inj C ra ca row col hca hcol h.1
          obtain ⟨hrb2, hcb2⟩ := grid_index_inj C rb cb row col hcb hcol h.2
          exact hd1 (by omega)),
        decide_eq_false hd1, decide_eq_false hd2, Bool.false_or, Bool.false_or]
  · intro ra ca hra hca
    rw [g (C * ra + ca) (R * C)]
    by_cases hd : ra = row ∧ ca = col
    · rw [if_pos ⟨by rw [hd.1, hd.2], rfl⟩, if_pos hd]
    · rw [if_neg (fun h => hd (grid_index_inj C ra ca row col hca hcol h.1)),
        if_neg (fun h => by omega),
        if_neg (fun h => by omega),
        if_neg (fun h => by omega),
        if_neg (fun h => by
          have := grid_index_lt R C row (col + 1) hrow h.1
          omega),
        if_neg (fun h => by omega),
        if_neg hd]

theorem bool_or_shuffle (x y z w s : Bool) :
    ((x || y) || ((z || w) || s)) = (((x || z) || (y || w)) || s) := by
  cases x <;> cases y <;> cases z <;> cases w <;> cases s <;> rfl

set_option maxHeartbeats 1600000 in
theorem withRow_fold (field : BitMat) (R C row : Nat) (hrow : row < R)
    (sys : BitMat) (hnr : sys.n_rows = R * C) (hwf : RowsWF sys (R * C + 1)) :
    ∀ t, t ≤ C →
      ((List.range t).foldl
        (fun s (col : Nat) => LightsSolver.withCell field ↑R ↑C (↑R * ↑C) s ↑row ↑col)
        sys).n_rows = R * C
      ∧ RowsWF ((List.range t).foldl
          (fun s (col : Nat) => LightsSolver.withCell field ↑R ↑C (↑R * ↑C) s ↑row ↑col)
          sys) (R * C + 1)
      ∧ (∀ ra ca rb cb, ra < R → ca < C → rb < R → cb < C →
          ((List.range t).foldl
            (fun s (col : Nat) => LightsSolver.withCell field ↑R ↑C (↑R * ↑C) s ↑row ↑col)
            sys).get (C * ra + ca) (C * rb + cb)
            = ((decide (ra = row ∧ ca < t ∧ rb = row
                  ∧ (cb = ca ∨ cb = ca + 1 ∨ cb + 1 = ca))
                || decide (rb = row ∧ cb < t ∧ ca = cb
                  ∧ (ra = row + 1 ∨ ra + 1 = row)))
              || sys.get (C * ra + ca) (C * rb + cb)))
      ∧ (∀ ra ca, ra < R → ca < C →
          ((List.range t).foldl
            (fun s (col : Nat) => LightsSolver.withCell field ↑R ↑C (↑R * ↑C) s ↑row ↑col)
            sys).get (C * ra + ca) (R * C)
            = if ra = row ∧ ca < t then field.get row ca
              else sys.get (C * ra + ca) (R * C)) := by
  intro t
  induction t with
  | zero =>
    intro _
    refine ⟨hnr, hwf, ?_, ?_⟩
    · intro ra ca rb cb hra hca hrb hcb
      rw [decide_eq_false (by omega), decide_eq_false (by omega),
        Bool.false_or, Bool.false_or]
      rfl
    · intro ra ca hra hca
      rw [if_neg (by omega)]
      rfl
  | succ t ih =>
    intro ht
    obtain ⟨ihn, ihw, ihc, iha⟩ := ih (by omega)
    have hstep : (List.range (t + 1)).foldl
        (fun s (col : Nat) => LightsSolver.withCell field ↑R ↑C (↑R * ↑C) s ↑row ↑col)
        sys
        = LightsSolver.withCell field ↑R ↑C (↑R * ↑C)
            ((List.range t).foldl
              (fun s (col : Nat) => LightsSolver.withCell field ↑R ↑C (↑R * ↑C) s ↑row
                ↑col) sys) ↑row ↑t := by
      rw [List.range_succ, List.foldl_append]
      rfl
    have hcolt : t < C := by omega
    obtain ⟨cn, cw, cc, caug⟩ := withCell_grid field _ R C row t hrow hcolt
      ihn ihw
    refine ⟨by rw [hstep]; exact cn, by rw [hstep]; exact cw, ?_, ?_⟩
    · intro ra ca rb cb hra hca hrb hcb
      rw [hstep, cc ra ca rb cb hra hca hrb hcb,
        ihc ra ca rb cb hra hca hrb hcb,
        show (decide (ra = row ∧ ca < t + 1 ∧ rb = row
            ∧ (cb = ca ∨ cb = ca + 1 ∨ cb + 1 = ca)))
          = (decide (ra = row ∧ ca = t ∧ rb = row
              ∧ (cb = ca ∨ cb = ca + 1 ∨ cb + 1 = ca))
            || decide (ra = row ∧ ca < t ∧ rb = row
              ∧ (cb = ca ∨ cb = ca + 1 ∨ cb + 1 = ca))) from by
          rw [← Bool.decide_or]
          exact decide_eq_decide.mpr (by omega),
        show (decide (rb = row ∧ cb < t + 1 ∧ ca = cb
            ∧ (ra = row + 1 ∨ ra + 1 = row)))
          = (decide (rb = row ∧ cb = t ∧ ca = cb
              ∧ (ra = row + 1 ∨ ra + 1 = row))
            || decide (rb = row ∧ cb < t ∧ ca = cb
              ∧ (ra = row + 1 ∨ ra + 1 = row))) from by
          rw [← Bool.decide_or]
          exact decide_eq_decide.mpr (by omega)]
      exact bool_or_shuffle _ _ _ _ _
    · intro ra ca hra hca
      rw [hstep, caug ra ca hra hca, iha ra ca hra hca]
      by_cases h1 : ra = row ∧ ca = t
      · rw [if_pos h1, if_pos (by omega), h1.2]
      · rw [if_neg h1]
        by_cases h2 : ra = row ∧ ca < t
        · rw [if_pos h2, if_pos (by omega)]
        · rw [if_neg h2, if_neg (by omega)]

set_option maxHeartbeats 1600000 in
theorem withField_fold (field : BitMat) (R C : Nat) (sys : BitMat)
    (hnr : sys.n_rows = R * C) (hwf : RowsWF sys (R * C + 1)) :
    ∀ t, t ≤ R →
      ((List.range t).foldl
        (fun s (r : Nat) => (List.range C).foldl
          (fun s (col : Nat) => LightsSolver.withCell field ↑R ↑C (↑R * ↑C) s ↑r ↑col)
          s) sys).n_rows = R * C
      ∧ RowsWF ((List.range t).foldl
          (fun s (r : Nat) => (List.range C).foldl
            (fun s (col : Nat) => LightsSolver.withCell field ↑R ↑C (↑R * ↑C) s ↑r ↑col)
            s) sys) (R * C + 1)
      ∧ (∀ ra ca rb cb, ra < R → ca < C → rb < R → cb < C →
          ((List.range t).foldl
            (fun s (r : Nat) => (List.range C).foldl
              (fun s (col : Nat) => LightsSolver.withCell field ↑R ↑C (↑R * ↑C) s ↑r
                ↑col) s) sys).get (C * ra + ca) (C * rb + cb)
            = ((decide (ra < t ∧ rb = ra ∧ (cb = ca ∨ cb = ca + 1 ∨ cb + 1 = ca))
                || decide (rb < t ∧ ca = cb ∧ (ra = rb + 1 ∨ ra + 1 = rb)))
              || sys.get (C * ra + ca) (C * rb + cb)))
      ∧ (∀ ra ca, ra < R → ca < C →
          ((List.range t).foldl
            (fun s (r : Nat) => (List.range C).foldl
              (fun s (col : Nat) => LightsSolver.withCell field ↑R ↑C (↑R * ↑C) s ↑r
                ↑col) s) sys).get (C * ra + ca) (R * C)
            = if ra < t then field.get ra ca
              else sys.get (C * ra + ca) (R * C)) := by
  intro t
  induction t with
  | zero =>
    intro _
    refine ⟨hnr, hwf, ?_, ?_⟩
    · intro ra ca rb cb hra hca hrb hcb
      rw [decide_eq_false (by omega), decide_eq_false (by omega),
        Bool.false_or, Bool.false_or]
      rfl
    · intro ra ca hra hca
      rw [if_neg (by omega)]
      rfl
  | succ t ih =>
    intro ht
    obtain ⟨ihn, ihw, ihc, iha⟩ := ih (by omega)
    have hstep : (List.range (t + 1)).foldl
        (fun s (r : Nat) => (List.range C).foldl
          (fun s (col : Nat) => LightsSolver.withCell field ↑R ↑C (↑R * ↑C) s ↑r ↑col)
          s) sys
        = (List.range C).foldl
            (fun s (col : Nat) => LightsSolver.withCell field ↑R ↑C (↑R * ↑C) s ↑t ↑col)
            ((List.range t).foldl
              (fun s (r : Nat) => (List.range C).foldl
                (fun s (col : Nat) => LightsSolver.withCell field ↑R ↑C (↑R * ↑C) s ↑r
                  ↑col) s) sys) := by
      rw [List.range_succ, List.foldl_append]
      rfl
    have hrowt : t < R := by omega
    obtain ⟨rn, rw2, rc, raug⟩ := withRow_fold field R C t hrowt _ ihn ihw C
      (Nat.le_refl C)
    refine ⟨by rw [hstep]; exact rn, by rw [hstep]; exact rw2, ?_, ?_⟩
    · intro ra ca rb cb hra hca hrb hcb
      rw [hstep, rc ra ca rb cb hra hca hrb hcb,
        ihc ra ca rb cb hra hca hrb hcb,
        show (decide (ra < t + 1 ∧ rb = ra
            ∧ (cb = ca ∨ cb = ca + 1 ∨ cb + 1 = ca)))
          = (decide (ra = t ∧ ca < C ∧ rb = t
              ∧ (cb = ca ∨ cb = ca + 1 ∨ cb + 1 = ca))
            || decide (ra < t ∧ rb = ra
              ∧ (cb = ca ∨ cb = ca + 1 ∨ cb + 1 = ca))) from by
          rw [← Bool.decide_or]
          exact decide_eq_decide.mpr (by omega),
        show (decide (rb < t + 1 ∧ ca = cb ∧ (ra = rb + 1 ∨ ra + 1 = rb)))
          = (decide (rb = t ∧ cb < C ∧ ca = cb ∧ (ra = t + 1 ∨ ra + 1 = t))
            || decide (rb < t ∧ ca = cb ∧ (ra = rb + 1 ∨ ra + 1 = rb))) from by
          rw [← Bool.decide_or]
          exact decide_eq_decide.mpr (by omega)]
      exact bool_or_shuffle _ _ _ _ _
    · intro ra ca hra hca
      rw [hstep, raug ra ca hra hca, iha ra ca hra hca]
      by_cases h1 : ra = t ∧ ca < C
      · rw [if_pos h1, if_pos (by omega), h1.1]
      · rw [if_neg h1]
        by_cases h2 : ra < t
        · rw [if_pos h2, if_pos (by omega)]
        · rw [if_neg h2, if_neg (by omega)]

theorem withField_sys (field : BitMat) :
    (LightsSolver.withField field).alg.sys.n_rows
        = field.n_rows * field.n_cols
    ∧ RowsWF (LightsSolver.withField field).alg.sys
        (field.n_rows * field.n_cols + 1)
    ∧ (∀ ra ca rb cb, ra < field.n_rows → ca < field.n_cols →
        rb < field.n_rows → cb < field.n_cols →
        (LightsSolver.withField field).alg.sys.get
            (field.n_cols * ra + ca) (field.n_cols * rb + cb)
          = decide ((rb = ra ∧ (cb = ca ∨ cb = ca + 1 ∨ cb + 1 = ca))
              ∨ (ca = cb ∧ (ra = rb + 1 ∨ ra + 1 = rb))))
    ∧ (∀ ra ca, ra < field.n_rows → ca < field.n_cols →
        (LightsSolver.withField field).alg.sys.get
            (field.n_cols * ra + ca) (field.n_rows * field.n_cols)
          = field.get ra ca) := by
  have hX : ((↑field.n_rows * ↑field.n_cols : Int)).toNat
      = field.n_rows * field.n_cols := by
    rw [← Nat.cast_mul]
    exact Int.toNat_natCast _
  have hY : ((↑field.n_rows * ↑field.n_cols + 1 : Int)).toNat
      = field.n_rows * field.n_cols + 1 := by
    rw [show ((↑field.n_rows * ↑field.n_cols + 1 : Int))
        = ((field.n_rows * field.n_cols + 1 : Nat) : Int) from by
      push_cast
      ring]
    exact Int.toNat_natCast _
  have heq : (LightsSolver.withField field).alg.sys
      = (List.range field.n_rows).foldl
          (fun s (r : Nat) => (List.range field.n_cols).foldl
            (fun s (col : Nat) => LightsSolver.withCell field ↑field.n_rows
              ↑field.n_cols (↑field.n_rows * ↑field.n_cols) s ↑r ↑col) s)
          (BitMat.with_size ((↑field.n_rows * ↑field.n_cols : Int)).toNat
            ((↑field.n_rows * ↑field.n_cols + 1 : Int)).toNat) := rfl
  rw [heq, hX, hY]
  obtain ⟨fn, fw, fc, faug⟩ := withField_fold field field.n_rows field.n_cols
    (BitMat.with_size (field.n_rows * field.n_cols)
      (field.n_rows * field.n_cols + 1))
    (with_size_n_rows _ _) (with_size_wf _ _) field.n_rows (Nat.le_refl _)
  refine ⟨fn, fw, ?_, ?_⟩
  · intro ra ca rb cb hra hca hrb hcb
    rw [fc ra ca rb cb hra hca hrb hcb, with_size_get, Bool.or_false,
      show (decide (ra < field.n_rows ∧ rb = ra
          ∧ (cb = ca ∨ cb = ca + 1 ∨ cb + 1 = ca)))
        = decide (rb = ra ∧ (cb = ca ∨ cb = ca + 1 ∨ cb + 1 = ca)) from
        decide_eq_decide.mpr (by omega),
      show (decide (rb < field.n_rows ∧ ca = cb ∧ (ra = rb + 1 ∨ ra + 1 = rb)))
        = decide (ca = cb ∧ (ra = rb + 1 ∨ ra + 1 = rb)) from
        decide_eq_decide.mpr (by omega),
      ← Bool.decide_or]
  · intro ra ca hra hca
    rw [faug ra ca hra hca, if_pos hra]

/-- Claim C4: for every grid, the system built by `LightsSolver::with` has
`rows * cols` equation rows over `rows * cols` variables plus one augmented
column; the row of cell `(r, c)` (row index `cols * r + c`) has true
coefficients exactly at itself and at its in-bounds orthogonal neighbors
(same row, column one off, or same column, row one off — no wraparound),
and its augmented bit is the cell's initial state. -/
theorem claim_C4 (field : BitMat) :
    (LightsSolver.withField field).alg.sys.n_rows
        = field.n_rows * field.n_cols
    ∧ RowsWF (LightsSolver.withField field).alg.sys
        (field.n_rows * field.n_cols + 1)
    ∧ (field.n_rows * field.n_cols ≠ 0 →
        (LightsSolver.withField field).alg.sys.n_cols
          = field.n_rows * field.n_cols + 1)
    ∧ (∀ ra ca rb cb, ra < field.n_rows → ca < field.n_cols →
        rb < field.n_rows → cb < field.n_cols →
        (LightsSolver.withField field).alg.sys.get
            (field.n_cols * ra + ca) (field.n_cols * rb + cb)
          = decide ((rb = ra ∧ (cb = ca ∨ cb = ca + 1 ∨ cb + 1 = ca))
              ∨ (ca = cb ∧ (ra = rb + 1 ∨ ra + 1 = rb))))
    ∧ (∀ ra ca, ra < field.n_rows → ca < field.n_cols →
        (LightsSolver.withField field).alg.sys.get
            (field.n_cols * ra + ca) (field.n_rows * field.n_cols)
          = field.get ra ca) := by
  obtain ⟨hn, hw, hc, ha⟩ := withField_sys field
  refine ⟨hn, hw, ?_, hc, ha⟩
  intro h0
  apply n_cols_of_lens (fun r hr => (hw r hr).1)
  intro hcon
  have : (LightsSolver.withField field).alg.sys.rows.length = 0 := by
    rw [hcon]
    rfl
  have hn2 : (LightsSolver.withField field).alg.sys.n_rows = 0 := this
  omega

/-- Witness for C4 at the 2-by-2 all-on field. -/
theorem claim_C4_witness :
    (LightsSolver.withField (BitMat.mk [⟨[3], 2⟩, ⟨[3], 2⟩])).alg.sys.n_rows
        = (BitMat.mk [⟨[3], 2⟩, ⟨[3], 2⟩]).n_rows
            * (BitMat.mk [⟨[3], 2⟩, ⟨[3], 2⟩]).n_cols
    ∧ RowsWF (LightsSolver.withField (BitMat.mk [⟨[3], 2⟩, ⟨[3], 2⟩])).alg.sys
        ((BitMat.mk [⟨[3], 2⟩, ⟨[3], 2⟩]).n_rows
          * (BitMat.mk [⟨[3], 2⟩, ⟨[3], 2⟩]).n_cols + 1)
    ∧ ((BitMat.mk [⟨[3], 2⟩, ⟨[3], 2⟩]).n_rows
          * (BitMat.mk [⟨[3], 2⟩, ⟨[3], 2⟩]).n_cols ≠ 0 →
        (LightsSolver.withField (BitMat.mk [⟨[3], 2⟩, ⟨[3], 2⟩])).alg.sys.n_cols
          = (BitMat.mk [⟨[3], 2⟩, ⟨[3], 2⟩]).n_rows
              * (BitMat.mk [⟨[3], 2⟩, ⟨[3], 2⟩]).n_cols + 1)
    ∧ (∀ ra ca rb cb, ra < (BitMat.mk [⟨[3], 2⟩, ⟨[3], 2⟩]).n_rows →
        ca < (BitMat.mk [⟨[3], 2⟩, ⟨[3], 2⟩]).n_cols →
        rb < (BitMat.mk [⟨[3], 2⟩, ⟨[3], 2⟩]).n_rows →
        cb < (BitMat.mk [⟨[3], 2⟩, ⟨[3], 2⟩]).n_cols →
        (LightsSolver.withField (BitMat.mk [⟨[3], 2⟩, ⟨[3], 2⟩])).alg.sys.get
            ((BitMat.mk [⟨[3], 2⟩, ⟨[3], 2⟩]).n_cols * ra + ca)
            ((BitMat.mk [⟨[3], 2⟩, ⟨[3], 2⟩]).n_cols * rb + cb)
          = decide ((rb = ra ∧ (cb = ca ∨ cb = ca + 1 ∨ cb + 1 = ca))
              ∨ (ca = cb ∧ (ra = rb + 1 ∨ ra + 1 = rb))))
    ∧ (∀ ra ca, ra < (BitMat.mk [⟨[3], 2⟩, ⟨[3], 2⟩]).n_rows →
        ca < (BitMat.mk [⟨[3], 2⟩, ⟨[3], 2⟩]).n_cols →
        (LightsSolver.withField (BitMat.mk [⟨[3], 2⟩, ⟨[3], 2⟩])).alg.sys.get
            ((BitMat.mk [⟨[3], 2⟩, ⟨[3], 2⟩]).n_cols * ra + ca)
            ((BitMat.mk [⟨[3], 2⟩, ⟨[3], 2⟩]).n_rows
              * (BitMat.mk [⟨[3], 2⟩, ⟨[3], 2⟩]).n_cols)
          = (BitMat.mk [⟨[3], 2⟩, ⟨[3], 2⟩]).get ra ca) :=
  claim_C4 (BitMat.mk [⟨[3], 2⟩, ⟨[3], 2⟩])

/-! ### The solution grid and the post-solve counters -/

theorem set_spec_gen (m : BitMat) (N L : Nat) (hnr : m.n_rows = N)
    (hwf : RowsWF m L) (r0 c0 : Nat) (b : Bool) (hr0 : r0 < N) (hc0 : c0 < L) :
    (m.set r0 c0 b).n_rows = N
    ∧ RowsWF (m.set r0 c0 b) L
    ∧ ∀ a bb, (m.set r0 c0 b).get a bb
        = if a = r0 ∧ bb = c0 then b else m.get a bb := by
  refine ⟨by rw [BitMat.n_rows_set, hnr], BitMat.rowsWF_set hwf (by omega), ?_⟩
  intro a bb
  apply BitMat.get_set_mat m r0 c0 b (by omega)
  have hb := (BitMat.rowsWF_rget hwf (r := r0) (by omega)).2
  rw [hb]
  exact lt_buf_capacity (by omega)

theorem condSet_get_gen (m : BitMat) (N L : Nat) (hnr : m.n_rows = N)
    (hwf : RowsWF m L) (p : Prop) [Decidable p] (r0 c0 : Nat)
    (hr0 : p → r0 < N) (hc0 : p → c0 < L) :
    (if p then m.set r0 c0 true else m).n_rows = N
    ∧ RowsWF (if p then m.set r0 c0 true else m) L
    ∧ ∀ a b, (if p then m.set r0 c0 true else m).get a b
        = if p ∧ a = r0 ∧ b = c0 then true else m.get a b := by
  by_cases hp : p
  · rw [if_pos hp]
    obtain ⟨n1, w1, g1⟩ := set_spec_gen m N L hnr hwf r0 c0 true (hr0 hp)
      (hc0 hp)
    refine ⟨n1, w1, fun a b => ?_⟩
    rw [g1 a b]
    by_cases hab : a = r0 ∧ b = c0
    · rw [if_pos hab, if_pos ⟨hp, hab.1, hab.2⟩]
    · rw [if_neg hab, if_neg (fun h => hab ⟨h.2.1, h.2.2⟩)]
  · rw [if_neg hp]
    exact ⟨hnr, hwf, fun a b => by rw [if_neg (fun h => hp h.1)]⟩

theorem gridRow_fold (syssol : BitVec) (R C row : Nat) (hrow : row < R)
    (s0 : BitMat) (hnr : s0.n_rows = R) (hwf : RowsWF s0 C) :
    ∀ t, t ≤ C →
      ((List.range t).foldl
        (fun s (col : Nat) =>
          if syssol.get (C * row + col) then s.set row col true else s)
        s0).n_rows = R
      ∧ RowsWF ((List.range t).foldl
          (fun s (col : Nat) =>
            if syssol.get (C * row + col) then s.set row col true else s)
          s0) C
      ∧ ∀ r c, r < R → c < C →
          ((List.range t).foldl
            (fun s (col : Nat) =>
              if syssol.get (C * row + col) then s.set row col true else s)
            s0).get r c
            = if r = row ∧ c < t ∧ syssol.get (C * row + c) = true then true
              else s0.get r c := by
  intro t
  induction t with
  | zero =>
    intro _
    refine ⟨hnr, hwf, fun r c hr hc => ?_⟩
    rw [if_neg (by omega)]
    rfl
  | succ t ih =>
    intro ht
    obtain ⟨ihn, ihw, ihg⟩ := ih (by omega)
    have hstep : (List.range (t + 1)).foldl
        (fun s (col : Nat) =>
          if syssol.get (C * row + col) then s.set row col true else s) s0
        = (if syssol.get (C * row + t) then
            ((List.range t).foldl
              (fun s (col : Nat) =>
                if syssol.get (C * row + col) then s.set row col true else s)
              s0).set row t true
          else
            (List.range t).foldl
              (fun s (col : Nat) =>
                if syssol.get (C * row + col) then s.set row col true else s)
              s0) := by
      rw [List.range_succ, List.foldl_append]
      rfl
    obtain ⟨cn, cw, cg⟩ := condSet_get_gen _ R C ihn ihw
      (syssol.get (C * row + t) = true) row t (fun _ => hrow)
      (fun _ => by omega)
    refine ⟨by rw [hstep]; exact cn, by rw [hstep]; exact cw, ?_⟩
    intro r c hr hc
    rw [hstep, cg r c, ihg r c hr hc]
    by_cases h1 : syssol.get (C * row + t) = true ∧ r = row ∧ c = t
    · rw [if_pos h1, if_pos ⟨h1.2.1, by omega, by
        rw [h1.2.2]
        exact h1.1⟩]
    · rw [if_neg h1]
      by_cases h2 : r = row ∧ c < t ∧ syssol.get (C * row + c) = true
      · rw [if_pos h2, if_pos ⟨h2.1, by omega, h2.2.2⟩]
      · rw [if_neg h2, if_neg (fun h => by
          by_cases hct : c < t
          · exact h2 ⟨h.1, hct, h.2.2⟩
          · have hceq : c = t := by omega
            exact h1 ⟨by rw [← hceq]; exact h.2.2, h.1, hceq⟩)]

theorem gridField_fold (syssol : BitVec) (R C : Nat) (s0 : BitMat)
    (hnr : s0.n_rows = R) (hwf : RowsWF s0 C) :
    ∀ t, t ≤ R →
      ((List.range t).foldl
        (fun s (row : Nat) => (List.range C).foldl
          (fun s (col : Nat) =>
            if syssol.get (C * row + col) then s.set row col true else s) s)
        s0).n_rows = R
      ∧ RowsWF ((List.range t).foldl
          (fun s (row : Nat) => (List.range C).foldl
            (fun s (col : Nat) =>
              if syssol.get (C * row + col) then s.set row col true else s) s)
          s0) C
      ∧ ∀ r c, r < R → c < C →
          ((List.range t).foldl
            (fun s (row : Nat) => (List.range C).foldl
              (fun s (col : Nat) =>
                if syssol.get (C * row + col) then s.set row col true else s) s)
            s0).get r c
            = if r < t ∧ syssol.get (C * r + c) = true then true
              else s0.get r c := by
  intro t
  induction t with
  | zero =>
    intro _
    refine ⟨hnr, hwf, fun r c hr hc => ?_⟩
    rw [if_neg (by omega)]
    rfl
  | succ t ih =>
    intro ht
    obtain ⟨ihn, ihw, ihg⟩ := ih (by omega)
    have hstep : (List.range (t + 1)).foldl
        (fun s (row : Nat) => (List.range C).foldl
          (fun s (col : Nat) =>
            if syssol.get (C * row + col) then s.set row col true else s) s)
        s0
        = (List.range C).foldl
            (fun s (col : Nat) =>
              if syssol.get (C * t + col) then s.set t col true else s)
            ((List.range t).foldl
              (fun s (row : Nat) => (List.range C).foldl
                (fun s (col : Nat) =>
                  if syssol.get (C * row + col) then s.set row col true else s)
                s) s0) := by
      rw [List.range_succ, List.foldl_append]
      rfl
    have hrowt : t < R := by omega
    obtain ⟨rn, rw2, rg⟩ := gridRow_fold syssol R C t hrowt _ ihn ihw C
      (Nat.le_refl C)
    refine ⟨by rw [hstep]; exact rn, by rw [hstep]; exact rw2, ?_⟩
    intro r c hr hc
    rw [hstep, rg r c hr hc, ihg r c hr hc]
    by_cases h1 : r = t ∧ c < C ∧ syssol.get (C * t + c) = true
    · rw [if_pos h1, if_pos ⟨by omega, by rw [h1.1]; exact h1.2.2⟩]
    · rw [if_neg h1]
      by_cases h2 : r < t ∧ syssol.get (C * r + c) = true
      · rw [if_pos h2, if_pos ⟨by omega, h2.2⟩]
      · rw [if_neg h2, if_neg (fun h => by
          by_cases hrt : r < t
          · exact h2 ⟨hrt, h.2⟩
          · have hre : r = t := by omega
            exact h1 ⟨hre, hc, by rw [← hre]; exact h.2⟩)]

theorem gridOfSolution_spec (syssol : BitVec) (R C : Nat) :
    (LightsSolver.gridOfSolution syssol R C).n_rows = R
    ∧ RowsWF (LightsSolver.gridOfSolution syssol R C) C
    ∧ ∀ r c, r < R → c < C →
        (LightsSolver.gridOfSolution syssol R C).get r c
          = syssol.get (C * r + c) := by
  have heq : LightsSolver.gridOfSolution syssol R C
      = (List.range R).foldl
          (fun s (row : Nat) => (List.range C).foldl
            (fun s (col : Nat) =>
              if syssol.get (C * row + col) then s.set row col true else s) s)
          (BitMat.with_size R C) := rfl
  rw [heq]
  obtain ⟨fn, fw, fg⟩ := gridField_fold syssol R C (BitMat.with_size R C)
    (with_size_n_rows R C) (with_size_wf R C) R (Nat.le_refl R)
  refine ⟨fn, fw, fun r c hr hc => ?_⟩
  rw [fg r c hr hc]
  cases hb : syssol.get (C * r + c)
  · rw [if_neg (fun h => absurd h.2 (by decide))]
    exact with_size_get R C r c
  · rw [if_pos ⟨hr, rfl⟩]

theorem countP_grid_blocks (R C : Nat) (f : Nat → Bool) :
    (List.range (R * C)).countP f
      = ((List.range R).map
          (fun r => (List.range C).countP (fun c => f (C * r + c)))).sum := by
  induction R with
  | zero =>
    rw [Nat.zero_mul]
    rfl
  | succ r ih =>
    have hmul : (r + 1) * C = r * C + C := by ring
    rw [hmul, countP_range_add, ih, List.range_succ, List.map_append,
      List.sum_append]
    have hc : (List.range C).countP (fun s => f (r * C + s))
        = (List.range C).countP (fun c => f (C * r + c)) := by
      apply List.countP_congr
      intro c _
      rw [Nat.mul_comm r C]
    rw [hc]
    show _ = _ + ((List.range C).countP (fun c => f (C * r + c)) + 0)
    omega

theorem gridOnes_of_solution (syssol : BitVec) (R C : Nat) :
    gridOnes (LightsSolver.gridOfSolution syssol R C) R C
      = (List.range (R * C)).countP (fun i => syssol.get i) := by
  obtain ⟨_, _, hg⟩ := gridOfSolution_spec syssol R C
  unfold gridOnes
  rw [countP_grid_blocks R C]
  congr 1
  apply List.map_congr_left
  intro r hr
  apply List.countP_congr
  intro c hc
  rw [hg r c (List.mem_range.mp hr) (List.mem_range.mp hc)]

theorem writeSolution_len (rank n_rest : Nat) (acc rest s : BitVec) :
    (BitGauss.writeSolution rank n_rest acc rest s).len = s.len := by
  unfold BitGauss.writeSolution
  dsimp only
  refine foldl_inv _ _ _ (fun (v : BitVec) => v.len = s.len) ?_ ?_
  · refine foldl_inv _ _ _ (fun (v : BitVec) => v.len = s.len) rfl ?_
    intro x a _ hx
    rw [BitVec.len_set]
    exact hx
  · intro x a _ hx
    rw [BitVec.len_set]
    exact hx

theorem solveUnique_len (g : BitGauss) (N nv : Nat) :
    (BitGauss.solveUnique g N nv).len = nv := by
  unfold BitGauss.solveUnique
  refine foldl_inv _ _ _ (fun (v : BitVec) => v.len = nv) (with_length_len nv) ?_
  intro x a _ hx
  rw [BitVec.len_set]
  exact hx

theorem solve_fst (g0 : BitGauss) :
    (BitGauss.solve g0).1 = BitGauss.gauss g0 := by
  unfold BitGauss.solve
  dsimp only
  split
  · rfl
  · split
    · rfl
    · rfl

theorem solve_some_len (g0 : BitGauss) (sol : BitVec)
    (hsol : (BitGauss.solve g0).2 = some sol) :
    sol.len = (BitGauss.gauss g0).sys.n_cols - 1 := by
  unfold BitGauss.solve at hsol
  dsimp only at hsol
  split at hsol
  · exact absurd hsol (by simp)
  · split at hsol
    · injection hsol with h
      rw [← h]
      exact solveUnique_len _ _ _
    · injection hsol with h
      rw [← h]
      refine foldl_inv _ _ _ (fun st : Nat × BitVec =>
        st.2.len = (BitGauss.gauss g0).sys.n_cols - 1) (with_length_len _) ?_
      intro st i _ hst
      unfold BitGauss.solveStep
      dsimp only
      split
      · show (BitGauss.writeSolution _ _ _ _ st.2).len = _
        rw [writeSolution_len]
        exact hst
      · exact hst

theorem withField_gauss_nvars (field : BitMat) :
    (BitGauss.gauss (LightsSolver.withField field).alg).sys.n_cols - 1
      = field.n_rows * field.n_cols := by
  obtain ⟨hn, hw, _, _⟩ := withField_sys field
  have hg := BitGauss.gauss_lens (LightsSolver.withField field).alg
    (fun r hr => (hw r hr).1)
  by_cases h0 : field.n_rows * field.n_cols = 0
  · have hnil : (BitGauss.gauss (LightsSolver.withField field).alg).sys.rows
        = [] := by
      apply List.length_eq_zero.mp
      have h2 : (BitGauss.gauss (LightsSolver.withField field).alg).sys.n_rows
          = 0 := by
        rw [hg.2, hn, h0]
      exact h2
    rw [n_cols_of_nil hnil]
    omega
  · have hne : (BitGauss.gauss (LightsSolver.withField field).alg).sys.rows
        ≠ [] := by
      intro hcon
      have h2 : (BitGauss.gauss (LightsSolver.withField field).alg).sys.n_rows
          = 0 := by
        show (BitGauss.gauss (LightsSolver.withField field).alg).sys.rows.length
          = 0
        rw [hcon]
        rfl
      rw [hg.2, hn] at h2
      exact h0 h2
    rw [n_cols_of_lens hg.1 hne]
    omega

/-- Claim C6: whenever the Lights Off solver returns a press-pattern grid,
the recorded number of independent solutions is `2^(rows*cols - rank)` for
the elimination rank, and the recorded minimum weight is the number of true
cells of the returned grid. -/
theorem claim_C6 (field : BitMat) (ls1 : LightsSolver) (grid : BitMat)
    (hsol : LightsSolver.solve (LightsSolver.withField field)
      = (ls1, some grid)) :
    ls1.n_solutions = 2 ^ (field.n_rows * field.n_cols
        - (BitGauss.gauss (LightsSolver.withField field).alg).rank)
    ∧ ls1.min_weight = gridOnes grid field.n_rows field.n_cols := by
  unfold LightsSolver.solve at hsol
  rcases hBG : BitGauss.solve (LightsSolver.withField field).alg
    with ⟨alg1, osol⟩
  rw [hBG] at hsol
  have halg : alg1 = BitGauss.gauss (LightsSolver.withField field).alg := by
    have h1 := congrArg Prod.fst hBG
    rw [solve_fst] at h1
    exact h1.symm
  cases osol with
  | none => simp at hsol
  | some syssol =>
    have hsome : (BitGauss.solve (LightsSolver.withField field).alg).2
        = some syssol := by
      rw [hBG]
    have hlen : syssol.len = field.n_rows * field.n_cols := by
      have h1 := solve_some_len _ syssol hsome
      rw [withField_gauss_nvars] at h1
      exact h1
    have hw1 : (LightsSolver.withField field).n_rows = field.n_rows := rfl
    have hw2 : (LightsSolver.withField field).n_cols = field.n_cols := rfl
    rw [hw1, hw2] at hsol
    have hpair : ({ LightsSolver.withField field with
        alg := alg1,
        n_solutions := 1 <<< (field.n_rows * field.n_cols - alg1.rank),
        min_weight := syssol.count_ones },
        some (LightsSolver.gridOfSolution syssol field.n_rows field.n_cols))
        = ((ls1 : LightsSolver), (some grid : Option BitMat)) := hsol
    injection hpair with hA hB
    injection hB with hB2
    constructor
    · rw [← hA]
      show 1 <<< (field.n_rows * field.n_cols - alg1.rank) = _
      rw [halg, Nat.one_shiftLeft]
    · rw [← hA]
      show syssol.count_ones = _
      rw [← hB2, gridOnes_of_solution, BitVec.count_ones_eq, hlen]

/-- Witness for C6 at the 2-by-2 all-on field: the solver returns the
all-on press pattern with one solution and minimum weight four. -/
theorem claim_C6_witness :
    (LightsSolver.solve (LightsSolver.withField
        (BitMat.mk [⟨[3], 2⟩, ⟨[3], 2⟩]))
      = ((LightsSolver.solve (LightsSolver.withField
          (BitMat.mk [⟨[3], 2⟩, ⟨[3], 2⟩]))).1,
        some (BitMat.mk [⟨[3], 2⟩, ⟨[3], 2⟩])))
    ∧ ((LightsSolver.solve (LightsSolver.withField
          (BitMat.mk [⟨[3], 2⟩, ⟨[3], 2⟩]))).1.n_solutions
        = 2 ^ ((BitMat.mk [⟨[3], 2⟩, ⟨[3], 2⟩]).n_rows
            * (BitMat.mk [⟨[3], 2⟩, ⟨[3], 2⟩]).n_cols
            - (BitGauss.gauss (LightsSolver.withField
                (BitMat.mk [⟨[3], 2⟩, ⟨[3], 2⟩])).alg).rank)
      ∧ (LightsSolver.solve (LightsSolver.withField
          (BitMat.mk [⟨[3], 2⟩, ⟨[3], 2⟩]))).1.min_weight
          = gridOnes (BitMat.mk [⟨[3], 2⟩, ⟨[3], 2⟩])
              (BitMat.mk [⟨[3], 2⟩, ⟨[3], 2⟩]).n_rows
              (BitMat.mk [⟨[3], 2⟩, ⟨[3], 2⟩]).n_cols) :=
  ⟨by decide, claim_C6 (BitMat.mk [⟨[3], 2⟩, ⟨[3], 2⟩]) _ _ (by decide)⟩

/-- Claim C1 counterexample: on the system with rows `011` and `010`
(equations `x1 = 1` and `x1 = 0` over two variables), `solve` returns the
assignment `10`, which violates the first original equation; the claim as
stated fails on this system. -/
theorem claim_C1_counterexample :
    (BitGauss.solve (BitGauss.withSys (BitMat.mk [⟨[6], 3⟩, ⟨[2], 3⟩]))).2
      = some (BitVec.mk [1] 2)
    ∧ ¬ satRow (BitMat.mk [⟨[6], 3⟩, ⟨[2], 3⟩]) 2
        (fun c => (BitVec.mk [1] 2).get c) 0 := by
  refine ⟨by decide, fun hsr => ?_⟩
  exact absurd (show rowVal (BitMat.mk [⟨[6], 3⟩, ⟨[2], 3⟩]) 2
      (fun c => (BitVec.mk [1] 2).get c) 0
    = (BitMat.mk [⟨[6], 3⟩, ⟨[2], 3⟩]).get 0 2 from hsr) (by decide)

/-- Claim C1 (amended): on a well-formed augmented system with at least one
row, `n_rows ≤ n_vars`, fewer than 64 free variables, whose elimination
yields contiguous diagonal pivots (`get i i` for every `i < rank`) and
all-zero coefficient rows below the rank, every assignment returned by
`solve` satisfies every original (pre-elimination) equation row, and no
satisfying assignment has strictly smaller Hamming weight. Without the
pivot-contiguity and zero-tail conditions the claim is false. -/
theorem claim_C1 (m0 : BitMat) (L : Nat) (hwf : RowsWF m0 L)
    (hne : m0.rows ≠ []) (hL : 1 ≤ L) (hrows : m0.n_rows ≤ L - 1)
    (hpiv : ∀ i, i < (BitGauss.gauss (BitGauss.withSys m0)).rank →
        (BitGauss.gauss (BitGauss.withSys m0)).sys.get i i = true)
    (hzero : ∀ j, j < m0.n_rows →
        (BitGauss.gauss (BitGauss.withSys m0)).rank ≤ j →
        ∀ c, c < L - 1 →
          (BitGauss.gauss (BitGauss.withSys m0)).sys.get j c = false)
    (hrest : L - 1 - (BitGauss.gauss (BitGauss.withSys m0)).rank < 64)
    (sol : BitVec)
    (hsol : (BitGauss.solve (BitGauss.withSys m0)).2 = some sol) :
    (∀ r, r < m0.n_rows → satRow m0 (L - 1) (fun c => sol.get c) r)
    ∧ ∀ y : Nat → Bool, satAll m0 (L - 1) y →
        hammingWeight (L - 1) (fun c => sol.get c)
          ≤ hammingWeight (L - 1) y := by
  obtain ⟨gwf, gnr, gsat, P, p1, p2, p3, p4⟩ :=
    gauss_inv (L := L) (BitGauss.withSys m0) hwf
  have hNr : (BitGauss.gauss (BitGauss.withSys m0)).sys.n_rows = m0.n_rows := gnr
  have p1' : ∀ p ∈ P, p < m0.n_rows := p1
  have p3' : ∀ c, c < m0.n_rows → c ∉ P →
      SkipCol (BitGauss.gauss (BitGauss.withSys m0)).sys c := p3
  have gsat' : ∀ nv x, satAll m0 nv x
      ↔ satAll (BitGauss.gauss (BitGauss.withSys m0)).sys nv x := gsat
  have hrN : (BitGauss.gauss (BitGauss.withSys m0)).rank ≤ m0.n_rows := by
    rcases p4 with ⟨_, h⟩ | ⟨pm, hpm, h, _⟩
    · rw [h]
      exact Nat.zero_le _
    · have hpmlt := p1' pm hpm
      omega
  have hne2 : (BitGauss.gauss (BitGauss.withSys m0)).sys.rows ≠ [] := by
    intro hcon
    apply hne
    have h0 : (BitGauss.gauss (BitGauss.withSys m0)).sys.rows.length = 0 := by
      rw [hcon]
      rfl
    have h1 : m0.rows.length = 0 := by
      have := hNr
      unfold BitMat.n_rows at this
      omega
    exact List.length_eq_zero.mp h1
  have hcols : (BitGauss.gauss (BitGauss.withSys m0)).sys.n_cols = L :=
    n_cols_of_lens (fun r hr => (gwf r hr).1) hne2
  have hcolP : ∀ p, p < (BitGauss.gauss (BitGauss.withSys m0)).rank →
      PivotCol (BitGauss.gauss (BitGauss.withSys m0)).sys p :=
    pivot_of_contig _ m0.n_rows _ P hNr p2 p3' hrN hpiv
  clear p1 p1' p2 p3 p3' p4 P
  by_cases hany : ((List.range' (BitGauss.gauss (BitGauss.withSys m0)).rank
      ((BitGauss.gauss (BitGauss.withSys m0)).sys.n_rows
        - (BitGauss.gauss (BitGauss.withSys m0)).rank)).any
        (fun i => (BitGauss.gauss (BitGauss.withSys m0)).sys.get i
          ((BitGauss.gauss (BitGauss.withSys m0)).sys.n_cols - 1))) = true
  · rw [solve_eq_none_of_any (BitGauss.withSys m0) hany] at hsol
    exact absurd hsol (by simp)
  · have haug : ∀ j, (BitGauss.gauss (BitGauss.withSys m0)).rank ≤ j →
        j < m0.n_rows →
        (BitGauss.gauss (BitGauss.withSys m0)).sys.get j (L - 1) = false := by
      intro j h1 h2
      cases hgj : (BitGauss.gauss (BitGauss.withSys m0)).sys.get j (L - 1)
      · rfl
      · exfalso
        apply hany
        rw [List.any_eq_true]
        refine ⟨j, List.mem_range'_1.mpr ⟨h1, by omega⟩, ?_⟩
        rw [hcols]
        exact hgj
    have hzero' : ∀ j, (BitGauss.gauss (BitGauss.withSys m0)).rank ≤ j →
        j < m0.n_rows → ∀ c, c < L - 1 →
          (BitGauss.gauss (BitGauss.withSys m0)).sys.get j c = false :=
      fun j h1 h2 c hc => hzero j h2 h1 c hc
    by_cases hru : (BitGauss.gauss (BitGauss.withSys m0)).rank
        = (BitGauss.gauss (BitGauss.withSys m0)).sys.n_cols - 1
    · -- unique-solution branch: rank = n_vars
      have hru' : (BitGauss.gauss (BitGauss.withSys m0)).rank = L - 1 := by
        rw [hru, hcols]
      have hNeq : m0.n_rows = L - 1 := by omega
      rw [solve_eq_unique (BitGauss.withSys m0) hany hru] at hsol
      injection hsol with hsol2
      have hsol3 : sol = BitGauss.solveUnique
          (BitGauss.gauss (BitGauss.withSys m0))
          (BitGauss.gauss (BitGauss.withSys m0)).sys.n_rows (L - 1) := by
        rw [← hsol2, hcols]
      obtain ⟨su1, su2⟩ := solveUnique_spec
        (BitGauss.gauss (BitGauss.withSys m0))
        (BitGauss.gauss (BitGauss.withSys m0)).sys.n_rows (L - 1)
        (by omega)
      have hcand := cand_sat (BitGauss.gauss (BitGauss.withSys m0))
        (BitGauss.gauss (BitGauss.withSys m0)).rank (L - 1) 0 m0.n_rows
        hNr (by omega) hcolP hzero' haug 0
      have hpt : ∀ c, c < L - 1 → sol.get c
          = candFun (BitGauss.gauss (BitGauss.withSys m0))
              (BitGauss.gauss (BitGauss.withSys m0)).rank (L - 1) 0 0 c := by
        intro c hc
        rw [hsol3, su2 c, if_pos (by omega)]
        unfold candFun
        rw [if_pos (by omega)]
        unfold accVal
        cases hgc : (BitGauss.gauss (BitGauss.withSys m0)).sys.get c (L - 1) <;>
          rfl
      have hsatG : satAll (BitGauss.gauss (BitGauss.withSys m0)).sys (L - 1)
          (fun c => sol.get c) := by
        intro r hrlt
        exact (satRow_congr _ _ _ _ r hpt).mpr (hcand r (by omega))
      have hsatm0 : satAll m0 (L - 1) (fun c => sol.get c) :=
        (gsat' (L - 1) _).mpr hsatG
      refine ⟨fun r hrlt => hsatm0 r hrlt, ?_⟩
      intro y hy
      have hyG : satAll (BitGauss.gauss (BitGauss.withSys m0)).sys (L - 1) y :=
        (gsat' (L - 1) y).mp hy
      have hdet := sat_determined (BitGauss.gauss (BitGauss.withSys m0))
        (BitGauss.gauss (BitGauss.withSys m0)).rank (L - 1) 0 m0.n_rows
        hNr (by omega) hrN hcolP y (fun r hrlt => hyG r (by omega))
      have hweq : hammingWeight (L - 1) (fun c => sol.get c)
          = hammingWeight (L - 1) y := by
        unfold hammingWeight
        apply List.countP_congr
        intro c hcm
        have hclt : c < L - 1 := List.mem_range.mp hcm
        show sol.get c = true ↔ y c = true
        rw [hpt c hclt, hdet c hclt, candFun_zero_rest
          (BitGauss.gauss (BitGauss.withSys m0))
          (BitGauss.gauss (BitGauss.withSys m0)).rank (L - 1)
          (encodeFree (BitGauss.gauss (BitGauss.withSys m0)).rank 0 y) c
          (by omega)]
      omega
    · -- minimum-weight search branch: rank < n_vars
      have hru2 : (BitGauss.gauss (BitGauss.withSys m0)).rank ≠ L - 1 := by
        rw [← hcols]
        exact hru
      have hr1 : 1 ≤ L - 1 - (BitGauss.gauss (BitGauss.withSys m0)).rank := by
        omega
      rw [solve_eq_search (BitGauss.withSys m0) hany hru, hcols] at hsol
      have hpow : (1 : Nat) <<< (L - 1
            - (BitGauss.gauss (BitGauss.withSys m0)).rank)
          = (2 ^ (L - 1 - (BitGauss.gauss (BitGauss.withSys m0)).rank) - 1)
            + 1 := by
        rw [Nat.one_shiftLeft]
        have := Nat.two_pow_pos
          (L - 1 - (BitGauss.gauss (BitGauss.withSys m0)).rank)
        omega
      rw [hpow] at hsol
      injection hsol with hsol2
      obtain ⟨i0, hi0lt, hw, hmin, hlen, hbuf, hget⟩ := solveFold_spec
        (BitGauss.gauss (BitGauss.withSys m0))
        (BitGauss.gauss (BitGauss.withSys m0)).rank (L - 1)
        (L - 1 - (BitGauss.gauss (BitGauss.withSys m0)).rank)
        (BitGauss.gauss (BitGauss.withSys m0)).sys.n_rows L
        (by omega) hr1 hrest (by omega) (by omega)
        (2 ^ (L - 1 - (BitGauss.gauss (BitGauss.withSys m0)).rank) - 1)
      have hpt : ∀ c, c < L - 1 → sol.get c
          = candFun (BitGauss.gauss (BitGauss.withSys m0))
              (BitGauss.gauss (BitGauss.withSys m0)).rank (L - 1)
              (L - 1 - (BitGauss.gauss (BitGauss.withSys m0)).rank) i0 c := by
        intro c hc
        rw [← hsol2]
        exact hget c hc
      have hcand := cand_sat (BitGauss.gauss (BitGauss.withSys m0))
        (BitGauss.gauss (BitGauss.withSys m0)).rank (L - 1)
        (L - 1 - (BitGauss.gauss (BitGauss.withSys m0)).rank) m0.n_rows
        hNr (by omega) hcolP hzero' haug i0
      have hsatG : satAll (BitGauss.gauss (BitGauss.withSys m0)).sys (L - 1)
          (fun c => sol.get c) := by
        intro r hrlt
        exact (satRow_congr _ _ _ _ r hpt).mpr (hcand r (by omega))
      have hsatm0 : satAll m0 (L - 1) (fun c => sol.get c) :=
        (gsat' (L - 1) _).mpr hsatG
      refine ⟨fun r hrlt => hsatm0 r hrlt, ?_⟩
      intro y hy
      have hyG : satAll (BitGauss.gauss (BitGauss.withSys m0)).sys (L - 1) y :=
        (gsat' (L - 1) y).mp hy
      have hdet := sat_determined (BitGauss.gauss (BitGauss.withSys m0))
        (BitGauss.gauss (BitGauss.withSys m0)).rank (L - 1)
        (L - 1 - (BitGauss.gauss (BitGauss.withSys m0)).rank) m0.n_rows
        hNr (by omega) hrN hcolP y (fun r hrlt => hyG r (by omega))
      have henc : encodeFree (BitGauss.gauss (BitGauss.withSys m0)).rank
          (L - 1 - (BitGauss.gauss (BitGauss.withSys m0)).rank) y
          < 2 ^ (L - 1 - (BitGauss.gauss (BitGauss.withSys m0)).rank) := by
        have hb := boolsToNat_lt ((List.range
            (L - 1 - (BitGauss.gauss (BitGauss.withSys m0)).rank)).map
          (fun k => y ((BitGauss.gauss (BitGauss.withSys m0)).rank + k)))
        rw [List.length_map, List.length_range] at hb
        exact hb
      have hwy := weight_eq_candWeight (BitGauss.gauss (BitGauss.withSys m0))
        (BitGauss.gauss (BitGauss.withSys m0)).rank (L - 1)
        (L - 1 - (BitGauss.gauss (BitGauss.withSys m0)).rank)
        (encodeFree (BitGauss.gauss (BitGauss.withSys m0)).rank
          (L - 1 - (BitGauss.gauss (BitGauss.withSys m0)).rank) y)
        (by omega) y hdet
      have hwsol := weight_eq_candWeight (BitGauss.gauss (BitGauss.withSys m0))
        (BitGauss.gauss (BitGauss.withSys m0)).rank (L - 1)
        (L - 1 - (BitGauss.gauss (BitGauss.withSys m0)).rank) i0
        (by omega) (fun c => sol.get c) hpt
      have hcmp := hmin (encodeFree (BitGauss.gauss (BitGauss.withSys m0)).rank
        (L - 1 - (BitGauss.gauss (BitGauss.withSys m0)).rank) y) (by omega)
      omega

/-- Witness for the amended C1 at the 3-by-4 system of the `gauss`
docstring example (rows `0011`, `0101`, `1001`): `solve` returns `111`,
which satisfies all three equations and has minimal weight. -/
theorem claim_C1_witness :
    (RowsWF (BitMat.mk [⟨[12], 4⟩, ⟨[10], 4⟩, ⟨[9], 4⟩]) 4
      ∧ (BitMat.mk [⟨[12], 4⟩, ⟨[10], 4⟩, ⟨[9], 4⟩]).rows ≠ []
      ∧ 1 ≤ 4
      ∧ (BitMat.mk [⟨[12], 4⟩, ⟨[10], 4⟩, ⟨[9], 4⟩]).n_rows ≤ 4 - 1
      ∧ (∀ i, i < (BitGauss.gauss (BitGauss.withSys
            (BitMat.mk [⟨[12], 4⟩, ⟨[10], 4⟩, ⟨[9], 4⟩]))).rank →
          (BitGauss.gauss (BitGauss.withSys
            (BitMat.mk [⟨[12], 4⟩, ⟨[10], 4⟩, ⟨[9], 4⟩]))).sys.get i i = true)
      ∧ (∀ j, j < (BitMat.mk [⟨[12], 4⟩, ⟨[10], 4⟩, ⟨[9], 4⟩]).n_rows →
          (BitGauss.gauss (BitGauss.withSys
            (BitMat.mk [⟨[12], 4⟩, ⟨[10], 4⟩, ⟨[9], 4⟩]))).rank ≤ j →
          ∀ c, c < 4 - 1 →
            (BitGauss.gauss (BitGauss.withSys
              (BitMat.mk [⟨[12], 4⟩, ⟨[10], 4⟩, ⟨[9], 4⟩]))).sys.get j c = false)
      ∧ 4 - 1 - (BitGauss.gauss (BitGauss.withSys
          (BitMat.mk [⟨[12], 4⟩, ⟨[10], 4⟩, ⟨[9], 4⟩]))).rank < 64
      ∧ (BitGauss.solve (BitGauss.withSys
          (BitMat.mk [⟨[12], 4⟩, ⟨[10], 4⟩, ⟨[9], 4⟩]))).2
          = some (BitVec.mk [7] 3))
    ∧ ((∀ r, r < (BitMat.mk [⟨[12], 4⟩, ⟨[10], 4⟩, ⟨[9], 4⟩]).n_rows →
          satRow (BitMat.mk [⟨[12], 4⟩, ⟨[10], 4⟩, ⟨[9], 4⟩]) (4 - 1)
            (fun c => (BitVec.mk [7] 3).get c) r)
        ∧ ∀ y : Nat → Bool,
            satAll (BitMat.mk [⟨[12], 4⟩, ⟨[10], 4⟩, ⟨[9], 4⟩]) (4 - 1) y →
            hammingWeight (4 - 1) (fun c => (BitVec.mk [7] 3).get c)
              ≤ hammingWeight (4 - 1) y) :=
  ⟨⟨by decide, by decide, by decide, by decide, by decide, by decide,
      by decide, by decide⟩,
    claim_C1 (BitMat.mk [⟨[12], 4⟩, ⟨[10], 4⟩, ⟨[9], 4⟩]) 4 (by decide)
      (by decide) (by decide) (by decide) (by decide) (by decide) (by decide)
      (BitVec.mk [7] 3) (by decide)⟩

end LOS
